import Mathlib

/-!
Verification of the CM256 erasure-coding library (`cm256.cpp`) against its
natural-language specification.

The development shallowly embeds the library in Lean:

* GF(256) arithmetic (the external `gf256` collaborator of the library,
  modelled from the spec: addition is XOR, multiplication is polynomial
  multiplication over GF(2) reduced by an irreducible polynomial of
  degree 8; here the AES polynomial `x^8+x^4+x^3+x+1`, i.e. `0x11B`).
* The block data model, `GetMatrixElement`, `cm256_encode`, the `Decoder`
  structure with `Initialize`, `DecodeM1`, `Decode`, and `cm256_decode`.

Bytes are wrapped naturals (`GF`, a `Nat` below 256); block buffers are
lists of bytes; the in-place mutations of the C code become explicit
state passing.
-/

namespace CM256

/-! ### GF(256) scalar arithmetic, on `Nat` first

`mulXNat` multiplies by the polynomial `x` (shift left, reduce by the
degree-8 irreducible polynomial 0x11B when the result would overflow a
byte).  `gmulNat` is the standard shift-and-add ("Russian peasant")
carry-less multiplication, walking the bits of the second operand. -/

def gpoly : Nat := 0x11B

def mulXNat (a : Nat) : Nat :=
  if 2 * a < 256 then 2 * a else (2 * a) ^^^ gpoly

def gmulFuel : Nat → Nat → Nat → Nat
  | 0, _, _ => 0
  | fuel + 1, a, b =>
    if b = 0 then 0
    else (if b % 2 = 1 then a else 0) ^^^ gmulFuel fuel (mulXNat a) (b / 2)

def gmulNat (a b : Nat) : Nat := gmulFuel b a b

set_option maxRecDepth 10000

theorem mulXNat_lt : ∀ a : Fin 256, mulXNat a.val < 256 := by decide

theorem gmulFuel_stable (b : Nat) : ∀ f f' a, b ≤ f → b ≤ f' →
    gmulFuel f a b = gmulFuel f' a b := by
  induction b using Nat.strong_induction_on with
  | _ b ih =>
    intro f f' a hf hf'
    by_cases hb : b = 0
    · subst hb
      cases f <;> cases f' <;> simp [gmulFuel]
    · cases f with
      | zero => exact absurd (Nat.le_zero.mp hf) hb
      | succ g =>
        cases f' with
        | zero => exact absurd (Nat.le_zero.mp hf') hb
        | succ g' =>
          simp only [gmulFuel, if_neg hb]
          rw [ih (b / 2) (Nat.div_lt_self (Nat.pos_of_ne_zero hb) (by omega)) g g'
            (mulXNat a) (by omega) (by omega)]

theorem xor_lt_256 {a b : Nat} (ha : a < 256) (hb : b < 256) : a ^^^ b < 256 :=
  Nat.xor_lt_two_pow (n := 8) ha hb

theorem xor_lt_128 {a b : Nat} (ha : a < 128) (hb : b < 128) : a ^^^ b < 128 :=
  Nat.xor_lt_two_pow (n := 7) ha hb

theorem xor_left_comm (a b c : Nat) : a ^^^ (b ^^^ c) = b ^^^ (a ^^^ c) := by
  rw [← Nat.xor_assoc, Nat.xor_comm a b, Nat.xor_assoc]

theorem two_mul_xor (a b : Nat) : 2 * (a ^^^ b) = 2 * a ^^^ 2 * b := by
  have h := Nat.xor_bit false a false b
  simpa [Nat.bit] using h.symm

theorem xor128_lt : ∀ a : Fin 256, 128 ≤ a.val → a.val ^^^ 128 < 128 := by decide

theorem mulXNat_xor {a b : Nat} (ha : a < 256) (hb : b < 256) :
    mulXNat (a ^^^ b) = mulXNat a ^^^ mulXNat b := by
  have hab : a ^^^ b < 256 := xor_lt_256 ha hb
  by_cases ha1 : a < 128 <;> by_cases hb1 : b < 128
  · -- both small: no reduction anywhere
    have h : a ^^^ b < 128 := xor_lt_128 ha1 hb1
    simp only [mulXNat, if_pos (by omega : 2 * a < 256), if_pos (by omega : 2 * b < 256),
      if_pos (by omega : 2 * (a ^^^ b) < 256)]
    exact two_mul_xor a b
  · -- a small, b large: xor is large, one reduction on each side
    have h : ¬ a ^^^ b < 128 := by
      intro hlt
      have : b < 128 := by
        have hb' : b = a ^^^ (a ^^^ b) := (Nat.xor_cancel_left a b).symm
        rw [hb']
        exact xor_lt_128 ha1 hlt
      omega
    simp only [mulXNat, if_pos (by omega : 2 * a < 256), if_neg (by omega : ¬ 2 * b < 256),
      if_neg (by omega : ¬ 2 * (a ^^^ b) < 256)]
    rw [two_mul_xor a b, Nat.xor_assoc]
  · -- a large, b small: symmetric
    have h : ¬ a ^^^ b < 128 := by
      intro hlt
      have : a < 128 := by
        have ha' : a = (a ^^^ b) ^^^ b := by rw [Nat.xor_cancel_right]
        rw [ha']
        exact xor_lt_128 hlt hb1
      omega
    simp only [mulXNat, if_neg (by omega : ¬ 2 * a < 256), if_pos (by omega : 2 * b < 256),
      if_neg (by omega : ¬ 2 * (a ^^^ b) < 256)]
    rw [two_mul_xor a b]
    simp [Nat.xor_assoc, Nat.xor_comm, xor_left_comm]
  · -- both large: the two reductions cancel
    have h : a ^^^ b < 128 := by
      have e : a ^^^ b = (a ^^^ 128) ^^^ (b ^^^ 128) := by
        rw [Nat.xor_assoc, xor_left_comm 128 b 128, Nat.xor_self, Nat.xor_zero]
      rw [e]
      exact xor_lt_128 (xor128_lt ⟨a, ha⟩ (by exact (by omega : (128:Nat) ≤ a)))
        (xor128_lt ⟨b, hb⟩ (by exact (by omega : (128:Nat) ≤ b)))
    simp only [mulXNat, if_neg (by omega : ¬ 2 * a < 256), if_neg (by omega : ¬ 2 * b < 256),
      if_pos (by omega : 2 * (a ^^^ b) < 256)]
    rw [two_mul_xor a b, Nat.xor_assoc, xor_left_comm gpoly (2 * b) gpoly,
      Nat.xor_self, Nat.xor_zero]

theorem gmulNat_zero_right (a : Nat) : gmulNat a 0 = 0 := rfl

theorem gmulNat_succ (a b : Nat) (hb : b ≠ 0) :
    gmulNat a b = (if b % 2 = 1 then a else 0) ^^^ gmulNat (mulXNat a) (b / 2) := by
  obtain ⟨g, rfl⟩ : ∃ g, b = g + 1 := ⟨b - 1, by omega⟩
  show gmulFuel (g + 1) a (g + 1) = _
  simp only [gmulFuel]
  rw [if_neg hb,
    gmulFuel_stable ((g + 1) / 2) g ((g + 1) / 2) (mulXNat a) (by omega) (le_refl _)]
  rfl

theorem gmulNat_lt {a : Nat} (b : Nat) (ha : a < 256) : gmulNat a b < 256 := by
  induction b using Nat.strong_induction_on generalizing a with
  | _ b ih =>
    by_cases hb : b = 0
    · subst hb; simp [gmulNat_zero_right]
    · rw [gmulNat_succ a b hb]
      have h1 : (if b % 2 = 1 then a else 0) < 256 := by split <;> omega
      have h2 : gmulNat (mulXNat a) (b / 2) < 256 :=
        ih (b / 2) (Nat.div_lt_self (Nat.pos_of_ne_zero hb) (by omega)) (mulXNat_lt ⟨a, ha⟩)
      exact xor_lt_256 h1 h2

theorem gmulNat_zero_left (b : Nat) : gmulNat 0 b = 0 := by
  induction b using Nat.strong_induction_on with
  | _ b ih =>
    by_cases hb : b = 0
    · subst hb; simp [gmulNat_zero_right]
    · rw [gmulNat_succ 0 b hb]
      have : mulXNat 0 = 0 := by decide
      rw [this, ih (b / 2) (Nat.div_lt_self (Nat.pos_of_ne_zero hb) (by omega))]
      split <;> simp

theorem gmulNat_mulX_left {a : Nat} (b : Nat) (ha : a < 256) :
    gmulNat (mulXNat a) b = mulXNat (gmulNat a b) := by
  induction b using Nat.strong_induction_on generalizing a with
  | _ b ih =>
    by_cases hb : b = 0
    · subst hb
      simp only [gmulNat_zero_right]
      decide
    · rw [gmulNat_succ (mulXNat a) b hb, gmulNat_succ a b hb,
        mulXNat_xor (by split <;> omega) (gmulNat_lt _ (mulXNat_lt ⟨a, ha⟩)),
        ih (b / 2) (Nat.div_lt_self (Nat.pos_of_ne_zero hb) (by omega)) (mulXNat_lt ⟨a, ha⟩)]
      congr 1
      split
      · rfl
      · decide

theorem gmulNat_one (a : Nat) : gmulNat a 1 = a := by
  rw [gmulNat_succ a 1 one_ne_zero]
  simp [gmulNat_zero_right]

theorem one_gmulNat : ∀ b : Fin 256, gmulNat 1 b.val = b.val := by decide

theorem gmulNat_xor_left {a a' : Nat} (b : Nat) (ha : a < 256) (ha' : a' < 256) :
    gmulNat (a ^^^ a') b = gmulNat a b ^^^ gmulNat a' b := by
  induction b using Nat.strong_induction_on generalizing a a' with
  | _ b ih =>
    by_cases hb : b = 0
    · subst hb; simp [gmulNat_zero_right]
    · rw [gmulNat_succ _ b hb, gmulNat_succ a b hb, gmulNat_succ a' b hb,
        mulXNat_xor ha ha',
        ih (b / 2) (Nat.div_lt_self (Nat.pos_of_ne_zero hb) (by omega))
          (mulXNat_lt ⟨a, ha⟩) (mulXNat_lt ⟨a', ha'⟩)]
      split <;> simp [Nat.xor_assoc, Nat.xor_comm, xor_left_comm]

theorem two_mul_xor_one (n : Nat) : 2 * n ^^^ 1 = 2 * n + 1 := by
  have h := Nat.xor_bit false n true 0
  simpa [Nat.bit] using h

theorem two_mul_div_two_xor_mod_two (b : Nat) : 2 * (b / 2) ^^^ b % 2 = b := by
  rcases Nat.mod_two_eq_zero_or_one b with h | h <;> rw [h]
  · rw [Nat.xor_zero]; omega
  · rw [two_mul_xor_one]; omega

theorem gmulNat_two_mul_left {q : Nat} (a : Nat) (hq : q < 128) :
    gmulNat (2 * q) a = mulXNat (gmulNat q a) := by
  have h : mulXNat q = 2 * q := by rw [mulXNat, if_pos (by omega)]
  rw [← h]
  exact gmulNat_mulX_left a (by omega)

theorem gmulNat_comm {a : Nat} (b : Nat) (ha : a < 256) (hb : b < 256) :
    gmulNat a b = gmulNat b a := by
  induction b using Nat.strong_induction_on with
  | _ b ih =>
    by_cases hb0 : b = 0
    · subst hb0; rw [gmulNat_zero_right, gmulNat_zero_left]
    · have hdiv : b / 2 < b := Nat.div_lt_self (Nat.pos_of_ne_zero hb0) (by omega)
      have hdiv' : b / 2 < 128 := by omega
      calc gmulNat a b
          = (if b % 2 = 1 then a else 0) ^^^ gmulNat (mulXNat a) (b / 2) :=
            gmulNat_succ a b hb0
        _ = (if b % 2 = 1 then a else 0) ^^^ mulXNat (gmulNat a (b / 2)) := by
            rw [gmulNat_mulX_left _ ha]
        _ = (if b % 2 = 1 then a else 0) ^^^ mulXNat (gmulNat (b / 2) a) := by
            rw [ih (b / 2) hdiv (by omega)]
        _ = (if b % 2 = 1 then a else 0) ^^^ gmulNat (mulXNat (b / 2)) a := by
            rw [gmulNat_mulX_left _ (by omega : b / 2 < 256)]
        _ = gmulNat (b % 2) a ^^^ gmulNat (2 * (b / 2)) a := by
            rw [gmulNat_two_mul_left a hdiv', ← gmulNat_mulX_left _ (by omega : b / 2 < 256)]
            congr 1
            rcases Nat.mod_two_eq_zero_or_one b with h | h <;> rw [h]
            · rw [if_neg (by omega), gmulNat_zero_left]
            · rw [if_pos rfl, one_gmulNat ⟨a, ha⟩]
        _ = gmulNat ((b % 2) ^^^ 2 * (b / 2)) a := by
            rw [gmulNat_xor_left a (by omega) (by omega)]
        _ = gmulNat b a := by rw [Nat.xor_comm, two_mul_div_two_xor_mod_two]

theorem gmulNat_xor_right {a b c : Nat} (ha : a < 256) (hb : b < 256) (hc : c < 256) :
    gmulNat a (b ^^^ c) = gmulNat a b ^^^ gmulNat a c := by
  rw [gmulNat_comm _ ha (xor_lt_256 hb hc), gmulNat_comm b ha hb, gmulNat_comm c ha hc]
  exact gmulNat_xor_left a hb hc

theorem gmulNat_mulX_right {a b : Nat} (ha : a < 256) (hb : b < 256) :
    gmulNat a (mulXNat b) = mulXNat (gmulNat a b) := by
  rw [gmulNat_comm (mulXNat b) ha (mulXNat_lt ⟨b, hb⟩), gmulNat_mulX_left a hb,
    gmulNat_comm b ha hb]

theorem gmulNat_assoc {a b c : Nat} (ha : a < 256) (hb : b < 256) (hc : c < 256) :
    gmulNat (gmulNat a b) c = gmulNat a (gmulNat b c) := by
  induction c using Nat.strong_induction_on generalizing b with
  | _ c ih =>
    by_cases hc0 : c = 0
    · subst hc0; rw [gmulNat_zero_right, gmulNat_zero_right, gmulNat_zero_right]
    · have hdiv : c / 2 < c := Nat.div_lt_self (Nat.pos_of_ne_zero hc0) (by omega)
      calc gmulNat (gmulNat a b) c
          = (if c % 2 = 1 then gmulNat a b else 0) ^^^
              gmulNat (mulXNat (gmulNat a b)) (c / 2) := gmulNat_succ _ c hc0
        _ = (if c % 2 = 1 then gmulNat a b else 0) ^^^
              gmulNat (gmulNat a (mulXNat b)) (c / 2) := by
            rw [gmulNat_mulX_right ha hb]
        _ = (if c % 2 = 1 then gmulNat a b else 0) ^^^
              gmulNat a (gmulNat (mulXNat b) (c / 2)) := by
            rw [ih (c / 2) hdiv (mulXNat_lt ⟨b, hb⟩) (by omega)]
        _ = gmulNat a (if c % 2 = 1 then b else 0) ^^^
              gmulNat a (gmulNat (mulXNat b) (c / 2)) := by
            congr 1
            rcases Nat.mod_two_eq_zero_or_one c with h | h <;> rw [h]
            · rw [if_neg (by omega), if_neg (by omega), gmulNat_zero_right]
            · rw [if_pos rfl, if_pos rfl]
        _ = gmulNat a ((if c % 2 = 1 then b else 0) ^^^ gmulNat (mulXNat b) (c / 2)) := by
            rw [gmulNat_xor_right ha (by split <;> omega)
              (gmulNat_lt _ (mulXNat_lt ⟨b, hb⟩))]
        _ = gmulNat a (gmulNat b c) := by rw [← gmulNat_succ b c hc0]

/-! Exponentiation by squaring, used to define the multiplicative inverse
(`ginvNat a = a ^ 254`, the inverse in GF(256) by Fermat). -/

def gpowFuel : Nat → Nat → Nat → Nat
  | 0, _, _ => 1
  | fuel + 1, a, n =>
    if n = 0 then 1
    else if n % 2 = 1 then gmulNat a (gpowFuel fuel (gmulNat a a) (n / 2))
    else gpowFuel fuel (gmulNat a a) (n / 2)

def gpowNat (a n : Nat) : Nat := gpowFuel n a n

def ginvNat (a : Nat) : Nat := gpowNat a 254

theorem ginvNat_lt : ∀ a : Fin 256, ginvNat a.val < 256 := by decide

theorem gmulNat_inv_cancel : ∀ a : Fin 256, a.val ≠ 0 → gmulNat a.val (ginvNat a.val) = 1 := by
  decide

/-! ### The byte field `GF`

A byte, the scalar type of the library (`uint8_t` carrying a GF(256)
element).  Addition is XOR (`gf256_add`), multiplication is `gmulNat`. -/

structure GF where
  val : Nat
  isLt : val < 256
deriving DecidableEq

theorem GF.ext_val : ∀ {x y : GF}, x.val = y.val → x = y := by
  intro x y h
  cases x
  cases y
  cases h
  rfl

instance : Zero GF := ⟨⟨0, by omega⟩⟩
instance : One GF := ⟨⟨1, by omega⟩⟩
instance : Add GF := ⟨fun a b => ⟨a.val ^^^ b.val, xor_lt_256 a.isLt b.isLt⟩⟩
instance : Mul GF := ⟨fun a b => ⟨gmulNat a.val b.val, gmulNat_lt _ a.isLt⟩⟩
instance : Neg GF := ⟨fun a => a⟩
instance : Inv GF := ⟨fun a => ⟨ginvNat a.val, ginvNat_lt ⟨a.val, a.isLt⟩⟩⟩

theorem GF.val_zero : (0 : GF).val = 0 := rfl
theorem GF.val_one : (1 : GF).val = 1 := rfl
theorem GF.val_add (a b : GF) : (a + b).val = a.val ^^^ b.val := rfl
theorem GF.val_mul (a b : GF) : (a * b).val = gmulNat a.val b.val := rfl
theorem GF.val_inv (a : GF) : (a⁻¹).val = ginvNat a.val := rfl

theorem ginvNat_zero : ginvNat 0 = 0 := by decide

theorem GF.add_assoc' (a b c : GF) : a + b + c = a + (b + c) :=
  GF.ext_val (Nat.xor_assoc _ _ _)

theorem GF.add_comm' (a b : GF) : a + b = b + a := GF.ext_val (Nat.xor_comm _ _)

theorem GF.zero_add' (a : GF) : 0 + a = a := GF.ext_val (Nat.zero_xor _)

theorem GF.add_zero' (a : GF) : a + 0 = a := GF.ext_val (Nat.xor_zero _)

theorem GF.neg_add_cancel' (a : GF) : -a + a = 0 := GF.ext_val (Nat.xor_self _)

theorem GF.mul_assoc' (a b c : GF) : a * b * c = a * (b * c) :=
  GF.ext_val (gmulNat_assoc a.isLt b.isLt c.isLt)

theorem GF.mul_comm' (a b : GF) : a * b = b * a :=
  GF.ext_val (gmulNat_comm _ a.isLt b.isLt)

theorem GF.one_mul' (a : GF) : 1 * a = a := by
  apply GF.ext_val
  exact one_gmulNat ⟨a.val, a.isLt⟩

theorem GF.mul_one' (a : GF) : a * 1 = a := GF.ext_val (gmulNat_one _)

theorem GF.zero_mul' (a : GF) : 0 * a = 0 := GF.ext_val (gmulNat_zero_left _)

theorem GF.mul_zero' (a : GF) : a * 0 = 0 := GF.ext_val (gmulNat_zero_right a.val)

theorem GF.left_distrib' (a b c : GF) : a * (b + c) = a * b + a * c :=
  GF.ext_val (gmulNat_xor_right a.isLt b.isLt c.isLt)

theorem GF.right_distrib' (a b c : GF) : (a + b) * c = a * c + b * c :=
  GF.ext_val (gmulNat_xor_left _ a.isLt b.isLt)

theorem GF.val_ne_zero {a : GF} (h : a ≠ (0 : GF)) : a.val ≠ 0 := by
  intro hv
  exact h (GF.ext_val hv)

theorem GF.mul_inv_cancel' (a : GF) (h : a ≠ (0 : GF)) : a * a⁻¹ = 1 := by
  apply GF.ext_val
  exact gmulNat_inv_cancel ⟨a.val, a.isLt⟩ (GF.val_ne_zero h)

theorem GF.inv_zero' : (0 : GF)⁻¹ = 0 := GF.ext_val ginvNat_zero

theorem GF.zero_ne_one' : (0 : GF) ≠ 1 := by
  intro h
  have hv := congrArg GF.val h
  exact absurd hv (by decide)

instance : CommRing GF where
  nsmul := nsmulRec
  zsmul := zsmulRec
  add_assoc := GF.add_assoc'
  add_comm := GF.add_comm'
  zero_add := GF.zero_add'
  add_zero := GF.add_zero'
  neg_add_cancel := GF.neg_add_cancel'
  mul_assoc := GF.mul_assoc'
  mul_comm := GF.mul_comm'
  one_mul := GF.one_mul'
  mul_one := GF.mul_one'
  zero_mul := GF.zero_mul'
  mul_zero := GF.mul_zero'
  left_distrib := GF.left_distrib'
  right_distrib := GF.right_distrib'

instance : Field GF where
  exists_pair_ne := ⟨0, 1, GF.zero_ne_one'⟩
  mul_inv_cancel := GF.mul_inv_cancel'
  inv_zero := GF.inv_zero'
  nnqsmul := _
  qsmul := _

/-- Characteristic two: every element is its own negative. -/
theorem GF.neg_eq (a : GF) : -a = a := rfl

theorem GF.add_self (a : GF) : a + a = 0 := GF.ext_val (Nat.xor_self _)

theorem GF.sub_eq_add (a b : GF) : a - b = a + b := by
  rw [sub_eq_add_neg]
  exact congrArg (fun x => a + x) (GF.neg_eq b)

/-! ### Data model

`cm256_encoder_params` keeps the C `int` fields as `Int` so that the
validation branches (`<= 0`, `> 256`) are modelled exactly.
`cm256_block` is a labeled block: `Block` models the `blockBytes` bytes
behind the `unsigned char*`, `Index` the `unsigned char Index`. -/

structure cm256_encoder_params where
  OriginalCount : Int
  RecoveryCount : Int
  BlockBytes : Int

structure cm256_block where
  Block : List GF
  Index : Nat
deriving DecidableEq

instance : Inhabited GF := ⟨0⟩
instance : Inhabited cm256_block := ⟨⟨[], 0⟩⟩

/-- `static_cast<uint8_t>(n)`: truncation of a nonnegative value to a byte. -/
def byteOfNat (n : Nat) : GF := ⟨n % 256, Nat.mod_lt _ (by omega)⟩

/-! ### The GF(256) collaborator's bulk operations

Modelled from the spec (§6, the library's `gf256` dependency is external):
`add` is XOR; `div`/`inv` are field division and inverse; the `_mem`
operations are the corresponding byte-wise bulk operations. -/

def gf256_add (a b : GF) : GF := a + b

def gf256_div (a b : GF) : GF := a / b

def gf256_inv (a : GF) : GF := a⁻¹

/-- `gf256_add_mem(dst, src, n)`: `dst ^= src` byte-wise. -/
def gf256_add_mem (dst src : List GF) : List GF := List.zipWith (· + ·) dst src

/-- `gf256_add2_mem(dst, a, b, n)`: `dst ^= a ^ b` byte-wise. -/
def gf256_add2_mem (dst a b : List GF) : List GF :=
  List.zipWith (· + ·) (List.zipWith (· + ·) dst a) b

/-- `gf256_addset_mem(dst, a, b, n)`: `dst := a ^ b` byte-wise. -/
def gf256_addset_mem (a b : List GF) : List GF := List.zipWith (· + ·) a b

/-- `gf256_mul_mem(dst, src, c, n)`: `dst := c * src` byte-wise. -/
def gf256_mul_mem (src : List GF) (c : GF) : List GF := src.map (fun x => c * x)

/-- `gf256_muladd_mem(dst, c, src, n)`: `dst += c * src` byte-wise. -/
def gf256_muladd_mem (dst : List GF) (c : GF) (src : List GF) : List GF :=
  List.zipWith (fun d s => d + c * s) dst src

/-! ### Matrix element (`GetMatrixElement`, cm256.cpp:108) -/

def GetMatrixElement (x_i x_0 y_j : GF) : GF :=
  gf256_div (gf256_add y_j x_0) (gf256_add x_i y_j)

/-! ### Encoder (`cm256_encode`, cm256.cpp:117)

The output region is returned as the list of `m` recovery rows.  The two
null-pointer checks of the C code are modelled by an `Option` for the
originals array and a flag for the output pointer. -/

/-- Rows `i >= 1` of the encoder: `recoveryBlock := a_{i,0} * originals[0]`,
then `recoveryBlock += a_{i,j} * originals[j]` for `j = 1..k-1`. -/
def encodeRow (k : Nat) (x_i x_0 : GF) (originals : List (List GF)) : List GF :=
  (List.range' 1 (k - 1)).foldl
    (fun acc j =>
      gf256_muladd_mem acc (GetMatrixElement x_i x_0 (byteOfNat j)) (originals.getD j []))
    (gf256_mul_mem (originals.getD 0 []) (GetMatrixElement x_i x_0 (byteOfNat 0)))

/-- Row `0` of the encoder: plain parity,
`recoveryBlock := originals[0] ^ originals[1]` then `^= originals[j]`. -/
def encodeRow0 (k : Nat) (originals : List (List GF)) : List GF :=
  (List.range' 2 (k - 2)).foldl
    (fun acc j => gf256_add_mem acc (originals.getD j []))
    (gf256_addset_mem (originals.getD 0 []) (originals.getD 1 []))

def cm256_encode (params : cm256_encoder_params)
    (originals : Option (List (List GF))) (recoveryNull : Bool) :
    Except Int (List (List GF)) :=
  if params.OriginalCount ≤ 0 ∨ params.RecoveryCount ≤ 0 ∨ params.BlockBytes ≤ 0 then
    .error (-1)
  else if params.OriginalCount + params.RecoveryCount > 256 then
    .error (-2)
  else if originals.isNone ∨ recoveryNull then
    .error (-3)
  else
    let k := params.OriginalCount.toNat
    let m := params.RecoveryCount.toNat
    let orig := originals.getD []
    if k = 1 then
      .ok (List.replicate m (orig.getD 0 []))
    else
      let x_0 := byteOfNat k
      .ok (encodeRow0 k orig ::
        (List.range' 1 (m - 1)).map (fun i => encodeRow k (byteOfNat (x_0.val + i)) x_0 orig))

/-! ### Decoder state (`struct Decoder`, cm256.cpp:198)

The C `Decoder` holds pointers into the caller's block array; here
`Original` and `Recovery` hold positions into the block list, and the
block list itself is threaded through the functions explicitly.
`ErasuresIndices` models the `uint8_t[256]` array (its uninitialized
bytes are modelled as zero; under the validity hypotheses of the
theorems below the code never reads an uninitialized entry while the
erasures list is in use). -/

structure DecoderState where
  Params : cm256_encoder_params
  Recovery : List Nat
  Original : List Nat
  ErasuresIndices : List Nat

/-- The second loop of `Decoder::Initialize` (cm256.cpp:256): scan the
presence bits in ascending order, rewriting the array in place with the
indices found absent, stopping once `RecoveryCount` entries are found.
`rem` is the remaining number of iterations (`256 - ii`). -/
def erasureScan (recoveryCount : Nat) : Nat → Nat → Nat → List Nat → List Nat
  | 0, _, _, arr => arr
  | rem + 1, ii, indexCount, arr =>
    if arr.getD ii 0 = 0 then
      let arr' := arr.set indexCount ii
      if indexCount + 1 ≥ recoveryCount then arr'
      else erasureScan recoveryCount rem (ii + 1) (indexCount + 1) arr'
    else erasureScan recoveryCount rem (ii + 1) indexCount arr

/-- `Decoder::Initialize` (cm256.cpp:224): partition the input blocks by
index, mark presence bits, then identify erasures. -/
def Decoder.Initialize (params : cm256_encoder_params) (blocks : List cm256_block) :
    DecoderState :=
  let k := params.OriginalCount.toNat
  let st := (List.range k).foldl
    (fun (st : List Nat × List Nat × List Nat) ii =>
      let row := (blocks.getD ii default).Index
      if row < k then (st.1 ++ [ii], st.2.1, st.2.2.set row 1)
      else (st.1, st.2.1 ++ [ii], st.2.2))
    ([], [], List.replicate 256 0)
  { Params := params
    Original := st.1
    Recovery := st.2.1
    ErasuresIndices := erasureScan st.2.1.length 256 0 0 st.2.2 }

/-- The loop body of `Decoder::DecodeM1` (cm256.cpp:277-291): stage a
block, or XOR a staged pair into the output buffer. -/
def m1Step (blocks : List cm256_block) (acc : List GF × Option (List GF)) (opos : Nat) :
    List GF × Option (List GF) :=
  let inBlock2 := (blocks.getD opos default).Block
  match acc.2 with
  | none => (acc.1, some inBlock2)
  | some inBlock => (gf256_add2_mem acc.1 inBlock inBlock2, none)

/-- The trailing "Complete XORs" step of `Decoder::DecodeM1`
(cm256.cpp:293-297): fold a still-staged block into the output. -/
def m1Flush (acc : List GF × Option (List GF)) : List GF :=
  match acc.2 with
  | some inBlock => gf256_add_mem acc.1 inBlock
  | none => acc.1

/-- `Decoder::DecodeM1` (cm256.cpp:270): XOR all original blocks into the
single recovery block, two at a time, and relabel it with the erased
index. -/
def Decoder.DecodeM1 (d : DecoderState) (blocks : List cm256_block) : List cm256_block :=
  let rpos := d.Recovery.getD 0 0
  let acc := d.Original.foldl (m1Step blocks) ((blocks.getD rpos default).Block, none)
  let out := m1Flush acc
  blocks.set rpos { Block := out, Index := d.ErasuresIndices.getD 0 0 }

/-! ### General decoder (`Decoder::Decode`, cm256.cpp:303)

The square matrix (a flat `uint8_t` array in C, row-major, row length
`RecoveryCount`) is modelled as a function of (row, column); writes
become pointwise functional updates. -/

/-- `gf256_mul_mem` applied to the tail of a matrix row: scale row `i`,
columns `lo..n-1`, by `c`. -/
def scaleRowFrom (mat : Nat → Nat → GF) (i lo n : Nat) (c : GF) : Nat → Nat → GF :=
  fun r j => if r = i ∧ lo ≤ j ∧ j < n then c * mat r j else mat r j

/-- `gf256_muladd_mem` applied to the tail of a matrix row: add `c` times
row `src`, columns `lo..n-1`, into row `dst`. -/
def muladdRowFrom (mat : Nat → Nat → GF) (dst src lo n : Nat) (c : GF) : Nat → Nat → GF :=
  fun r j => if r = dst ∧ lo ≤ j ∧ j < n then mat r j + c * mat src j else mat r j

structure ElimState where
  matrix : Nat → Nat → GF
  pivots : List Nat
  blocks : List cm256_block

/-- The pivot hunt of the Gaussian elimination (cm256.cpp:363): the first
`remainingIndex` in `[j, n)` whose row (looked up through `pivots`) has a
non-zero entry in column `j`. -/
def pivotSearch (mat : Nat → Nat → GF) (pivots : List Nat) (j n : Nat) : Option Nat :=
  (List.range' j (n - j)).find? (fun r => mat (pivots.getD r 0) j ≠ 0)

/-- One column of the Gaussian elimination (cm256.cpp:360-410): find the
pivot, swap it into place in `pivots`, assign the output index, normalize
the pivot row and its block, and eliminate the column from the rows still
unprocessed. -/
def gaussStep (recovery erasures : List Nat) (n : Nat) (st : ElimState) (j : Nat) :
    ElimState :=
  match pivotSearch st.matrix st.pivots j n with
  | none => st
  | some r =>
    let i := st.pivots.getD r 0
    let matrixElement := st.matrix i j
    -- Swap pivots
    let pivots' := (st.pivots.set r (st.pivots.getD j 0)).set j i
    -- Set the index
    let rpos := recovery.getD i 0
    let blocks1 := st.blocks.set rpos
      { (st.blocks.getD rpos default) with Index := erasures.getD j 0 }
    -- Normalize the pivot row and its block when the pivot is not 1
    let mat1 := if matrixElement ≠ 1 then
        scaleRowFrom st.matrix i (j + 1) n (gf256_inv matrixElement)
      else st.matrix
    let blocks2 := if matrixElement ≠ 1 then
        blocks1.set rpos
          { (blocks1.getD rpos default) with
            Block := gf256_mul_mem (blocks1.getD rpos default).Block
              (gf256_inv matrixElement) }
      else blocks1
    -- Remove the pivot column from the remaining rows
    let final := (List.range' (j + 1) (n - (j + 1))).foldl
      (fun (acc : (Nat → Nat → GF) × List cm256_block) kk =>
        let otheri := pivots'.getD kk 0
        let otherMatrixElement := acc.1 otheri j
        let opos := recovery.getD otheri 0
        (muladdRowFrom acc.1 otheri i (j + 1) n otherMatrixElement,
         acc.2.set opos
           { (acc.2.getD opos default) with
             Block := gf256_muladd_mem (acc.2.getD opos default).Block
               otherMatrixElement ((acc.2.getD rpos default).Block) }))
      (mat1, blocks2)
    { matrix := final.1, pivots := pivots', blocks := final.2 }

/-- Back-substitution (cm256.cpp:414-432): for `j` from `n-2` down to `0`,
add `row[k]` times the already-final block of pivot `k` into the block of
pivot `j`, for `k` from `n-1` down to `j+1`. -/
def backSubstitute (recovery : List Nat) (mat : Nat → Nat → GF) (pivots : List Nat)
    (n : Nat) (blocks : List cm256_block) : List cm256_block :=
  (List.range (n - 1)).reverse.foldl
    (fun bl j =>
      let jIndex := pivots.getD j 0
      let bpos := recovery.getD jIndex 0
      (List.range' (j + 1) (n - 1 - j)).reverse.foldl
        (fun bl2 k =>
          let kIndex := pivots.getD k 0
          let matrixElement := mat jIndex k
          bl2.set bpos
            { (bl2.getD bpos default) with
              Block := gf256_muladd_mem (bl2.getD bpos default).Block
                matrixElement ((bl2.getD (recovery.getD kIndex 0) default).Block) })
        bl)
    blocks

/-- `Decoder::Decode` (cm256.cpp:303): eliminate the surviving originals
from the recovery rows, fill the square matrix, run the Gaussian
elimination mirrored on the blocks, then back-substitute. -/
def Decoder.Decode (d : DecoderState) (blocks : List cm256_block) : List cm256_block :=
  let x_0 := byteOfNat d.Params.OriginalCount.toNat
  let n := d.Recovery.length
  -- Eliminate original data from the recovery rows
  let blocks1 := d.Original.foldl
    (fun bl opos =>
      let inBlock := (bl.getD opos default).Block
      let inRow := (bl.getD opos default).Index
      d.Recovery.foldl
        (fun bl2 rpos =>
          let b := bl2.getD rpos default
          let matrixElement := GetMatrixElement (byteOfNat b.Index) x_0 (byteOfNat inRow)
          bl2.set rpos { b with Block := gf256_muladd_mem b.Block matrixElement inBlock })
        bl)
    blocks
  -- Fill matrix
  let mat0 : Nat → Nat → GF := fun i j =>
    GetMatrixElement (byteOfNat ((blocks1.getD (d.Recovery.getD i 0) default).Index)) x_0
      (byteOfNat (d.ErasuresIndices.getD j 0))
  -- Gaussian elimination, then back-substitution
  let pivots0 := List.range d.Params.OriginalCount.toNat
  let st := (List.range n).foldl (gaussStep d.Recovery d.ErasuresIndices n)
    { matrix := mat0, pivots := pivots0, blocks := blocks1 }
  backSubstitute d.Recovery st.matrix st.pivots n st.blocks

/-- `cm256_decode` (cm256.cpp:437): validation, the `k = 1` and
no-erasure fast returns, the `m = 1` fast path, and the general decoder.
Returns the C return value together with the final state of the caller's
block array. -/
def cm256_decode (params : cm256_encoder_params) (blocks : List cm256_block) :
    Int × List cm256_block :=
  if params.OriginalCount ≤ 0 ∨ params.RecoveryCount ≤ 0 ∨ params.BlockBytes ≤ 0 then
    (-1, blocks)
  else if params.OriginalCount + params.RecoveryCount > 256 then
    (-2, blocks)
  else if params.OriginalCount = 1 then
    (0, blocks.set 0 { (blocks.getD 0 default) with Index := 0 })
  else
    let d := Decoder.Initialize params blocks
    if d.Recovery.length = 0 then (0, blocks)
    else if params.RecoveryCount = 1 then (0, Decoder.DecodeM1 d blocks)
    else (0, Decoder.Decode d blocks)

/-! ### Utility lemmas about the bulk memory operations -/

theorem length_gf256_add_mem (d s : List GF) :
    (gf256_add_mem d s).length = min d.length s.length := List.length_zipWith _ _ _

theorem length_gf256_addset_mem (a b : List GF) :
    (gf256_addset_mem a b).length = min a.length b.length := List.length_zipWith _ _ _

theorem length_gf256_mul_mem (s : List GF) (c : GF) :
    (gf256_mul_mem s c).length = s.length := List.length_map _ _

theorem length_gf256_muladd_mem (d : List GF) (c : GF) (s : List GF) :
    (gf256_muladd_mem d c s).length = min d.length s.length := List.length_zipWith _ _ _

theorem getD_gf256_add_mem (d s : List GF) (pos : Nat)
    (h1 : pos < d.length) (h2 : pos < s.length) :
    (gf256_add_mem d s).getD pos 0 = d.getD pos 0 + s.getD pos 0 := by
  rw [gf256_add_mem, List.getD_eq_getElem _ _ (by simp [List.length_zipWith]; omega),
    List.getD_eq_getElem _ _ h1, List.getD_eq_getElem _ _ h2]
  exact List.getElem_zipWith

theorem getD_gf256_addset_mem (a b : List GF) (pos : Nat)
    (h1 : pos < a.length) (h2 : pos < b.length) :
    (gf256_addset_mem a b).getD pos 0 = a.getD pos 0 + b.getD pos 0 := by
  rw [gf256_addset_mem, List.getD_eq_getElem _ _ (by simp [List.length_zipWith]; omega),
    List.getD_eq_getElem _ _ h1, List.getD_eq_getElem _ _ h2]
  exact List.getElem_zipWith

theorem getD_gf256_add2_mem (d a b : List GF) (pos : Nat)
    (h1 : pos < d.length) (h2 : pos < a.length) (h3 : pos < b.length) :
    (gf256_add2_mem d a b).getD pos 0 = d.getD pos 0 + a.getD pos 0 + b.getD pos 0 := by
  rw [gf256_add2_mem,
    List.getD_eq_getElem _ _ (by simp [List.length_zipWith]; omega),
    List.getD_eq_getElem _ _ h1, List.getD_eq_getElem _ _ h2, List.getD_eq_getElem _ _ h3]
  rw [List.getElem_zipWith]
  congr 1
  exact List.getElem_zipWith

theorem length_gf256_add2_mem (d a b : List GF) :
    (gf256_add2_mem d a b).length = min (min d.length a.length) b.length := by
  simp [gf256_add2_mem, List.length_zipWith]

theorem getD_gf256_mul_mem (s : List GF) (c : GF) (pos : Nat) (h : pos < s.length) :
    (gf256_mul_mem s c).getD pos 0 = c * s.getD pos 0 := by
  rw [gf256_mul_mem, List.getD_eq_getElem _ _ (by simpa using h),
    List.getD_eq_getElem _ _ h]
  exact List.getElem_map _

theorem getD_gf256_muladd_mem (d : List GF) (c : GF) (s : List GF) (pos : Nat)
    (h1 : pos < d.length) (h2 : pos < s.length) :
    (gf256_muladd_mem d c s).getD pos 0 = d.getD pos 0 + c * s.getD pos 0 := by
  rw [gf256_muladd_mem, List.getD_eq_getElem _ _ (by simp [List.length_zipWith]; omega),
    List.getD_eq_getElem _ _ h1, List.getD_eq_getElem _ _ h2]
  exact List.getElem_zipWith

theorem list_range_map_sum (n : Nat) (f : Nat → GF) :
    ((List.range n).map f).sum = ∑ j in Finset.range n, f j := by
  induction n with
  | zero => simp
  | succ n ih => rw [List.range_succ, Finset.sum_range_succ, ← ih]; simp

/-! ### Claim C6: the matrix element -/

/-- C6.  For bytes with `x_i ⊕ y_j ≠ 0`, `GetMatrixElement(x_i, x_0, y_j)`
returns `div(add(y_j, x_0), add(x_i, y_j))` in GF(256), and for
`x_i = x_0` (with `y_j ⊕ x_0 ≠ 0`) it returns 1.  (Purity is inherent:
the embedding is a function of its arguments alone.) -/
theorem GetMatrixElement_spec (x_i x_0 y_j : GF) :
    (gf256_add x_i y_j ≠ 0 →
      GetMatrixElement x_i x_0 y_j = gf256_div (gf256_add y_j x_0) (gf256_add x_i y_j)) ∧
    (x_i = x_0 → gf256_add y_j x_0 ≠ 0 → GetMatrixElement x_i x_0 y_j = 1) := by
  constructor
  · intro _
    rfl
  · rintro rfl hne
    show (y_j + x_i) / (x_i + y_j) = 1
    rw [add_comm x_i y_j]
    exact div_self hne

theorem GetMatrixElement_spec_witness :
    (gf256_add (byteOfNat 3) (byteOfNat 1) ≠ 0 ∧
      GetMatrixElement (byteOfNat 3) (byteOfNat 2) (byteOfNat 1) =
        gf256_div (gf256_add (byteOfNat 1) (byteOfNat 2))
          (gf256_add (byteOfNat 3) (byteOfNat 1))) ∧
    (gf256_add (byteOfNat 1) (byteOfNat 2) ≠ 0 ∧
      GetMatrixElement (byteOfNat 2) (byteOfNat 2) (byteOfNat 1) = 1) :=
  ⟨⟨by decide, (GetMatrixElement_spec (byteOfNat 3) (byteOfNat 2) (byteOfNat 1)).1 (by decide)⟩,
   ⟨by decide, (GetMatrixElement_spec (byteOfNat 2) (byteOfNat 2) (byteOfNat 1)).2 rfl (by decide)⟩⟩

/-! ### Claim C4: parameter rejection and atomicity on error -/

/-- C4.  `cm256_encode` and `cm256_decode` return -1 when any of
`k, m, blockBytes` is nonpositive, -2 when `k + m > 256`, and the encoder
additionally returns -3 for a null originals array or output region; on
every such error the decoder hands back its block array unchanged (and
the encoder produces no output). -/
theorem cm256_parameter_rejection (params : cm256_encoder_params)
    (originals : Option (List (List GF))) (recoveryNull : Bool)
    (blocks : List cm256_block) :
    (params.OriginalCount ≤ 0 ∨ params.RecoveryCount ≤ 0 ∨ params.BlockBytes ≤ 0 →
      cm256_encode params originals recoveryNull = .error (-1) ∧
      cm256_decode params blocks = (-1, blocks)) ∧
    (0 < params.OriginalCount → 0 < params.RecoveryCount → 0 < params.BlockBytes →
      params.OriginalCount + params.RecoveryCount > 256 →
      cm256_encode params originals recoveryNull = .error (-2) ∧
      cm256_decode params blocks = (-2, blocks)) ∧
    (0 < params.OriginalCount → 0 < params.RecoveryCount → 0 < params.BlockBytes →
      params.OriginalCount + params.RecoveryCount ≤ 256 →
      originals.isNone = true ∨ recoveryNull = true →
      cm256_encode params originals recoveryNull = .error (-3)) := by
  refine ⟨?_, ?_, ?_⟩
  · intro h
    unfold cm256_encode cm256_decode
    simp only [if_pos h]
    exact ⟨by trivial, by trivial⟩
  · intro h1 h2 h3 h4
    have hne : ¬ (params.OriginalCount ≤ 0 ∨ params.RecoveryCount ≤ 0 ∨
        params.BlockBytes ≤ 0) := by omega
    unfold cm256_encode cm256_decode
    simp only [if_neg hne, if_pos h4]
    exact ⟨by trivial, by trivial⟩
  · intro h1 h2 h3 h4 h5
    have hne : ¬ (params.OriginalCount ≤ 0 ∨ params.RecoveryCount ≤ 0 ∨
        params.BlockBytes ≤ 0) := by omega
    have hne2 : ¬ (params.OriginalCount + params.RecoveryCount > 256) := by omega
    unfold cm256_encode
    simp only [if_neg hne, if_neg hne2, if_pos h5]

theorem cm256_parameter_rejection_witness :
    (cm256_encode ⟨0, 1, 1⟩ none false = .error (-1) ∧
      cm256_decode ⟨0, 1, 1⟩ [] = (-1, [])) ∧
    (cm256_encode ⟨200, 57, 1⟩ none false = .error (-2) ∧
      cm256_decode ⟨200, 57, 1⟩ [] = (-2, [])) ∧
    cm256_encode ⟨1, 1, 1⟩ none false = .error (-3) :=
  ⟨(cm256_parameter_rejection ⟨0, 1, 1⟩ none false []).1 (by decide),
   (cm256_parameter_rejection ⟨200, 57, 1⟩ none false []).2.1
     (by decide) (by decide) (by decide) (by decide),
   (cm256_parameter_rejection ⟨1, 1, 1⟩ none false []).2.2
     (by decide) (by decide) (by decide) (by decide) (Or.inl rfl)⟩

/-! ### Generic list helpers -/

theorem set_getD_ne {α : Type} (l : List α) (i j : Nat) (v d : α) (h : i ≠ j) :
    (l.set i v).getD j d = l.getD j d := by
  by_cases hj : j < l.length
  · rw [List.getD_eq_getElem _ _ (by simpa using hj), List.getD_eq_getElem _ _ hj]
    simp [List.getElem_set, h]
  · rw [List.getD_eq_default _ _ (by simpa using Nat.le_of_not_lt hj),
      List.getD_eq_default _ _ (Nat.le_of_not_lt hj)]

theorem set_getD_self {α : Type} (l : List α) (i : Nat) (v d : α) (h : i < l.length) :
    (l.set i v).getD i d = v := by
  rw [List.getD_eq_getElem _ _ (by simpa using h)]
  simp [List.getElem_set]

theorem take_set_succ {α : Type} (l : List α) (c : Nat) (v : α) (h : c < l.length) :
    (l.set c v).take (c + 1) = l.take c ++ [v] := by
  have e : l.set c v = l.take c ++ v :: l.drop (c + 1) := by
    rw [List.set_eq_take_append_cons_drop, if_pos h]
  rw [e, List.take_append_eq_append_take]
  simp [Nat.min_def, h, Nat.le_of_lt h]

theorem range'_split (k d : Nat) : List.range' 0 (k + d) = List.range' 0 k ++ List.range' k d := by
  have := (List.range'_append 0 k d 1).symm
  simpa [Nat.add_comm] using this

/-! ### Characterizing `Decoder::Initialize` -/

/-- Positions (into the input block array) of the blocks carrying an
original row index, in input order. -/
def originalPositions (k : Nat) (blocks : List cm256_block) : List Nat :=
  (List.range k).filter (fun ii => decide ((blocks.getD ii default).Index < k))

/-- Positions of the blocks carrying a recovery row index, in input order. -/
def recoveryPositions (k : Nat) (blocks : List cm256_block) : List Nat :=
  (List.range k).filter (fun ii => !decide ((blocks.getD ii default).Index < k))

/-- The original rows absent from the input, in ascending order. -/
def missingRows (k : Nat) (blocks : List cm256_block) : List Nat :=
  (List.range k).filter (fun r => !(decide (r ∈ blocks.map cm256_block.Index)))

theorem partitionFold (k : Nat) (blocks : List cm256_block) (L : List Nat) :
    ∀ (o r arr : List Nat),
    L.foldl
      (fun (st : List Nat × List Nat × List Nat) ii =>
        let row := (blocks.getD ii default).Index
        if row < k then (st.1 ++ [ii], st.2.1, st.2.2.set row 1)
        else (st.1, st.2.1 ++ [ii], st.2.2))
      (o, r, arr) =
    (o ++ L.filter (fun ii => decide ((blocks.getD ii default).Index < k)),
     r ++ L.filter (fun ii => !decide ((blocks.getD ii default).Index < k)),
     L.foldl
       (fun arr ii =>
         if (blocks.getD ii default).Index < k then arr.set (blocks.getD ii default).Index 1
         else arr)
       arr) := by
  induction L with
  | nil => intro o r arr; simp
  | cons x xs ih =>
    intro o r arr
    simp only [List.foldl_cons]
    by_cases h : (blocks.getD x default).Index < k
    · simp only [h, if_true, ih, List.filter_cons, decide_eq_true_eq, decide_True,
        Bool.not_true, if_pos h]
      simp [List.append_assoc]
    · simp only [h, if_false, ih, List.filter_cons, decide_eq_true_eq, decide_False,
        Bool.not_false, if_neg h]
      simp [List.append_assoc]

theorem markFold_length (k : Nat) (blocks : List cm256_block) (L : List Nat) :
    ∀ (arr : List Nat),
    (L.foldl
      (fun arr ii =>
        if (blocks.getD ii default).Index < k then arr.set (blocks.getD ii default).Index 1
        else arr)
      arr).length = arr.length := by
  induction L with
  | nil => intro arr; rfl
  | cons x xs ih =>
    intro arr
    simp only [List.foldl_cons]
    rw [ih]
    split <;> simp

theorem markFold_getD (k : Nat) (blocks : List cm256_block) (hk : k ≤ 256) (L : List Nat) :
    ∀ (arr : List Nat) (r : Nat), arr.length = 256 →
    (L.foldl
      (fun arr ii =>
        if (blocks.getD ii default).Index < k then arr.set (blocks.getD ii default).Index 1
        else arr)
      arr).getD r 0 =
    if ∃ ii ∈ L, (blocks.getD ii default).Index = r ∧ r < k then 1 else arr.getD r 0 := by
  induction L with
  | nil => intro arr r _; simp
  | cons x xs ih =>
    intro arr r hlen
    simp only [List.foldl_cons]
    by_cases hx : (blocks.getD x default).Index < k
    · rw [if_pos hx]
      rw [ih (arr.set (blocks.getD x default).Index 1) r (by simpa using hlen)]
      by_cases hr : (blocks.getD x default).Index = r
      · have hrk : r < k := hr ▸ hx
        have hcons : ∃ ii ∈ x :: xs, (blocks.getD ii default).Index = r ∧ r < k :=
          ⟨x, List.mem_cons_self x xs, hr, hrk⟩
        by_cases hxs : ∃ ii ∈ xs, (blocks.getD ii default).Index = r ∧ r < k
        · rw [if_pos hxs, if_pos hcons]
        · rw [if_neg hxs, if_pos hcons, hr, set_getD_self _ _ _ _ (by omega)]
      · have hiff : (∃ ii ∈ x :: xs, (blocks.getD ii default).Index = r ∧ r < k) ↔
            (∃ ii ∈ xs, (blocks.getD ii default).Index = r ∧ r < k) := by
          constructor
          · rintro ⟨ii, hmem, hidx, hrk⟩
            rcases List.mem_cons.mp hmem with rfl | hmem'
            · exact absurd hidx hr
            · exact ⟨ii, hmem', hidx, hrk⟩
          · rintro ⟨ii, hmem, hidx, hrk⟩
            exact ⟨ii, List.mem_cons_of_mem x hmem, hidx, hrk⟩
        rw [set_getD_ne _ _ _ _ _ hr]
        by_cases hxs : ∃ ii ∈ xs, (blocks.getD ii default).Index = r ∧ r < k
        · rw [if_pos hxs, if_pos (hiff.mpr hxs)]
        · rw [if_neg hxs, if_neg (fun h => hxs (hiff.mp h))]
    · rw [if_neg hx]
      rw [ih arr r hlen]
      have hiff : (∃ ii ∈ x :: xs, (blocks.getD ii default).Index = r ∧ r < k) ↔
          (∃ ii ∈ xs, (blocks.getD ii default).Index = r ∧ r < k) := by
        constructor
        · rintro ⟨ii, hmem, hidx, hrk⟩
          rcases List.mem_cons.mp hmem with rfl | hmem'
          · exact absurd (hidx ▸ hrk) hx
          · exact ⟨ii, hmem', hidx, hrk⟩
        · rintro ⟨ii, hmem, hidx, hrk⟩
          exact ⟨ii, List.mem_cons_of_mem x hmem, hidx, hrk⟩
      by_cases hxs : ∃ ii ∈ xs, (blocks.getD ii default).Index = r ∧ r < k
      · rw [if_pos hxs, if_pos (hiff.mpr hxs)]
      · rw [if_neg hxs, if_neg (fun h => hxs (hiff.mp h))]

theorem erasureScan_length (n : Nat) : ∀ (rem ii c : Nat) (arr : List Nat),
    (erasureScan n rem ii c arr).length = arr.length := by
  intro rem
  induction rem with
  | zero => intro ii c arr; rfl
  | succ rem ih =>
    intro ii c arr
    simp only [erasureScan]
    by_cases hz : arr.getD ii 0 = 0
    · rw [if_pos hz]
      by_cases hstop : c + 1 ≥ n
      · rw [if_pos hstop]; simp
      · rw [if_neg hstop, ih]; simp
    · rw [if_neg hz]
      exact ih (ii + 1) c arr

theorem erasureScan_take (n : Nat) : ∀ (rem ii c : Nat) (arr arr0 : List Nat),
    ii + rem = 256 → c ≤ ii → c < n → arr.length = 256 →
    (∀ r, c ≤ r → arr.getD r 0 = arr0.getD r 0) →
    n - c ≤ ((List.range' ii rem).filter (fun r => decide (arr0.getD r 0 = 0))).length →
    (erasureScan n rem ii c arr).take n =
      arr.take c ++
        ((List.range' ii rem).filter (fun r => decide (arr0.getD r 0 = 0))).take (n - c) := by
  intro rem
  induction rem with
  | zero =>
    intro ii c arr arr0 hiirem hci hcn hlen hagree hcount
    simp at hcount
    omega
  | succ rem ih =>
    intro ii c arr arr0 hiirem hci hcn hlen hagree hcount
    have hread : arr.getD ii 0 = arr0.getD ii 0 := hagree ii hci
    have hfilter :
        (List.range' ii (rem + 1)).filter (fun r => decide (arr0.getD r 0 = 0)) =
        if arr0.getD ii 0 = 0 then
          ii :: (List.range' (ii + 1) rem).filter (fun r => decide (arr0.getD r 0 = 0))
        else (List.range' (ii + 1) rem).filter (fun r => decide (arr0.getD r 0 = 0)) := by
      rw [List.range'_succ ii rem 1, List.filter_cons]
      by_cases hz0 : arr0.getD ii 0 = 0
      · simp [hz0]
      · simp [hz0]
    simp only [erasureScan]
    by_cases hz : arr0.getD ii 0 = 0
    · rw [if_pos (hread.trans hz), hfilter, if_pos hz]
      by_cases hstop : c + 1 ≥ n
      · rw [if_pos hstop]
        have hn : n = c + 1 := by omega
        subst hn
        rw [take_set_succ arr c ii (by omega)]
        have h1 : c + 1 - c = 1 := by omega
        rw [h1]
        rfl
      · rw [if_neg hstop]
        have harr' : (arr.set c ii).length = 256 := by simpa using hlen
        have hagree' : ∀ r, c + 1 ≤ r → (arr.set c ii).getD r 0 = arr0.getD r 0 := by
          intro r hr
          rw [set_getD_ne _ _ _ _ _ (by omega)]
          exact hagree r (by omega)
        have hcount' : n - (c + 1) ≤
            ((List.range' (ii + 1) rem).filter (fun r => decide (arr0.getD r 0 = 0))).length := by
          rw [hfilter, if_pos hz] at hcount
          rw [List.length_cons] at hcount
          omega
        rw [ih (ii + 1) (c + 1) (arr.set c ii) arr0 (by omega) (by omega) (by omega)
          harr' hagree' hcount']
        rw [take_set_succ arr c ii (by omega)]
        have hnc : n - c = (n - (c + 1)) + 1 := by omega
        rw [hnc, List.take_cons]
        · simp [List.append_assoc]
        · omega
    · rw [if_neg (fun h => hz (hread.symm.trans h)), hfilter, if_neg hz]
      exact ih (ii + 1) c arr arr0 (by omega) (by omega) hcn hlen hagree
        (by rw [hfilter, if_neg hz] at hcount; exact hcount)

/-- The presence array after the first loop of `Decoder::Initialize`. -/
def presenceArr (k : Nat) (blocks : List cm256_block) : List Nat :=
  (List.range k).foldl
    (fun arr ii =>
      if (blocks.getD ii default).Index < k then arr.set (blocks.getD ii default).Index 1
      else arr)
    (List.replicate 256 0)

theorem Initialize_eq (params : cm256_encoder_params) (blocks : List cm256_block) :
    Decoder.Initialize params blocks =
      { Params := params
        Original := originalPositions params.OriginalCount.toNat blocks
        Recovery := recoveryPositions params.OriginalCount.toNat blocks
        ErasuresIndices :=
          erasureScan (recoveryPositions params.OriginalCount.toNat blocks).length 256 0 0
            (presenceArr params.OriginalCount.toNat blocks) } := by
  unfold Decoder.Initialize
  simp only [partitionFold, List.nil_append]
  rfl

theorem getD_replicate_zero (n v r : Nat) : (List.replicate n v).getD r 0 = if r < n then v else 0 := by
  by_cases h : r < n
  · rw [List.getD_eq_getElem _ _ (by simpa using h)]
    simp [h]
  · rw [List.getD_eq_default _ _ (by simpa using Nat.le_of_not_lt h)]
    simp [h]

theorem presenceArr_length (k : Nat) (blocks : List cm256_block) :
    (presenceArr k blocks).length = 256 := by
  unfold presenceArr
  rw [markFold_length]
  simp

theorem presenceArr_getD (k : Nat) (blocks : List cm256_block) (hk : k ≤ 256)
    (hlen : blocks.length = k) (r : Nat) :
    (presenceArr k blocks).getD r 0 =
      if r ∈ blocks.map cm256_block.Index ∧ r < k then 1 else 0 := by
  unfold presenceArr
  rw [markFold_getD k blocks hk (List.range k) (List.replicate 256 0) r (by simp)]
  have hiff : (∃ ii ∈ List.range k, (blocks.getD ii default).Index = r ∧ r < k) ↔
      (r ∈ blocks.map cm256_block.Index ∧ r < k) := by
    constructor
    · rintro ⟨ii, hmem, hidx, hrk⟩
      refine ⟨?_, hrk⟩
      rw [List.mem_map]
      have hii : ii < k := List.mem_range.mp hmem
      refine ⟨blocks.getD ii default, ?_, hidx⟩
      rw [List.getD_eq_getElem _ _ (by omega)]
      exact List.getElem_mem _
    · rintro ⟨hmem, hrk⟩
      rw [List.mem_map] at hmem
      obtain ⟨b, hb, hidx⟩ := hmem
      obtain ⟨ii, hii, rfl⟩ := List.mem_iff_getElem.mp hb
      refine ⟨ii, List.mem_range.mpr (by omega), ?_, hrk⟩
      rw [List.getD_eq_getElem _ _ hii]
      exact hidx
  rw [if_congr hiff rfl rfl, getD_replicate_zero]
  by_cases h : r ∈ blocks.map cm256_block.Index ∧ r < k
  · rw [if_pos h, if_pos h]
  · rw [if_neg h, if_neg h]
    split <;> rfl

theorem filter_length_split {α : Type} (ll : List α) (q : α → Bool) :
    (ll.filter q).length + (ll.filter (fun a => !(q a))).length = ll.length := by
  induction ll with
  | nil => rfl
  | cons x xs ih => by_cases h : q x <;> simp [List.filter_cons, h] <;> omega

theorem originalPositions_add_recoveryPositions (k : Nat) (blocks : List cm256_block) :
    (originalPositions k blocks).length + (recoveryPositions k blocks).length = k := by
  have := filter_length_split (List.range k)
    (fun ii => decide ((blocks.getD ii default).Index < k))
  simpa [originalPositions, recoveryPositions] using this

theorem nodup_length_eq_of_mem_iff {l1 l2 : List Nat} (h1 : l1.Nodup) (h2 : l2.Nodup)
    (h : ∀ x, x ∈ l1 ↔ x ∈ l2) : l1.length = l2.length := by
  rw [← List.toFinset_card_of_nodup h1, ← List.toFinset_card_of_nodup h2]
  congr 1
  ext x
  simp [h x]

theorem missingRows_length (k : Nat) (blocks : List cm256_block)
    (hlen : blocks.length = k)
    (hdist : ∀ p1 p2, p1 < p2 → p2 < k →
      (blocks.getD p1 default).Index ≠ (blocks.getD p2 default).Index) :
    (missingRows k blocks).length = (recoveryPositions k blocks).length := by
  have hsplit := filter_length_split (List.range k)
    (fun r => decide (r ∈ blocks.map cm256_block.Index))
  have horig := originalPositions_add_recoveryPositions k blocks
  -- the present rows are the indices of the original-position blocks
  have hpresent :
      ((List.range k).filter (fun r => decide (r ∈ blocks.map cm256_block.Index))).length =
      (originalPositions k blocks).length := by
    have hnodup1 : ((List.range k).filter
        (fun r => decide (r ∈ blocks.map cm256_block.Index))).Nodup :=
      (List.nodup_range k).filter _
    have hnodupP : (originalPositions k blocks).Nodup := (List.nodup_range k).filter _
    have hnodup2 : ((originalPositions k blocks).map
        (fun p => (blocks.getD p default).Index)).Nodup := by
      refine hnodupP.map_on ?_
      intro x hx y hy hfeq
      by_contra hne
      rcases Nat.lt_or_ge x y with hlt | hge
      · have hyk : y < k := by
          have := List.mem_range.mp (List.mem_of_mem_filter hy)
          omega
        exact hdist x y hlt hyk hfeq
      · have hne' : y < x := by omega
        have hxk : x < k := by
          have := List.mem_range.mp (List.mem_of_mem_filter hx)
          omega
        exact hdist y x hne' hxk hfeq.symm
    have hmemiff : ∀ r,
        r ∈ (List.range k).filter (fun r => decide (r ∈ blocks.map cm256_block.Index)) ↔
        r ∈ (originalPositions k blocks).map (fun p => (blocks.getD p default).Index) := by
      intro r
      constructor
      · intro hmem
        have hrk : r < k := List.mem_range.mp (List.mem_of_mem_filter hmem)
        have hrmem : r ∈ blocks.map cm256_block.Index :=
          of_decide_eq_true (List.mem_filter.mp hmem).2
        rw [List.mem_map] at hrmem
        obtain ⟨b, hb, hidx⟩ := hrmem
        obtain ⟨p, hp, rfl⟩ := List.mem_iff_getElem.mp hb
        apply List.mem_map.mpr
        refine ⟨p, List.mem_filter.mpr ⟨List.mem_range.mpr (by omega), ?_⟩, ?_⟩
        · rw [List.getD_eq_getElem _ _ hp]
          exact decide_eq_true (by rw [hidx]; omega)
        · rw [List.getD_eq_getElem _ _ hp]
          exact hidx
      · intro hmem
        obtain ⟨p, hpmem, hidx⟩ := List.mem_map.mp hmem
        have hpfilter := List.mem_filter.mp hpmem
        have hpk : p < k := List.mem_range.mp hpfilter.1
        have hplt : (blocks.getD p default).Index < k := of_decide_eq_true hpfilter.2
        have hrk : r < k := by rw [← hidx]; exact hplt
        apply List.mem_filter.mpr
        refine ⟨List.mem_range.mpr (by omega), ?_⟩
        apply decide_eq_true
        rw [List.mem_map]
        refine ⟨blocks.getD p default, ?_, hidx⟩
        rw [List.getD_eq_getElem _ _ (by omega)]
        exact List.getElem_mem _
    rw [nodup_length_eq_of_mem_iff hnodup1 hnodup2 hmemiff, List.length_map]
  have hsplit2 : ((List.range k).filter
      (fun r => decide (r ∈ blocks.map cm256_block.Index))).length +
      (missingRows k blocks).length = k := by
    have h := filter_length_split (List.range k)
      (fun r => decide (r ∈ blocks.map cm256_block.Index))
    rw [List.length_range] at h
    exact h
  omega

theorem set_getD_eq_self {α : Type} (l : List α) (i : Nat) (d : α) (h : i < l.length) :
    l.set i (l.getD i d) = l := by
  rw [List.getD_eq_getElem _ _ h]
  apply List.ext_getElem
  · simp
  · intro n h1 h2
    simp [List.getElem_set]
    intro he
    subst he
    rfl

/-- The zero entries of the presence array, scanned from 0, begin with
exactly the missing original rows. -/
theorem presence_zeros (k : Nat) (blocks : List cm256_block) (hk : k ≤ 255)
    (hlen : blocks.length = k) :
    (List.range' 0 256).filter
        (fun r => decide ((presenceArr k blocks).getD r 0 = 0)) =
      missingRows k blocks ++
        (List.range' k (256 - k)).filter
          (fun r => decide ((presenceArr k blocks).getD r 0 = 0)) := by
  conv_lhs => rw [show (256 : Nat) = k + (256 - k) by omega, range'_split]
  rw [List.filter_append]
  congr 1
  rw [← List.range_eq_range']
  apply List.filter_congr
  intro r hr
  have hrk : r < k := List.mem_range.mp hr
  rw [presenceArr_getD k blocks (by omega) hlen r]
  by_cases hmem : r ∈ blocks.map cm256_block.Index
  · rw [if_pos ⟨hmem, hrk⟩]
    simp [hmem]
  · rw [if_neg (fun hc => hmem hc.1)]
    simp [hmem]

theorem Initialize_ErasuresIndices_take (k : Nat) (blocks : List cm256_block)
    (hk : k ≤ 255) (hlen : blocks.length = k)
    (hdist : ∀ p1 p2, p1 < p2 → p2 < k →
      (blocks.getD p1 default).Index ≠ (blocks.getD p2 default).Index) :
    (erasureScan (recoveryPositions k blocks).length 256 0 0 (presenceArr k blocks)).take
        (recoveryPositions k blocks).length = missingRows k blocks := by
  by_cases hn : (recoveryPositions k blocks).length = 0
  · rw [hn]
    have hm0 : (missingRows k blocks).length = 0 := by
      rw [missingRows_length k blocks hlen hdist, hn]
    exact (List.length_eq_zero.mp hm0).symm
  · have hcount : (recoveryPositions k blocks).length - 0 ≤
        ((List.range' 0 256).filter
          (fun r => decide ((presenceArr k blocks).getD r 0 = 0))).length := by
      rw [presence_zeros k blocks hk hlen, List.length_append,
        missingRows_length k blocks hlen hdist]
      omega
    rw [erasureScan_take (recoveryPositions k blocks).length 256 0 0
      (presenceArr k blocks) (presenceArr k blocks) (by omega) (by omega) (by omega)
      (presenceArr_length k blocks) (fun r _ => rfl) hcount]
    rw [List.take_zero, Nat.sub_zero, List.nil_append, presence_zeros k blocks hk hlen,
      List.take_append_eq_append_take]
    have hml := missingRows_length k blocks hlen hdist
    rw [← hml, List.take_length, Nat.sub_self, List.take_zero, List.append_nil]

/-! ### Claim C9: decoder setup postconditions -/

/-- C9.  For a valid input of `k` blocks with distinct indices in
`[0, k+m)`, `Decoder::Initialize` partitions the blocks into originals
(index < k) and recoveries (index >= k) preserving input order (the
position lists are the order-preserving filters of `0..k-1`), with
`|originals| + |recoveries| = k`, and produces an erasures list of length
`|recoveries|` enumerating exactly the original rows absent from the
input, in strictly ascending order. -/
theorem Decoder_Initialize_spec (params : cm256_encoder_params) (k m : Nat)
    (blocks : List cm256_block)
    (hk : params.OriginalCount = (k : Int)) (hm : params.RecoveryCount = (m : Int))
    (hk1 : 1 ≤ k) (hm1 : 1 ≤ m) (hkm : k + m ≤ 256)
    (hlen : blocks.length = k)
    (hidx : ∀ p, p < k → (blocks.getD p default).Index < k + m)
    (hdist : ∀ p2, p2 < k → ∀ p1, p1 < p2 →
      (blocks.getD p1 default).Index ≠ (blocks.getD p2 default).Index) :
    (Decoder.Initialize params blocks).Original = originalPositions k blocks ∧
    (Decoder.Initialize params blocks).Recovery = recoveryPositions k blocks ∧
    (Decoder.Initialize params blocks).Original.length +
      (Decoder.Initialize params blocks).Recovery.length = k ∧
    (Decoder.Initialize params blocks).ErasuresIndices.take
        (Decoder.Initialize params blocks).Recovery.length = missingRows k blocks ∧
    (missingRows k blocks).length = (Decoder.Initialize params blocks).Recovery.length ∧
    List.Pairwise (· < ·) (missingRows k blocks) ∧
    (∀ r, r ∈ missingRows k blocks ↔ r < k ∧ r ∉ blocks.map cm256_block.Index) := by
  have hdist' : ∀ p1 p2, p1 < p2 → p2 < k →
      (blocks.getD p1 default).Index ≠ (blocks.getD p2 default).Index :=
    fun p1 p2 h1 h2 => hdist p2 h2 p1 h1
  have hknat : params.OriginalCount.toNat = k := by rw [hk]; exact Int.toNat_natCast k
  rw [Initialize_eq, hknat]
  refine ⟨rfl, rfl, originalPositions_add_recoveryPositions k blocks, ?_, ?_, ?_, ?_⟩
  · exact Initialize_ErasuresIndices_take k blocks (by omega) hlen hdist'
  · exact missingRows_length k blocks hlen hdist'
  · exact (List.pairwise_lt_range k).sublist (List.filter_sublist _)
  · intro r
    rw [missingRows, List.mem_filter, List.mem_range]
    simp

theorem Decoder_Initialize_spec_witness :
    ((3 : Int) ≤ 0 ∨ False) = False ∧
    ((Decoder.Initialize ⟨3, 2, 1⟩
        [⟨[byteOfNat 1], 0⟩, ⟨[byteOfNat 2], 4⟩, ⟨[byteOfNat 3], 2⟩]).Original =
      originalPositions 3 [⟨[byteOfNat 1], 0⟩, ⟨[byteOfNat 2], 4⟩, ⟨[byteOfNat 3], 2⟩]) ∧
    ((Decoder.Initialize ⟨3, 2, 1⟩
        [⟨[byteOfNat 1], 0⟩, ⟨[byteOfNat 2], 4⟩, ⟨[byteOfNat 3], 2⟩]).ErasuresIndices.take
        (Decoder.Initialize ⟨3, 2, 1⟩
          [⟨[byteOfNat 1], 0⟩, ⟨[byteOfNat 2], 4⟩, ⟨[byteOfNat 3], 2⟩]).Recovery.length =
      missingRows 3 [⟨[byteOfNat 1], 0⟩, ⟨[byteOfNat 2], 4⟩, ⟨[byteOfNat 3], 2⟩]) :=
  ⟨by simp, (Decoder_Initialize_spec ⟨3, 2, 1⟩ 3 2
      [⟨[byteOfNat 1], 0⟩, ⟨[byteOfNat 2], 4⟩, ⟨[byteOfNat 3], 2⟩] rfl rfl (by omega) (by omega)
      (by omega) rfl (by decide) (by decide)).1,
   (Decoder_Initialize_spec ⟨3, 2, 1⟩ 3 2
      [⟨[byteOfNat 1], 0⟩, ⟨[byteOfNat 2], 4⟩, ⟨[byteOfNat 3], 2⟩] rfl rfl (by omega) (by omega)
      (by omega) rfl (by decide) (by decide)).2.2.2.1⟩

/-! ### Claim C8: decode with no erasures is a no-op -/

/-- C8.  If the `k` blocks passed to `cm256_decode` all carry original
indices (no erasures), the call returns 0 and the block array is
unchanged. -/
theorem cm256_decode_no_erasures (params : cm256_encoder_params) (k m bb : Nat)
    (blocks : List cm256_block)
    (hk : params.OriginalCount = (k : Int)) (hm : params.RecoveryCount = (m : Int))
    (hbb : params.BlockBytes = (bb : Int))
    (hk1 : 1 ≤ k) (hm1 : 1 ≤ m) (hkm : k + m ≤ 256) (hbb1 : 1 ≤ bb)
    (hlen : blocks.length = k)
    (hidx : ∀ p, p < k → (blocks.getD p default).Index < k) :
    cm256_decode params blocks = (0, blocks) := by
  unfold cm256_decode
  rw [if_neg (by omega), if_neg (by omega)]
  by_cases h1 : params.OriginalCount = 1
  · rw [if_pos h1]
    have hkk : k = 1 := by omega
    have h0lt : 0 < blocks.length := by omega
    have hb0 : (blocks.getD 0 default).Index = 0 := by
      have := hidx 0 (by omega)
      omega
    have heq : { (blocks.getD 0 default) with Index := 0 } = blocks.getD 0 default := by
      cases hh : blocks.getD 0 default with
      | mk B I =>
        rw [hh] at hb0
        have hI : I = 0 := hb0
        rw [hI]
    rw [heq, set_getD_eq_self blocks 0 default h0lt]
  · rw [if_neg h1]
    have hrec : (Decoder.Initialize params blocks).Recovery = [] := by
      rw [Initialize_eq]
      show recoveryPositions params.OriginalCount.toNat blocks = []
      have hknat : params.OriginalCount.toNat = k := by rw [hk]; exact Int.toNat_natCast k
      rw [hknat, recoveryPositions]
      apply List.filter_eq_nil_iff.mpr
      intro a ha hcontra
      have hak : a < k := List.mem_range.mp ha
      have hfalse : decide ((blocks.getD a default).Index < k) = false := by
        cases hdec : decide ((blocks.getD a default).Index < k)
        · rfl
        · rw [hdec] at hcontra
          exact absurd hcontra (by decide)
      exact of_decide_eq_false hfalse (hidx a hak)
    simp [hrec]

theorem cm256_decode_no_erasures_witness :
    cm256_decode ⟨2, 1, 1⟩ [⟨[byteOfNat 5], 1⟩, ⟨[byteOfNat 6], 0⟩] =
      (0, [⟨[byteOfNat 5], 1⟩, ⟨[byteOfNat 6], 0⟩]) :=
  cm256_decode_no_erasures ⟨2, 1, 1⟩ 2 1 1 _ rfl rfl rfl (by omega) (by omega) (by omega)
    (by omega) rfl (by decide)

/-! ### Claim C7: the single-original degenerate case -/

/-- C7.  For valid params with `k = 1`, `cm256_encode` writes `m` copies
of `originals[0]` into the output, and `cm256_decode` on a single block
returns 0, leaving its buffer unchanged and setting its index to 0. -/
theorem cm256_single_original (params : cm256_encoder_params) (m bb : Nat)
    (originals : List (List GF)) (b : cm256_block)
    (hk : params.OriginalCount = 1) (hm : params.RecoveryCount = (m : Int))
    (hbb : params.BlockBytes = (bb : Int))
    (hm1 : 1 ≤ m) (hkm : 1 + m ≤ 256) (hbb1 : 1 ≤ bb) :
    cm256_encode params (some originals) false =
      .ok (List.replicate m (originals.getD 0 [])) ∧
    cm256_decode params [b] = (0, [{ b with Index := 0 }]) := by
  constructor
  · unfold cm256_encode
    rw [if_neg (by omega), if_neg (by omega), if_neg (by simp)]
    have h1 : params.OriginalCount.toNat = 1 := by rw [hk]; rfl
    have hmnat : params.RecoveryCount.toNat = m := by rw [hm]; exact Int.toNat_natCast m
    simp [h1, hmnat]
  · unfold cm256_decode
    rw [if_neg (by omega), if_neg (by omega), if_pos hk]
    rfl

theorem cm256_single_original_witness :
    cm256_encode ⟨1, 2, 1⟩ (some [[byteOfNat 7]]) false =
      .ok (List.replicate 2 ([[byteOfNat 7]].getD 0 [])) ∧
    cm256_decode ⟨1, 2, 1⟩ [⟨[byteOfNat 9], 1⟩] = (0, [{ Block := [byteOfNat 9], Index := 0 }]) :=
  cm256_single_original ⟨1, 2, 1⟩ 2 1 [[byteOfNat 7]] ⟨[byteOfNat 9], 1⟩ rfl rfl rfl
    (by omega) (by omega) (by omega)

/-! ### Claim C2: the encoder postcondition -/

theorem byteOfNat_val (n : Nat) (h : n < 256) : (byteOfNat n).val = n := Nat.mod_eq_of_lt h

theorem byteOfNat_add_ne_zero (a b : Nat) (ha : a < 256) (hb : b < 256) (hne : a ≠ b) :
    gf256_add (byteOfNat a) (byteOfNat b) ≠ 0 := by
  intro h
  have hv := congrArg GF.val h
  rw [GF.val_zero] at hv
  have : a ^^^ b = 0 := by
    rw [show (gf256_add (byteOfNat a) (byteOfNat b)).val = a % 256 ^^^ b % 256 from rfl] at hv
    rw [Nat.mod_eq_of_lt ha, Nat.mod_eq_of_lt hb] at hv
    exact hv
  exact hne (Nat.xor_eq_zero.mp this)

theorem GetMatrixElement_diag (x_0 y : GF) (h : gf256_add y x_0 ≠ 0) :
    GetMatrixElement x_0 x_0 y = 1 := by
  show (y + x_0) / (x_0 + y) = 1
  rw [add_comm x_0 y]
  exact div_self h

/-- The running fold of `gf256_add_mem` over a set of columns: length and
per-byte value. -/
theorem foldl_add_mem_spec (origs : List (List GF)) (bb : Nat) (js : List Nat)
    (hall : ∀ j ∈ js, (origs.getD j []).length = bb) :
    ∀ init : List GF, init.length = bb →
      (js.foldl (fun acc j => gf256_add_mem acc (origs.getD j [])) init).length = bb ∧
      ∀ pos, pos < bb →
        (js.foldl (fun acc j => gf256_add_mem acc (origs.getD j [])) init).getD pos 0 =
          init.getD pos 0 + (js.map (fun j => (origs.getD j []).getD pos 0)).sum := by
  induction js with
  | nil =>
    intro init hinit
    exact ⟨hinit, fun pos _ => by simp⟩
  | cons j js ih =>
    intro init hinit
    have hj : (origs.getD j []).length = bb := hall j (List.mem_cons_self j js)
    have hall' : ∀ a ∈ js, (origs.getD a []).length = bb :=
      fun a ha => hall a (List.mem_cons_of_mem j ha)
    have hinit' : (gf256_add_mem init (origs.getD j [])).length = bb := by
      rw [length_gf256_add_mem, hinit, hj]
      omega
    obtain ⟨hlen2, hval2⟩ := ih hall' (gf256_add_mem init (origs.getD j [])) hinit'
    refine ⟨hlen2, fun pos hpos => ?_⟩
    rw [List.foldl_cons, hval2 pos hpos,
      getD_gf256_add_mem init (origs.getD j []) pos (by omega) (by omega),
      List.map_cons, List.sum_cons, add_assoc]

/-- The running fold of `gf256_muladd_mem` over a set of columns. -/
theorem foldl_muladd_mem_spec (origs : List (List GF)) (bb : Nat) (coef : Nat → GF)
    (js : List Nat) (hall : ∀ j ∈ js, (origs.getD j []).length = bb) :
    ∀ init : List GF, init.length = bb →
      (js.foldl (fun acc j => gf256_muladd_mem acc (coef j) (origs.getD j [])) init).length
        = bb ∧
      ∀ pos, pos < bb →
        (js.foldl (fun acc j => gf256_muladd_mem acc (coef j) (origs.getD j []))
            init).getD pos 0 =
          init.getD pos 0 + (js.map (fun j => coef j * (origs.getD j []).getD pos 0)).sum := by
  induction js with
  | nil =>
    intro init hinit
    exact ⟨hinit, fun pos _ => by simp⟩
  | cons j js ih =>
    intro init hinit
    have hj : (origs.getD j []).length = bb := hall j (List.mem_cons_self j js)
    have hall' : ∀ a ∈ js, (origs.getD a []).length = bb :=
      fun a ha => hall a (List.mem_cons_of_mem j ha)
    have hinit' : (gf256_muladd_mem init (coef j) (origs.getD j [])).length = bb := by
      rw [length_gf256_muladd_mem, hinit, hj]
      omega
    obtain ⟨hlen2, hval2⟩ := ih hall' _ hinit'
    refine ⟨hlen2, fun pos hpos => ?_⟩
    rw [List.foldl_cons, hval2 pos hpos,
      getD_gf256_muladd_mem init (coef j) (origs.getD j []) pos (by omega) (by omega),
      List.map_cons, List.sum_cons, add_assoc]

theorem encodeRow0_spec (k bb : Nat) (originals : List (List GF)) (hk2 : 2 ≤ k)
    (hblen : ∀ j, j < k → (originals.getD j []).length = bb) :
    (encodeRow0 k originals).length = bb ∧
    ∀ pos, pos < bb →
      (encodeRow0 k originals).getD pos 0 =
        ∑ j in Finset.range k, (originals.getD j []).getD pos 0 := by
  have h0 : (originals.getD 0 []).length = bb := hblen 0 (by omega)
  have h1 : (originals.getD 1 []).length = bb := hblen 1 (by omega)
  have hinit : (gf256_addset_mem (originals.getD 0 []) (originals.getD 1 [])).length = bb := by
    rw [length_gf256_addset_mem, h0, h1]
    omega
  have hall : ∀ j ∈ List.range' 2 (k - 2), (originals.getD j []).length = bb := by
    intro j hj
    have := List.mem_range'_1.mp hj
    exact hblen j (by omega)
  obtain ⟨hlen, hval⟩ := foldl_add_mem_spec originals bb (List.range' 2 (k - 2)) hall _ hinit
  refine ⟨hlen, fun pos hpos => ?_⟩
  rw [encodeRow0, hval pos hpos,
    getD_gf256_addset_mem (originals.getD 0 []) (originals.getD 1 []) pos (by omega) (by omega)]
  have hsplit : List.range k = [0, 1] ++ List.range' 2 (k - 2) := by
    conv_lhs => rw [List.range_eq_range', show k = 2 + (k - 2) by omega, range'_split]
    rfl
  rw [← list_range_map_sum, hsplit, List.map_append, List.sum_append]
  simp [add_assoc]

theorem encodeRow_spec (k bb : Nat) (x_i x_0 : GF) (originals : List (List GF)) (hk2 : 2 ≤ k)
    (hblen : ∀ j, j < k → (originals.getD j []).length = bb) :
    (encodeRow k x_i x_0 originals).length = bb ∧
    ∀ pos, pos < bb →
      (encodeRow k x_i x_0 originals).getD pos 0 =
        ∑ j in Finset.range k,
          GetMatrixElement x_i x_0 (byteOfNat j) * (originals.getD j []).getD pos 0 := by
  have h0 : (originals.getD 0 []).length = bb := hblen 0 (by omega)
  have hinit : (gf256_mul_mem (originals.getD 0 []) (GetMatrixElement x_i x_0 (byteOfNat 0))).length = bb := by
    rw [length_gf256_mul_mem, h0]
  have hall : ∀ j ∈ List.range' 1 (k - 1), (originals.getD j []).length = bb := by
    intro j hj
    have := List.mem_range'_1.mp hj
    exact hblen j (by omega)
  obtain ⟨hlen, hval⟩ := foldl_muladd_mem_spec originals bb
    (fun j => GetMatrixElement x_i x_0 (byteOfNat j)) (List.range' 1 (k - 1)) hall _ hinit
  refine ⟨hlen, fun pos hpos => ?_⟩
  rw [encodeRow, hval pos hpos,
    getD_gf256_mul_mem (originals.getD 0 []) (GetMatrixElement x_i x_0 (byteOfNat 0)) pos
      (by omega)]
  have hsplit : List.range k = [0] ++ List.range' 1 (k - 1) := by
    conv_lhs => rw [List.range_eq_range', show k = 1 + (k - 1) by omega, range'_split]
    rfl
  rw [← list_range_map_sum, hsplit, List.map_append, List.sum_append]
  simp

/-- C2.  For valid `(k, m, blockBytes)` with `k ≥ 2`, a successful
`cm256_encode` produces `m` recovery rows; row `i` equals, byte-wise, the
GF(256) linear combination `Σ_j a_{i,j} * original_j` with
`a_{i,j} = (y_j ⊕ x_0) ⊘ (x_i ⊕ y_j)`, `x_0 = k`, `x_i = k + i`,
`y_j = j`; in particular the first recovery row is the byte-wise XOR of
all `k` originals. -/
theorem cm256_encode_spec (params : cm256_encoder_params) (k m bb : Nat)
    (originals : List (List GF))
    (hk : params.OriginalCount = (k : Int)) (hm : params.RecoveryCount = (m : Int))
    (hbb : params.BlockBytes = (bb : Int))
    (hk2 : 2 ≤ k) (hm1 : 1 ≤ m) (hkm : k + m ≤ 256) (hbb1 : 1 ≤ bb)
    (hlen : originals.length = k)
    (hblen : ∀ j, j < k → (originals.getD j []).length = bb) :
    ∃ recs, cm256_encode params (some originals) false = .ok recs ∧
      recs.length = m ∧
      (∀ i, i < m → (recs.getD i []).length = bb) ∧
      (∀ i, i < m → ∀ pos, pos < bb →
        (recs.getD i []).getD pos 0 =
          ∑ j in Finset.range k,
            gf256_div (gf256_add (byteOfNat j) (byteOfNat k))
                (gf256_add (byteOfNat (k + i)) (byteOfNat j)) *
              (originals.getD j []).getD pos 0) ∧
      (∀ pos, pos < bb →
        (recs.getD 0 []).getD pos 0 =
          ∑ j in Finset.range k, (originals.getD j []).getD pos 0) := by
  have hknat : params.OriginalCount.toNat = k := by rw [hk]; exact Int.toNat_natCast k
  have hmnat : params.RecoveryCount.toNat = m := by rw [hm]; exact Int.toNat_natCast m
  have hk255 : k < 256 := by omega
  have hok : cm256_encode params (some originals) false =
      .ok (encodeRow0 k originals ::
        (List.range' 1 (m - 1)).map
          (fun i => encodeRow k (byteOfNat ((byteOfNat k).val + i)) (byteOfNat k) originals)) := by
    unfold cm256_encode
    rw [if_neg (by omega), if_neg (by omega), if_neg (by simp)]
    simp only [hknat, hmnat, Option.getD_some]
    rw [if_neg (by omega : ¬ k = 1)]
  have hdiag : ∀ pos, pos < bb →
      (encodeRow0 k originals).getD pos 0 =
        ∑ j in Finset.range k,
          gf256_div (gf256_add (byteOfNat j) (byteOfNat k))
              (gf256_add (byteOfNat (k + 0)) (byteOfNat j)) *
            (originals.getD j []).getD pos 0 := by
    intro pos hpos
    rw [(encodeRow0_spec k bb originals hk2 hblen).2 pos hpos]
    refine Finset.sum_congr rfl (fun j hj => ?_)
    have hjk : j < k := Finset.mem_range.mp hj
    have h1 : GetMatrixElement (byteOfNat (k + 0)) (byteOfNat k) (byteOfNat j) = 1 := by
      rw [Nat.add_zero]
      exact GetMatrixElement_diag (byteOfNat k) (byteOfNat j)
        (byteOfNat_add_ne_zero j k (by omega) (by omega) (by omega))
    rw [show gf256_div (gf256_add (byteOfNat j) (byteOfNat k))
        (gf256_add (byteOfNat (k + 0)) (byteOfNat j)) =
        GetMatrixElement (byteOfNat (k + 0)) (byteOfNat k) (byteOfNat j) from rfl, h1, one_mul]
  refine ⟨_, hok, ?_, ?_, ?_, ?_⟩
  · simp [List.length_range']
    omega
  · intro i hi
    match i with
    | 0 => exact (encodeRow0_spec k bb originals hk2 hblen).1
    | Nat.succ i' =>
      have hi' : i' < m - 1 := by omega
      have hlt : i' < ((List.range' 1 (m - 1)).map
          (fun i => encodeRow k (byteOfNat ((byteOfNat k).val + i)) (byteOfNat k) originals)).length := by
        simp [List.length_range']
        omega
      rw [List.getD_cons_succ, List.getD_eq_getElem _ _ hlt, List.getElem_map]
      exact (encodeRow_spec k bb _ _ originals hk2 hblen).1
  · intro i hi pos hpos
    match i with
    | 0 =>
      rw [List.getD_cons_zero]
      exact hdiag pos hpos
    | Nat.succ i' =>
      have hi' : i' < m - 1 := by omega
      have hlt : i' < ((List.range' 1 (m - 1)).map
          (fun i => encodeRow k (byteOfNat ((byteOfNat k).val + i)) (byteOfNat k) originals)).length := by
        simp [List.length_range']
        omega
      rw [List.getD_cons_succ, List.getD_eq_getElem _ _ hlt, List.getElem_map]
      have hltr : i' < (List.range' 1 (m - 1)).length := by
        simpa [List.length_range'] using hi'
      have hidx : (List.range' 1 (m - 1))[i'] = 1 + i' := by
        rw [List.getElem_range' _ _]
        omega
      rw [hidx, byteOfNat_val k (by omega), show k + (1 + i') = k + (i' + 1) by omega]
      exact (encodeRow_spec k bb (byteOfNat (k + (i' + 1))) (byteOfNat k) originals hk2
        hblen).2 pos hpos
  · intro pos hpos
    rw [List.getD_cons_zero]
    exact (encodeRow0_spec k bb originals hk2 hblen).2 pos hpos

theorem cm256_encode_spec_witness :
    ∃ recs, cm256_encode ⟨2, 1, 1⟩ (some [[byteOfNat 3], [byteOfNat 5]]) false = .ok recs ∧
      recs.length = 1 ∧
      (∀ i, i < 1 → (recs.getD i []).length = 1) ∧
      (∀ i, i < 1 → ∀ pos, pos < 1 →
        (recs.getD i []).getD pos 0 =
          ∑ j in Finset.range 2,
            gf256_div (gf256_add (byteOfNat j) (byteOfNat 2))
                (gf256_add (byteOfNat (2 + i)) (byteOfNat j)) *
              ([[byteOfNat 3], [byteOfNat 5]].getD j []).getD pos 0) ∧
      (∀ pos, pos < 1 →
        (recs.getD 0 []).getD pos 0 =
          ∑ j in Finset.range 2, ([[byteOfNat 3], [byteOfNat 5]].getD j []).getD pos 0) :=
  cm256_encode_spec ⟨2, 1, 1⟩ 2 1 1 [[byteOfNat 3], [byteOfNat 5]] rfl rfl rfl
    (by omega) (by omega) (by omega) (by omega) rfl (by decide)

/-! ### Claim C5: the m = 1 fast path -/

theorem recoveryPositions_single (k rpos : Nat) (blocks : List cm256_block) (hrk : rpos < k)
    (hrIdx : ¬ (blocks.getD rpos default).Index < k)
    (hothers : ∀ p, p < k → p ≠ rpos → (blocks.getD p default).Index < k) :
    recoveryPositions k blocks = [rpos] := by
  have hk' : k = rpos + (1 + (k - rpos - 1)) := by omega
  have e1 : List.range' rpos (1 + (k - rpos - 1)) =
      rpos :: List.range' (rpos + 1) (k - rpos - 1) := by
    rw [Nat.add_comm 1 (k - rpos - 1)]
    exact List.range'_succ rpos (k - rpos - 1) 1
  have hsplit3 : List.range k =
      List.range' 0 rpos ++ rpos :: List.range' (rpos + 1) (k - rpos - 1) := by
    rw [List.range_eq_range']
    conv_lhs => rw [hk']
    rw [range'_split, e1]
  rw [recoveryPositions, hsplit3, List.filter_append, List.filter_cons]
  have hpr : (!decide ((blocks.getD rpos default).Index < k)) = true := by
    rw [decide_eq_false hrIdx]
    rfl
  rw [if_pos hpr]
  have hleft : (List.range' 0 rpos).filter
      (fun ii => !decide ((blocks.getD ii default).Index < k)) = [] := by
    apply List.filter_eq_nil_iff.mpr
    intro a ha hcontra
    have hm := List.mem_range'_1.mp ha
    have hlt : (blocks.getD a default).Index < k := hothers a (by omega) (by omega)
    rw [decide_eq_true hlt] at hcontra
    exact absurd hcontra (by decide)
  have hright : (List.range' (rpos + 1) (k - rpos - 1)).filter
      (fun ii => !decide ((blocks.getD ii default).Index < k)) = [] := by
    apply List.filter_eq_nil_iff.mpr
    intro a ha hcontra
    have hm := List.mem_range'_1.mp ha
    have hlt : (blocks.getD a default).Index < k := hothers a (by omega) (by omega)
    rw [decide_eq_true hlt] at hcontra
    exact absurd hcontra (by decide)
  rw [hleft, hright]
  rfl


/-- The staged pairwise XOR fold of `Decoder::DecodeM1`, flushed by the
trailing `gf256_add_mem`, XORs every listed block into the buffer. -/
theorem decodeM1_fold_spec (blocks : List cm256_block) (bb : Nat) (ps : List Nat)
    (hall : ∀ p ∈ ps, (blocks.getD p default).Block.length = bb) :
    ∀ (buf : List GF) (staged : Option (List GF)), buf.length = bb →
      (∀ s, staged = some s → s.length = bb) →
      (m1Flush (ps.foldl (m1Step blocks) (buf, staged))).length = bb ∧
      ∀ pos, pos < bb →
        (m1Flush (ps.foldl (m1Step blocks) (buf, staged))).getD pos 0 =
        (m1Flush (buf, staged)).getD pos 0 +
          (ps.map (fun p => (blocks.getD p default).Block.getD pos 0)).sum := by
  induction ps with
  | nil =>
    intro buf staged hbuf hstaged
    cases staged with
    | none => exact ⟨hbuf, fun pos _ => by simp⟩
    | some s =>
      have hs : s.length = bb := hstaged s rfl
      constructor
      · rw [List.foldl_nil]
        show (gf256_add_mem buf s).length = bb
        rw [length_gf256_add_mem, hbuf, hs]
        omega
      · intro pos hpos
        rw [List.foldl_nil]
        simp
  | cons p ps ih =>
    intro buf staged hbuf hstaged
    have hp : (blocks.getD p default).Block.length = bb := hall p (List.mem_cons_self p ps)
    have hall' : ∀ a ∈ ps, (blocks.getD a default).Block.length = bb :=
      fun a ha => hall a (List.mem_cons_of_mem p ha)
    cases staged with
    | none =>
      have hstep : m1Step blocks (buf, none) p = (buf, some ((blocks.getD p default).Block)) :=
        rfl
      obtain ⟨hl, hv⟩ := ih hall' buf (some ((blocks.getD p default).Block))
        hbuf (fun s hs => by injection hs with h; rw [← h]; exact hp)
      rw [List.foldl_cons, hstep]
      refine ⟨hl, fun pos hpos => ?_⟩
      rw [hv pos hpos]
      show (gf256_add_mem buf ((blocks.getD p default).Block)).getD pos 0 + _ =
        buf.getD pos 0 + _
      rw [getD_gf256_add_mem buf ((blocks.getD p default).Block) pos (by omega) (by omega)]
      simp [add_assoc]
    | some s =>
      have hs : s.length = bb := hstaged s rfl
      have hstep : m1Step blocks (buf, some s) p =
          (gf256_add2_mem buf s ((blocks.getD p default).Block), none) := rfl
      have hbuf' : (gf256_add2_mem buf s ((blocks.getD p default).Block)).length = bb := by
        rw [length_gf256_add2_mem, hbuf, hs, hp]
        omega
      obtain ⟨hl, hv⟩ := ih hall' (gf256_add2_mem buf s ((blocks.getD p default).Block)) none
        hbuf' (fun s hs => by cases hs)
      rw [List.foldl_cons, hstep]
      refine ⟨hl, fun pos hpos => ?_⟩
      rw [hv pos hpos]
      show (gf256_add2_mem buf s ((blocks.getD p default).Block)).getD pos 0 + _ =
        (gf256_add_mem buf s).getD pos 0 + _
      rw [getD_gf256_add2_mem buf s ((blocks.getD p default).Block) pos
        (by omega) (by omega) (by omega),
        getD_gf256_add_mem buf s pos (by omega) (by omega)]
      simp [add_assoc]

/-- C5.  With `params.RecoveryCount = 1`, `k ≥ 2`, and exactly one
original missing (the input being the `k-1` surviving originals plus the
single recovery block at position `rpos`), `cm256_decode` returns 0,
leaves every other block untouched, sets the recovery block's index to
the unique missing original index, and leaves its buffer equal to the
byte-wise XOR of all `k` input buffers (the `k-1` present originals plus
the recovery). -/
theorem cm256_decode_m1 (params : cm256_encoder_params) (k bb rpos : Nat)
    (blocks : List cm256_block)
    (hk : params.OriginalCount = (k : Int)) (hm : params.RecoveryCount = 1)
    (hbb : params.BlockBytes = (bb : Int))
    (hk2 : 2 ≤ k) (hkm : k + 1 ≤ 256) (hbb1 : 1 ≤ bb)
    (hlen : blocks.length = k)
    (hrk : rpos < k)
    (hrIdx : ¬ (blocks.getD rpos default).Index < k)
    (hothers : ∀ p, p < k → p ≠ rpos → (blocks.getD p default).Index < k)
    (hdist : ∀ p2, p2 < k → ∀ p1, p1 < p2 →
      (blocks.getD p1 default).Index ≠ (blocks.getD p2 default).Index)
    (hblens : ∀ p, p < k → (blocks.getD p default).Block.length = bb) :
    (cm256_decode params blocks).1 = 0 ∧
    (missingRows k blocks).length = 1 ∧
    ((cm256_decode params blocks).2.getD rpos default).Index =
      (missingRows k blocks).getD 0 0 ∧
    (∀ p, p ≠ rpos →
      (cm256_decode params blocks).2.getD p default = blocks.getD p default) ∧
    ((cm256_decode params blocks).2.getD rpos default).Block.length = bb ∧
    (∀ pos, pos < bb →
      ((cm256_decode params blocks).2.getD rpos default).Block.getD pos 0 =
        ∑ p in Finset.range k, (blocks.getD p default).Block.getD pos 0) := by
  have hdist' : ∀ p1 p2, p1 < p2 → p2 < k →
      (blocks.getD p1 default).Index ≠ (blocks.getD p2 default).Index :=
    fun p1 p2 h1 h2 => hdist p2 h2 p1 h1
  have hknat : params.OriginalCount.toNat = k := by rw [hk]; exact Int.toNat_natCast k
  have hrecS : recoveryPositions k blocks = [rpos] :=
    recoveryPositions_single k rpos blocks hrk hrIdx hothers
  have hdRec : (Decoder.Initialize params blocks).Recovery = [rpos] := by
    rw [Initialize_eq]
    show recoveryPositions params.OriginalCount.toNat blocks = _
    rw [hknat]
    exact hrecS
  have hdOrig : (Decoder.Initialize params blocks).Original = originalPositions k blocks := by
    rw [Initialize_eq]
    show originalPositions params.OriginalCount.toNat blocks = _
    rw [hknat]
  have hdErTake : (Decoder.Initialize params blocks).ErasuresIndices.take 1 =
      missingRows k blocks := by
    rw [Initialize_eq]
    show (erasureScan (recoveryPositions params.OriginalCount.toNat blocks).length 256 0 0
      (presenceArr params.OriginalCount.toNat blocks)).take 1 = _
    rw [hknat, hrecS]
    have h := Initialize_ErasuresIndices_take k blocks (by omega) hlen hdist'
    rw [hrecS] at h
    exact h
  have hmis1 : (missingRows k blocks).length = 1 := by
    rw [missingRows_length k blocks hlen hdist', hrecS]
    rfl
  have hrpos0 : (Decoder.Initialize params blocks).Recovery.getD 0 0 = rpos := by
    rw [hdRec]
    rfl
  have hcall : cm256_decode params blocks =
      (0, Decoder.DecodeM1 (Decoder.Initialize params blocks) blocks) := by
    unfold cm256_decode
    rw [if_neg (by omega), if_neg (by omega), if_neg (by omega : ¬ params.OriginalCount = 1)]
    rw [if_neg (by rw [hdRec]; simp), if_pos hm]
  have e : Decoder.DecodeM1 (Decoder.Initialize params blocks) blocks =
      blocks.set ((Decoder.Initialize params blocks).Recovery.getD 0 0)
        { Block := m1Flush ((Decoder.Initialize params blocks).Original.foldl
            (m1Step blocks)
            ((blocks.getD ((Decoder.Initialize params blocks).Recovery.getD 0 0)
              default).Block, none)),
          Index := (Decoder.Initialize params blocks).ErasuresIndices.getD 0 0 } := rfl
  rw [hrpos0, hdOrig] at e
  have hallo : ∀ p ∈ originalPositions k blocks,
      (blocks.getD p default).Block.length = bb := by
    intro p hp
    have := List.mem_range.mp (List.mem_of_mem_filter hp)
    exact hblens p this
  obtain ⟨houtlen, houtval⟩ := decodeM1_fold_spec blocks bb (originalPositions k blocks) hallo
    ((blocks.getD rpos default).Block) none (hblens rpos hrk) (fun s hs => by cases hs)
  have hidx0 : (Decoder.Initialize params blocks).ErasuresIndices.getD 0 0 =
      (missingRows k blocks).getD 0 0 := by
    have h0 : (missingRows k blocks).getD 0 0 =
        ((Decoder.Initialize params blocks).ErasuresIndices.take 1).getD 0 0 := by
      rw [hdErTake]
    rw [h0]
    cases hl : (Decoder.Initialize params blocks).ErasuresIndices with
    | nil => rfl
    | cons a l => rfl
  have hsum : ∀ pos,
      ((List.range k).map (fun p => (blocks.getD p default).Block.getD pos 0)).sum =
      (blocks.getD rpos default).Block.getD pos 0 +
        ((originalPositions k blocks).map
          (fun p => (blocks.getD p default).Block.getD pos 0)).sum := by
    intro pos
    have hperm := List.filter_append_perm
      (fun ii => decide ((blocks.getD ii default).Index < k)) (List.range k)
    have hmap := (hperm.map (fun p => (blocks.getD p default).Block.getD pos 0)).sum_eq
    rw [← hmap, List.map_append, List.sum_append]
    have hR : ((List.range k).filter
        (fun x => !decide ((blocks.getD x default).Index < k))) = [rpos] := hrecS
    rw [hR, List.map_cons, List.map_nil, List.sum_cons, List.sum_nil, add_zero, add_comm]
    rfl
  refine ⟨by rw [hcall], hmis1, ?_, ?_, ?_, ?_⟩
  · rw [hcall]
    show ((Decoder.DecodeM1 (Decoder.Initialize params blocks) blocks).getD rpos
      default).Index = _
    rw [e, set_getD_self blocks rpos _ default (by omega), hidx0]
  · intro p hp
    rw [hcall]
    show (Decoder.DecodeM1 (Decoder.Initialize params blocks) blocks).getD p default = _
    rw [e, set_getD_ne blocks rpos p _ default (fun hh => hp hh.symm)]
  · rw [hcall]
    show ((Decoder.DecodeM1 (Decoder.Initialize params blocks) blocks).getD rpos
      default).Block.length = bb
    rw [e, set_getD_self blocks rpos _ default (by omega)]
    exact houtlen
  · intro pos hpos
    rw [hcall]
    show ((Decoder.DecodeM1 (Decoder.Initialize params blocks) blocks).getD rpos
      default).Block.getD pos 0 = _
    rw [e, set_getD_self blocks rpos _ default (by omega)]
    show (m1Flush ((originalPositions k blocks).foldl (m1Step blocks)
        ((blocks.getD rpos default).Block, none))).getD pos 0 = _
    rw [houtval pos hpos, ← list_range_map_sum, hsum pos]
    rfl

theorem cm256_decode_m1_witness :
    (cm256_decode ⟨2, 1, 1⟩ [⟨[byteOfNat 7], 2⟩, ⟨[byteOfNat 3], 1⟩]).1 = 0 ∧
    (missingRows 2 [⟨[byteOfNat 7], 2⟩, ⟨[byteOfNat 3], 1⟩]).length = 1 ∧
    ((cm256_decode ⟨2, 1, 1⟩ [⟨[byteOfNat 7], 2⟩, ⟨[byteOfNat 3], 1⟩]).2.getD 0
        default).Index =
      (missingRows 2 [⟨[byteOfNat 7], 2⟩, ⟨[byteOfNat 3], 1⟩]).getD 0 0 ∧
    (∀ p, p ≠ 0 →
      (cm256_decode ⟨2, 1, 1⟩ [⟨[byteOfNat 7], 2⟩, ⟨[byteOfNat 3], 1⟩]).2.getD p default =
        [⟨[byteOfNat 7], 2⟩, ⟨[byteOfNat 3], 1⟩].getD p default) ∧
    ((cm256_decode ⟨2, 1, 1⟩ [⟨[byteOfNat 7], 2⟩, ⟨[byteOfNat 3], 1⟩]).2.getD 0
        default).Block.length = 1 ∧
    (∀ pos, pos < 1 →
      ((cm256_decode ⟨2, 1, 1⟩ [⟨[byteOfNat 7], 2⟩, ⟨[byteOfNat 3], 1⟩]).2.getD 0
          default).Block.getD pos 0 =
        ∑ p in Finset.range 2,
          ([(⟨[byteOfNat 7], 2⟩ : cm256_block), ⟨[byteOfNat 3], 1⟩].getD p
            default).Block.getD pos 0) :=
  cm256_decode_m1 ⟨2, 1, 1⟩ 2 1 0 [⟨[byteOfNat 7], 2⟩, ⟨[byteOfNat 3], 1⟩] rfl rfl rfl
    (by omega) (by omega) (by omega) rfl (by omega) (by decide) (by decide) (by decide)
    (by decide)

/-! ### Claim C10: division-precondition safety -/

/-- C10.  Every `GetMatrixElement` call reachable from `cm256_encode` or
`Decoder::Decode` under valid parameters and valid block labels has a
non-zero divisor `add(x_i, y_j)`: the encoder calls it with
`x_i = k + i` (`1 ≤ i < m`, and `x_i = x_0 = k` on the unrolled first
column) and `y_j = j < k`; the decoder's elimination and matrix-fill
calls use a recovery-row label `x ∈ [k, k+m)` and an original-row label
`y ∈ [0, k)`.  In all cases `x_i ≠ y_j`, so the XOR is non-zero and the
`gf256_div` precondition `b ≠ 0` holds. -/
theorem GetMatrixElement_divisor_safety (k m : Nat)
    (hk1 : 1 ≤ k) (hm1 : 1 ≤ m) (hkm : k + m ≤ 256) :
    (∀ i, i < m → ∀ j, j < k →
      gf256_add (byteOfNat (k + i)) (byteOfNat j) ≠ 0) ∧
    (∀ x y, k ≤ x → x < k + m → y < k →
      gf256_add (byteOfNat x) (byteOfNat y) ≠ 0) := by
  constructor
  · intro i hi j hj
    exact byteOfNat_add_ne_zero (k + i) j (by omega) (by omega) (by omega)
  · intro x y hx1 hx2 hy
    exact byteOfNat_add_ne_zero x y (by omega) (by omega) (by omega)

theorem GetMatrixElement_divisor_safety_witness :
    gf256_add (byteOfNat 3) (byteOfNat 1) ≠ 0 ∧
    gf256_add (byteOfNat 2) (byteOfNat 0) ≠ 0 :=
  ⟨(GetMatrixElement_divisor_safety 2 2 (by omega) (by omega) (by omega)).1 1 (by omega)
      1 (by omega),
   (GetMatrixElement_divisor_safety 2 2 (by omega) (by omega) (by omega)).2 2 0 (by omega)
      (by omega) (by omega)⟩

/-! ### Characteristic-2 helpers and the Cauchy-matrix nullity lemma

`Decoder::Decode` (cm256.cpp:303) succeeds because the square matrix it
builds from `GetMatrixElement` is a column-scaled Cauchy matrix, hence
invertible whenever the recovery rows `x_i` and the erased rows `y_j` are
pairwise distinct.  The key algebraic fact is that a vanishing linear
combination of the columns must be trivial; it is proved here with the
classical polynomial argument. -/

theorem GF.add_add_cancel (a b : GF) : a + b + b = a := by
  rw [add_assoc, GF.add_self, add_zero]

theorem GF.add_eq_zero_iff (a b : GF) : a + b = 0 ↔ a = b := by
  constructor
  · intro h
    calc a = a + b + b := (GF.add_add_cancel a b).symm
    _ = 0 + b := by rw [h]
    _ = b := zero_add b
  · rintro rfl
    exact GF.add_self a

theorem cauchy_vanish (nn : Nat) (Xp Yp : Nat → GF) (x0 : GF)
    (hXY : ∀ i, i < nn → ∀ j, j < nn → Xp i + Yp j ≠ 0)
    (hXd : ∀ i1, i1 < nn → ∀ i2, i2 < nn → Xp i1 = Xp i2 → i1 = i2)
    (hYd : ∀ j1, j1 < nn → ∀ j2, j2 < nn → Yp j1 = Yp j2 → j1 = j2)
    (hY0 : ∀ j, j < nn → Yp j + x0 ≠ 0)
    (v : Nat → GF)
    (hv : ∀ i, i < nn →
      ∑ j in Finset.range nn, GetMatrixElement (Xp i) x0 (Yp j) * v j = 0) :
    ∀ j, j < nn → v j = 0 := by
  classical
  set w : Nat → GF := fun j => (Yp j + x0) * v j with hw_def
  set P : Polynomial GF := ∑ j in Finset.range nn, Polynomial.C (w j) *
      ∏ l in (Finset.range nn).erase j, (Polynomial.X + Polynomial.C (Yp l)) with hP_def
  -- P vanishes at each Xp i
  have hPeval : ∀ i, i < nn → P.eval (Xp i) = 0 := by
    intro i hi
    have hQ : ∀ j ∈ Finset.range nn,
        Polynomial.eval (Xp i) (Polynomial.C (w j) *
          ∏ l in (Finset.range nn).erase j, (Polynomial.X + Polynomial.C (Yp l))) =
        (∏ l in Finset.range nn, (Xp i + Yp l)) *
          (GetMatrixElement (Xp i) x0 (Yp j) * v j) := by
      intro j hj
      have hjn : j < nn := Finset.mem_range.mp hj
      have hprod : (∏ l in Finset.range nn, (Xp i + Yp l)) =
          (Xp i + Yp j) * ∏ l in (Finset.range nn).erase j, (Xp i + Yp l) :=
        (Finset.mul_prod_erase _ _ hj).symm
      rw [Polynomial.eval_mul, Polynomial.eval_C, Polynomial.eval_prod]
      simp only [Polynomial.eval_add, Polynomial.eval_X, Polynomial.eval_C]
      rw [hprod]
      show w j * ∏ l in (Finset.range nn).erase j, (Xp i + Yp l) = _
      rw [GetMatrixElement, gf256_div, gf256_add, gf256_add, div_eq_mul_inv]
      have hne : Xp i + Yp j ≠ 0 := hXY i hi j hjn
      field_simp
      ring
    rw [hP_def, Polynomial.eval_finset_sum, Finset.sum_congr rfl hQ,
      ← Finset.mul_sum, hv i hi, mul_zero]
  -- P is the zero polynomial
  have hP0 : P = 0 := by
    by_contra hne
    have hnn : nn ≠ 0 := by
      intro h
      apply hne
      rw [hP_def, h]
      simp
    have hdeg : P.natDegree ≤ nn - 1 := by
      rw [hP_def]
      apply Polynomial.natDegree_sum_le_of_forall_le
      intro j hj
      calc (Polynomial.C (w j) *
            ∏ l in (Finset.range nn).erase j, (Polynomial.X + Polynomial.C (Yp l))).natDegree
          ≤ (Polynomial.C (w j)).natDegree +
            (∏ l in (Finset.range nn).erase j, (Polynomial.X + Polynomial.C (Yp l))).natDegree :=
            Polynomial.natDegree_mul_le
        _ ≤ 0 + (nn - 1) := by
            apply Nat.add_le_add
            · exact le_of_eq (Polynomial.natDegree_C _)
            · calc (∏ l in (Finset.range nn).erase j,
                    (Polynomial.X + Polynomial.C (Yp l))).natDegree
                  ≤ ∑ l in (Finset.range nn).erase j,
                    (Polynomial.X + Polynomial.C (Yp l)).natDegree :=
                    Polynomial.natDegree_prod_le _ _
                _ ≤ ∑ l in (Finset.range nn).erase j, 1 := by
                    apply Finset.sum_le_sum
                    intro l hl
                    rw [Polynomial.natDegree_X_add_C]
                _ = nn - 1 := by
                    rw [Finset.sum_const, smul_eq_mul, mul_one,
                      Finset.card_erase_of_mem hj, Finset.card_range]
        _ = nn - 1 := by omega
    have hcard : ((Finset.range nn).image Xp).card ≤ P.natDegree := by
      calc ((Finset.range nn).image Xp).card ≤ P.roots.toFinset.card := by
            apply Finset.card_le_card
            intro a ha
            obtain ⟨i, hi, rfl⟩ := Finset.mem_image.mp ha
            rw [Multiset.mem_toFinset, Polynomial.mem_roots hne]
            exact hPeval i (Finset.mem_range.mp hi)
        _ ≤ Multiset.card P.roots := P.roots.toFinset_card_le
        _ ≤ P.natDegree := P.card_roots'
    have himg : ((Finset.range nn).image Xp).card = nn := by
      rw [Finset.card_image_of_injOn, Finset.card_range]
      intro i1 h1 i2 h2 h
      exact hXd i1 (Finset.mem_range.mp h1) i2 (Finset.mem_range.mp h2) h
    omega
  -- Evaluate at Yp j to extract w j = 0
  intro j hj
  have hev : P.eval (Yp j) = 0 := by rw [hP0, Polynomial.eval_zero]
  rw [hP_def, Polynomial.eval_finset_sum] at hev
  have hsingle : ∀ b ∈ Finset.range nn, b ≠ j →
      Polynomial.eval (Yp j) (Polynomial.C (w b) *
        ∏ l in (Finset.range nn).erase b, (Polynomial.X + Polynomial.C (Yp l))) = 0 := by
    intro b hb hbj
    rw [Polynomial.eval_mul, Polynomial.eval_prod]
    have : (∏ l in (Finset.range nn).erase b,
        Polynomial.eval (Yp j) (Polynomial.X + Polynomial.C (Yp l))) = 0 := by
      apply Finset.prod_eq_zero (i := j)
      · exact Finset.mem_erase.mpr ⟨fun h => hbj h.symm, Finset.mem_range.mpr hj⟩
      · simp only [Polynomial.eval_add, Polynomial.eval_X, Polynomial.eval_C]
        exact GF.add_self _
    rw [this, mul_zero]
  rw [Finset.sum_eq_single j hsingle (fun h => absurd (Finset.mem_range.mpr hj) h)] at hev
  rw [Polynomial.eval_mul, Polynomial.eval_C, Polynomial.eval_prod] at hev
  have hprod_ne : (∏ l in (Finset.range nn).erase j,
      Polynomial.eval (Yp j) (Polynomial.X + Polynomial.C (Yp l))) ≠ 0 := by
    apply Finset.prod_ne_zero_iff.mpr
    intro l hl
    obtain ⟨hlj, hln⟩ := Finset.mem_erase.mp hl
    simp only [Polynomial.eval_add, Polynomial.eval_X, Polynomial.eval_C]
    intro h
    exact hlj (hYd l (Finset.mem_range.mp hln) j hj ((GF.add_eq_zero_iff _ _).mp h).symm)
  have hwj : w j = 0 := by
    rcases mul_eq_zero.mp hev with h | h
    · exact h
    · exact absurd h hprod_ne
  rw [hw_def] at hwj
  rcases mul_eq_zero.mp hwj with h | h
  · exact absurd h (hY0 j hj)
  · exact h

/-! ### Step A of `Decoder::Decode` (cm256.cpp:311-334)

The first pass eliminates every surviving original block from every
recovery block in place: for each original `o` and each recovery `ρ`,
`Block[ρ] += GetMatrixElement(Index[ρ], x_0, Index[o]) * Block[o]`.  The
two nested folds are characterised here. -/

theorem stepA_inner_spec (x_0 : GF) (inBlock : List GF) (inRow : Nat) :
    ∀ (rs : List Nat) (bl : List cm256_block), rs.Nodup →
      (∀ ρ ∈ rs, ρ < bl.length) →
      (let res := rs.foldl
        (fun bl2 rpos =>
          let b := bl2.getD rpos default
          let matrixElement := GetMatrixElement (byteOfNat b.Index) x_0 (byteOfNat inRow)
          bl2.set rpos { b with Block := gf256_muladd_mem b.Block matrixElement inBlock })
        bl
      res.length = bl.length ∧
      (∀ p, p ∉ rs → res.getD p default = bl.getD p default) ∧
      (∀ ρ, ρ ∈ rs → res.getD ρ default =
        { bl.getD ρ default with
          Block := gf256_muladd_mem (bl.getD ρ default).Block
            (GetMatrixElement (byteOfNat ((bl.getD ρ default).Index)) x_0 (byteOfNat inRow))
            inBlock })) := by
  intro rs
  induction rs with
  | nil =>
    intro bl _ _
    exact ⟨rfl, fun p _ => rfl, fun ρ h => absurd h (List.not_mem_nil ρ)⟩
  | cons ρ0 rs ih =>
    intro bl hnd hlt
    have hρ0 : ρ0 < bl.length := hlt ρ0 (List.mem_cons_self _ _)
    have hnd' : rs.Nodup := (List.nodup_cons.mp hnd).2
    have hρ0nr : ρ0 ∉ rs := (List.nodup_cons.mp hnd).1
    simp only [List.foldl_cons]
    set b0 := bl.getD ρ0 default with hb0
    set bl1 := bl.set ρ0
      { b0 with
        Block := gf256_muladd_mem b0.Block
          (GetMatrixElement (byteOfNat b0.Index) x_0 (byteOfNat inRow)) inBlock } with hbl1
    have hlen1 : bl1.length = bl.length := by rw [hbl1, List.length_set]
    have hlt1 : ∀ ρ ∈ rs, ρ < bl1.length := by
      intro ρ h
      rw [hlen1]
      exact hlt ρ (List.mem_cons_of_mem _ h)
    obtain ⟨ha, hb, hc⟩ := ih bl1 hnd' hlt1
    refine ⟨by rw [ha, hlen1], ?_, ?_⟩
    · intro p hp
      have hp1 : p ∉ rs := fun h => hp (List.mem_cons_of_mem _ h)
      have hpρ0 : p ≠ ρ0 := fun h => hp (h ▸ List.mem_cons_self _ _)
      rw [hb p hp1, hbl1, set_getD_ne _ _ _ _ _ (Ne.symm hpρ0)]
    · intro ρ hρ
      rcases List.mem_cons.mp hρ with h | h
      · subst h
        rw [hb ρ hρ0nr, hbl1, set_getD_self _ _ _ _ hρ0]
      · have hρρ0 : ρ ≠ ρ0 := fun he => hρ0nr (he ▸ h)
        rw [hc ρ h, hbl1, set_getD_ne _ _ _ _ _ (Ne.symm hρρ0)]

theorem stepA_outer_spec (x_0 : GF) (rs : List Nat) (bb : Nat) (hrsd : rs.Nodup) :
    ∀ (os : List Nat) (bl : List cm256_block),
      (∀ ρ ∈ rs, ρ < bl.length) → (∀ o ∈ os, o < bl.length) →
      (∀ o ∈ os, o ∉ rs) →
      (∀ o ∈ os, ((bl.getD o default).Block).length = bb) →
      (∀ ρ ∈ rs, ((bl.getD ρ default).Block).length = bb) →
      (let res := os.foldl
        (fun bl opos =>
          let inBlock := (bl.getD opos default).Block
          let inRow := (bl.getD opos default).Index
          rs.foldl
            (fun bl2 rpos =>
              let b := bl2.getD rpos default
              let matrixElement := GetMatrixElement (byteOfNat b.Index) x_0 (byteOfNat inRow)
              bl2.set rpos { b with Block := gf256_muladd_mem b.Block matrixElement inBlock })
            bl)
        bl
      res.length = bl.length ∧
      (∀ p, p ∉ rs → res.getD p default = bl.getD p default) ∧
      (∀ ρ, ρ ∈ rs →
        ((res.getD ρ default).Index = (bl.getD ρ default).Index ∧
         ((res.getD ρ default).Block).length = bb) ∧
        (∀ pos, pos < bb → ((res.getD ρ default).Block).getD pos 0 =
          ((bl.getD ρ default).Block).getD pos 0 +
          (os.map (fun o => GetMatrixElement (byteOfNat ((bl.getD ρ default).Index)) x_0
            (byteOfNat ((bl.getD o default).Index)) *
            ((bl.getD o default).Block).getD pos 0)).sum))) := by
  intro os
  induction os with
  | nil =>
    intro bl _ _ _ _ hρlen
    refine ⟨rfl, fun p _ => rfl, fun ρ hρ => ⟨⟨rfl, hρlen ρ hρ⟩, fun pos _ => ?_⟩⟩
    simp only [List.foldl_nil, List.map_nil, List.sum_nil, add_zero]
  | cons o os ih =>
    intro bl hρlt holt hdisj holen hρlen
    simp only [List.foldl_cons]
    obtain ⟨ia, ib, ic⟩ := stepA_inner_spec x_0 ((bl.getD o default).Block)
      ((bl.getD o default).Index) rs bl hrsd hρlt
    set bl1 := rs.foldl
      (fun bl2 rpos =>
        let b := bl2.getD rpos default
        let matrixElement := GetMatrixElement (byteOfNat b.Index) x_0
          (byteOfNat ((bl.getD o default).Index))
        bl2.set rpos { b with
          Block := gf256_muladd_mem b.Block matrixElement ((bl.getD o default).Block) })
      bl with hbl1
    have honr : o ∉ rs := hdisj o (List.mem_cons_self _ _)
    have hblo : bl1.getD o default = bl.getD o default := ib o honr
    have holen0 : ((bl.getD o default).Block).length = bb := holen o (List.mem_cons_self _ _)
    obtain ⟨ja, jb, jc⟩ := ih bl1
      (fun ρ h => ia ▸ hρlt ρ h)
      (fun o' h => ia ▸ holt o' (List.mem_cons_of_mem _ h))
      (fun o' h => hdisj o' (List.mem_cons_of_mem _ h))
      (fun o' h => by rw [ib o' (hdisj o' (List.mem_cons_of_mem _ h))]
                      exact holen o' (List.mem_cons_of_mem _ h))
      (fun ρ h => by
        rw [ic ρ h]
        show (gf256_muladd_mem _ _ _).length = bb
        rw [length_gf256_muladd_mem, hρlen ρ h, holen0, Nat.min_self])
    refine ⟨by rw [ja, ia], ?_, ?_⟩
    · intro p hp
      rw [jb p hp, ib p hp]
    · intro ρ hρ
      obtain ⟨⟨j1, j2⟩, j3⟩ := jc ρ hρ
      have hicρ := ic ρ hρ
      refine ⟨⟨by rw [j1, hicρ], j2⟩, ?_⟩
      intro pos hpos
      have hIdxρ : (bl1.getD ρ default).Index = (bl.getD ρ default).Index := by rw [hicρ]
      have hIdx : ∀ o', o' ∈ os → (bl1.getD o' default).Index = (bl.getD o' default).Index := by
        intro o' h
        rw [ib o' (hdisj o' (List.mem_cons_of_mem _ h))]
      have hByte : ∀ o', o' ∈ os →
          ((bl1.getD o' default).Block).getD pos 0 = ((bl.getD o' default).Block).getD pos 0 := by
        intro o' h
        rw [ib o' (hdisj o' (List.mem_cons_of_mem _ h))]
      have hmap : (os.map (fun o' => GetMatrixElement (byteOfNat ((bl1.getD ρ default).Index)) x_0
            (byteOfNat ((bl1.getD o' default).Index)) *
            ((bl1.getD o' default).Block).getD pos 0)).sum =
          (os.map (fun o' => GetMatrixElement (byteOfNat ((bl.getD ρ default).Index)) x_0
            (byteOfNat ((bl.getD o' default).Index)) *
            ((bl.getD o' default).Block).getD pos 0)).sum := by
        apply congrArg List.sum
        apply List.map_congr_left
        intro o' h
        rw [hIdxρ, hIdx o' h, hByte o' h]
      have h1 : ((bl1.getD ρ default).Block).getD pos 0 =
          ((bl.getD ρ default).Block).getD pos 0 +
          GetMatrixElement (byteOfNat ((bl.getD ρ default).Index)) x_0
            (byteOfNat ((bl.getD o default).Index)) *
            ((bl.getD o default).Block).getD pos 0 := by
        rw [hicρ]
        exact getD_gf256_muladd_mem _ _ _ _ (by rw [hρlen ρ hρ]; exact hpos)
          (by rw [holen0]; exact hpos)
      rw [j3 pos hpos, hmap, h1, List.map_cons, List.sum_cons, add_assoc]

/-! ### The linear-system view of the Gaussian elimination

`Decoder::Decode` (cm256.cpp:337-432) solves `A·v = R` for the erased
original blocks, one byte position at a time.  `rowByte` reads the byte
of the recovery block belonging to logical row `i`; `origSys` is the
initial system; `curSys` is the system carried by an intermediate
elimination state: rows already processed (`t < j`) are in unit
upper-triangular form and only their columns `> t` are ever read again,
rows not yet processed only involve columns `≥ j`. -/

def rowByte (recovery : List Nat) (bl : List cm256_block) (i pos : Nat) : GF :=
  ((bl.getD (recovery.getD i 0) default).Block).getD pos 0

def origSys (A R : Nat → Nat → GF) (n pos : Nat) (v : Nat → GF) : Prop :=
  ∀ i, i < n → ∑ c in Finset.range n, A i c * v c = R i pos

def curSys (recovery : List Nat) (n j : Nat) (st : ElimState) (pos : Nat)
    (v : Nat → GF) : Prop :=
  (∀ t, j ≤ t → t < n →
    ∑ c in Finset.Ico j n, st.matrix (st.pivots.getD t 0) c * v c =
      rowByte recovery st.blocks (st.pivots.getD t 0) pos) ∧
  (∀ t, t < j →
    v t + ∑ c in Finset.Ico (t + 1) n, st.matrix (st.pivots.getD t 0) c * v c =
      rowByte recovery st.blocks (st.pivots.getD t 0) pos)

/-- The invariant carried through the forward elimination
(cm256.cpp:356-410): the pivot permutation stays a permutation of
`[0, n)`, only recovery blocks are touched, processed rows have their
output index assigned, and row operations preserve the solution set of
the linear system at every byte position. -/
structure GaussInv (recovery ers : List Nat) (n bb : Nat) (A R : Nat → Nat → GF)
    (blocks1 : List cm256_block) (j : Nat) (st : ElimState) : Prop where
  hj : j ≤ n
  hplen : n ≤ st.pivots.length
  hlen : st.blocks.length = blocks1.length
  hpiv_lt : ∀ t, t < n → st.pivots.getD t 0 < n
  hpiv_inj : ∀ t1, t1 < n → ∀ t2, t2 < n →
    st.pivots.getD t1 0 = st.pivots.getD t2 0 → t1 = t2
  hframe : ∀ p, (∀ i, i < n → recovery.getD i 0 ≠ p) →
    st.blocks.getD p default = blocks1.getD p default
  hblen : ∀ i, i < n → ((st.blocks.getD (recovery.getD i 0) default).Block).length = bb
  hidx : ∀ t, t < j →
    (st.blocks.getD (recovery.getD (st.pivots.getD t 0) 0) default).Index = ers.getD t 0
  hsys : ∀ pos, pos < bb → ∀ v : Nat → GF,
    origSys A R n pos v ↔ curSys recovery n j st pos v

/-- Downward construction of a solution of the processed (unit
upper-triangular) part of the system, given arbitrary values for the
coordinates `≥ j`. -/
theorem tri_extend (n : Nat) (A : Nat → Nat → GF) (B : Nat → GF) :
    ∀ (j : Nat) (base : Nat → GF), ∃ v : Nat → GF,
      (∀ t, j ≤ t → v t = base t) ∧
      (∀ t, t < j → v t + ∑ c in Finset.Ico (t + 1) n, A t c * v c = B t) := by
  have key : ∀ (d j : Nat) (base : Nat → GF), d ≤ j → ∃ v : Nat → GF,
      (∀ t, j ≤ t → v t = base t) ∧
      (∀ t, j - d ≤ t → t < j → v t + ∑ c in Finset.Ico (t + 1) n, A t c * v c = B t) := by
    intro d
    induction d with
    | zero =>
      intro j base _
      exact ⟨base, fun t _ => rfl, fun t h1 h2 => absurd h2 (by omega)⟩
    | succ d ih =>
      intro j base hd
      obtain ⟨v, hv1, hv2⟩ := ih j base (by omega)
      set i := j - (d + 1) with hi
      refine ⟨fun t => if t = i then
          B i + ∑ c in Finset.Ico (i + 1) n, A i c * v c else v t, ?_, ?_⟩
      · intro t ht
        have : t ≠ i := by omega
        simp only [if_neg this]
        exact hv1 t ht
      · intro t ht1 ht2
        have hagree : ∀ c ∈ Finset.Ico (t + 1) n,
            A t c * (if c = i then B i + ∑ c2 in Finset.Ico (i + 1) n, A i c2 * v c2
              else v c) = A t c * v c := by
          intro c hc
          have hc' := Finset.mem_Ico.mp hc
          have : c ≠ i := by omega
          rw [if_neg this]
        rw [Finset.sum_congr rfl hagree]
        change (if t = i then B i + ∑ c in Finset.Ico (i + 1) n, A i c * v c else v t) +
          ∑ c in Finset.Ico (t + 1) n, A t c * v c = B t
        by_cases hti : t = i
        · subst hti
          rw [if_pos rfl]
          exact GF.add_add_cancel _ _
        · have hti' : j - d ≤ t := by omega
          rw [if_neg hti]
          exact hv2 t hti' ht2
  intro j base
  obtain ⟨v, h1, h2⟩ := key j j base le_rfl
  exact ⟨v, h1, fun t ht => h2 t (by omega) ht⟩

/-- An injective self-map of `[0, n)` is surjective on `[0, n)`. -/
theorem inj_on_range_surj (n : Nat) (f : Nat → Nat)
    (hlt : ∀ t, t < n → f t < n)
    (hinj : ∀ t1, t1 < n → ∀ t2, t2 < n → f t1 = f t2 → t1 = t2) :
    ∀ q, q < n → ∃ t, t < n ∧ f t = q := by
  intro q hq
  classical
  let g : Fin n → Fin n := fun t => ⟨f t.val, hlt t.val t.isLt⟩
  have hginj : Function.Injective g := by
    intro t1 t2 h
    have : f t1.val = f t2.val := congrArg Fin.val h
    exact Fin.ext (hinj t1.val t1.isLt t2.val t2.isLt this)
  have hgsurj : Function.Surjective g := Finite.injective_iff_surjective.mp hginj
  obtain ⟨t, ht⟩ := hgsurj ⟨q, hq⟩
  exact ⟨t.val, t.isLt, congrArg Fin.val ht⟩

/-- Splitting the lowest column out of a tail sum. -/
theorem sum_Ico_bot (j n : Nat) (h : j < n) (f : Nat → GF) :
    ∑ c in Finset.Ico j n, f c = f j + ∑ c in Finset.Ico (j + 1) n, f c :=
  Finset.sum_eq_sum_Ico_succ_bot h f

theorem pivotSearch_none_iff (mat : Nat → Nat → GF) (pivots : List Nat) (j n : Nat) :
    pivotSearch mat pivots j n = none ↔
      ∀ t, j ≤ t → t < n → mat (pivots.getD t 0) j = 0 := by
  rw [pivotSearch, List.find?_eq_none]
  constructor
  · intro h t h1 h2
    have hmem : t ∈ List.range' j (n - j) := by
      rw [List.mem_range'_1]
      omega
    have := h t hmem
    by_contra hne
    exact this (by simpa using hne)
  · intro h t hmem
    rw [List.mem_range'_1] at hmem
    simp only [ne_eq, decide_not, Bool.not_eq_true', decide_eq_false_iff_not, not_not]
    exact h t hmem.1 (by omega)

theorem pivotSearch_some (mat : Nat → Nat → GF) (pivots : List Nat) (j n r : Nat)
    (h : pivotSearch mat pivots j n = some r) :
    j ≤ r ∧ r < n ∧ mat (pivots.getD r 0) j ≠ 0 := by
  have hmem := List.mem_of_find?_eq_some h
  rw [List.mem_range'_1] at hmem
  have hp := List.find?_some h
  simp only [ne_eq, decide_not, Bool.not_eq_true', decide_eq_false_iff_not] at hp
  exact ⟨hmem.1, by omega, hp⟩

/-! ### Closed form of the column-elimination fold (cm256.cpp:392-409)

One Gaussian-elimination column step ends with a fold over the
still-unprocessed rows, each receiving a `muladd` of the pivot row and
the pivot block.  The rows and block positions touched are pairwise
distinct and distinct from the pivot's, so the fold has a simple closed
form relative to its starting state. -/

theorem elimFold_spec (recovery : List Nat) (pv : List Nat) (i rpos j n : Nat) :
    ∀ (ks : List Nat) (mat : Nat → Nat → GF) (bl : List cm256_block),
      ks.Nodup →
      (∀ kk ∈ ks, pv.getD kk 0 ≠ i) →
      (∀ kk1 ∈ ks, ∀ kk2 ∈ ks, pv.getD kk1 0 = pv.getD kk2 0 → kk1 = kk2) →
      (∀ kk ∈ ks, recovery.getD (pv.getD kk 0) 0 ≠ rpos) →
      (∀ kk1 ∈ ks, ∀ kk2 ∈ ks,
        recovery.getD (pv.getD kk1 0) 0 = recovery.getD (pv.getD kk2 0) 0 → kk1 = kk2) →
      (∀ kk ∈ ks, recovery.getD (pv.getD kk 0) 0 < bl.length) →
      (let res := ks.foldl
        (fun (acc : (Nat → Nat → GF) × List cm256_block) kk =>
          let otheri := pv.getD kk 0
          let otherMatrixElement := acc.1 otheri j
          let opos := recovery.getD otheri 0
          (muladdRowFrom acc.1 otheri i (j + 1) n otherMatrixElement,
           acc.2.set opos
             { (acc.2.getD opos default) with
               Block := gf256_muladd_mem ((acc.2.getD opos default).Block)
                 otherMatrixElement ((acc.2.getD rpos default).Block) }))
        (mat, bl)
      (∀ rr, (∀ kk ∈ ks, pv.getD kk 0 ≠ rr) → ∀ c, res.1 rr c = mat rr c) ∧
      (∀ kk ∈ ks, ∀ c, res.1 (pv.getD kk 0) c =
        if j + 1 ≤ c ∧ c < n then
          mat (pv.getD kk 0) c + mat (pv.getD kk 0) j * mat i c
        else mat (pv.getD kk 0) c) ∧
      res.2.length = bl.length ∧
      (∀ p, (∀ kk ∈ ks, recovery.getD (pv.getD kk 0) 0 ≠ p) →
        res.2.getD p default = bl.getD p default) ∧
      (∀ kk ∈ ks, res.2.getD (recovery.getD (pv.getD kk 0) 0) default =
        { bl.getD (recovery.getD (pv.getD kk 0) 0) default with
          Block := gf256_muladd_mem
            ((bl.getD (recovery.getD (pv.getD kk 0) 0) default).Block)
            (mat (pv.getD kk 0) j) ((bl.getD rpos default).Block) })) := by
  intro ks
  induction ks with
  | nil =>
    intro mat bl _ _ _ _ _ _
    exact ⟨fun rr _ c => rfl, fun kk h => absurd h (List.not_mem_nil kk),
      rfl, fun p _ => rfl, fun kk h => absurd h (List.not_mem_nil kk)⟩
  | cons kk0 ks ih =>
    intro mat bl hnd hne_i hrow_inj hpos_ne hpos_inj hpos_lt
    have hkk0 : kk0 ∈ kk0 :: ks := List.mem_cons_self _ _
    have hmemt : ∀ kk ∈ ks, kk ∈ kk0 :: ks := fun kk h => List.mem_cons_of_mem _ h
    have hnd' : ks.Nodup := (List.nodup_cons.mp hnd).2
    have hkk0nt : kk0 ∉ ks := (List.nodup_cons.mp hnd).1
    set q0 := pv.getD kk0 0 with hq0
    set opos0 := recovery.getD q0 0 with hopos0
    set mat1 := muladdRowFrom mat q0 i (j + 1) n (mat q0 j) with hmat1
    set bl1 := bl.set opos0
      { (bl.getD opos0 default) with
        Block := gf256_muladd_mem ((bl.getD opos0 default).Block)
          (mat q0 j) ((bl.getD rpos default).Block) } with hbl1
    have hrow_q0 : ∀ kk ∈ ks, pv.getD kk 0 ≠ q0 := by
      intro kk h heq
      exact hkk0nt (hrow_inj kk (hmemt kk h) kk0 hkk0 heq ▸ h)
    have hpos_q0 : ∀ kk ∈ ks, recovery.getD (pv.getD kk 0) 0 ≠ opos0 := by
      intro kk h heq
      exact hkk0nt (hpos_inj kk (hmemt kk h) kk0 hkk0 heq ▸ h)
    have hlen1 : bl1.length = bl.length := by rw [hbl1, List.length_set]
    have hmat1_other : ∀ rr, rr ≠ q0 → ∀ c, mat1 rr c = mat rr c := by
      intro rr hrr c
      rw [hmat1, muladdRowFrom]
      simp only [if_neg (fun h : rr = q0 ∧ j + 1 ≤ c ∧ c < n => hrr h.1)]
    have hmat1_i : ∀ c, mat1 i c = mat i c :=
      hmat1_other i (fun h => hne_i kk0 hkk0 h.symm)
    have hbl1_other : ∀ p, p ≠ opos0 → bl1.getD p default = bl.getD p default := by
      intro p hp
      rw [hbl1, set_getD_ne _ _ _ _ _ (Ne.symm hp)]
    have hbl1_rpos : bl1.getD rpos default = bl.getD rpos default :=
      hbl1_other rpos (fun h => hpos_ne kk0 hkk0 (hopos0 ▸ h.symm))
    obtain ⟨m1, m2, b1, b2, b3⟩ := ih mat1 bl1 hnd'
      (fun kk h => hne_i kk (hmemt kk h))
      (fun kk1 h1 kk2 h2 => hrow_inj kk1 (hmemt kk1 h1) kk2 (hmemt kk2 h2))
      (fun kk h => hpos_ne kk (hmemt kk h))
      (fun kk1 h1 kk2 h2 => hpos_inj kk1 (hmemt kk1 h1) kk2 (hmemt kk2 h2))
      (fun kk h => hlen1 ▸ hpos_lt kk (hmemt kk h))
    simp only [List.foldl_cons]
    refine ⟨?_, ?_, ?_, ?_, ?_⟩
    · intro rr hrr c
      rw [m1 rr (fun kk h => hrr kk (hmemt kk h)) c,
        hmat1_other rr (Ne.symm (hrr kk0 hkk0)) c]
    · intro kk hkk c
      rcases List.mem_cons.mp hkk with h | h
      · subst h
        rw [m1 q0 (fun kk h => hrow_q0 kk h) c, hmat1, muladdRowFrom]
        by_cases hc : j + 1 ≤ c ∧ c < n
        · rw [if_pos ⟨rfl, hc⟩, if_pos hc]
        · rw [if_neg (fun h : q0 = q0 ∧ j + 1 ≤ c ∧ c < n => hc h.2), if_neg hc]
      · rw [m2 kk h c, hmat1_other (pv.getD kk 0) (hrow_q0 kk h) c,
          hmat1_i c]
        have hj : mat1 (pv.getD kk 0) j = mat (pv.getD kk 0) j :=
          hmat1_other (pv.getD kk 0) (hrow_q0 kk h) j
        rw [hj]
    · rw [b1, hlen1]
    · intro p hp
      rw [b2 p (fun kk h => hp kk (hmemt kk h)),
        hbl1_other p (Ne.symm (hp kk0 hkk0))]
    · intro kk hkk
      rcases List.mem_cons.mp hkk with h | h
      · subst h
        rw [b2 opos0 (fun kk h => hpos_q0 kk h), hbl1,
          set_getD_self _ _ _ _ (hpos_lt kk hkk0)]
      · rw [b3 kk h, hbl1_other _ (hpos_q0 kk h), hbl1_rpos]
        have hj : mat1 (pv.getD kk 0) j = mat (pv.getD kk 0) j :=
          hmat1_other (pv.getD kk 0) (hrow_q0 kk h) j
        rw [hj]

/-! ### Algebraic helpers for one elimination step -/

theorem gf_scale_iff (e vj S B : GF) (he : e ≠ 0) :
    (e * vj + S = B) ↔ (vj + e⁻¹ * S = e⁻¹ * B) := by
  constructor
  · intro h
    calc vj + e⁻¹ * S = e⁻¹ * (e * vj) + e⁻¹ * S := by
          rw [← mul_assoc, inv_mul_cancel₀ he, one_mul]
    _ = e⁻¹ * (e * vj + S) := (mul_add _ _ _).symm
    _ = e⁻¹ * B := by rw [h]
  · intro h
    calc e * vj + S = e * vj + e * (e⁻¹ * S) := by
          rw [← mul_assoc, mul_inv_cancel₀ he, one_mul]
    _ = e * (vj + e⁻¹ * S) := (mul_add _ _ _).symm
    _ = e * (e⁻¹ * B) := by rw [h]
    _ = B := by rw [← mul_assoc, mul_inv_cancel₀ he, one_mul]

theorem gf_row_iff (a Sq Bq Si vj Bi : GF) (hE : vj + Si = Bi) :
    (a * vj + Sq = Bq) ↔ (Sq + a * Si = Bq + a * Bi) := by
  have hSi : Si = vj + Bi := by
    calc Si = vj + (vj + Si) := by rw [← add_assoc, GF.add_self, zero_add]
    _ = vj + Bi := by rw [hE]
  rw [hSi, mul_add, ← add_assoc, add_left_inj, add_comm Sq (a * vj)]

theorem sum_factor (s : Finset Nat) (a : GF) (f v : Nat → GF) :
    ∑ c in s, (a * f c) * v c = a * ∑ c in s, f c * v c := by
  rw [Finset.mul_sum]
  exact Finset.sum_congr rfl (fun c _ => mul_assoc _ _ _)

theorem sum_add_split (s : Finset Nat) (f g v : Nat → GF) :
    ∑ c in s, (f c + g c) * v c = ∑ c in s, f c * v c + ∑ c in s, g c * v c := by
  rw [← Finset.sum_add_distrib]
  exact Finset.sum_congr rfl (fun c _ => add_mul _ _ _)

/-! ### One step of the forward elimination preserves the invariant

The pivot hunt cannot fail: a zero pivot column would let two distinct
vectors solve the original system (extend downward through the already
processed triangular rows), contradicting the Cauchy nullity hypothesis
`hAinj`.  When the pivot is found, the normalisation and the column
elimination are invertible row operations mirrored on the blocks, so the
solution set at every byte position is unchanged. -/

theorem gaussStep_inv (recovery ers : List Nat) (n bb : Nat) (A R : Nat → Nat → GF)
    (blocks1 : List cm256_block) (j : Nat) (st : ElimState)
    (hrec_lt : ∀ t, t < n → recovery.getD t 0 < blocks1.length)
    (hrec_inj : ∀ t1, t1 < n → ∀ t2, t2 < n →
      recovery.getD t1 0 = recovery.getD t2 0 → t1 = t2)
    (hbb : 0 < bb)
    (hsolv : ∃ v : Nat → GF, origSys A R n 0 v)
    (hAinj : ∀ v : Nat → GF,
      (∀ i2, i2 < n → ∑ c in Finset.range n, A i2 c * v c = 0) → ∀ t, t < n → v t = 0)
    (hj : j < n)
    (hinv : GaussInv recovery ers n bb A R blocks1 j st) :
    GaussInv recovery ers n bb A R blocks1 (j + 1) (gaussStep recovery ers n st j) := by
  classical
  rcases hps : pivotSearch st.matrix st.pivots j n with _ | r
  · -- no pivot found: contradiction with the invertibility of A
    exfalso
    have hall := (pivotSearch_none_iff st.matrix st.pivots j n).mp hps
    obtain ⟨v0, hv0⟩ := hsolv
    have hcur0 := (hinv.hsys 0 hbb v0).mp hv0
    obtain ⟨v1, hv1a, hv1b⟩ := tri_extend n
      (fun t c => st.matrix (st.pivots.getD t 0) c)
      (fun t => rowByte recovery st.blocks (st.pivots.getD t 0) 0) j
      (fun c => if c = j then v0 j + 1 else v0 c)
    have hcur1 : curSys recovery n j st 0 v1 := by
      refine ⟨?_, hv1b⟩
      intro t h1 h2
      have hz : st.matrix (st.pivots.getD t 0) j = 0 := hall t h1 h2
      have hsplit0 := hcur0.1 t h1 h2
      rw [sum_Ico_bot j n hj (fun c => st.matrix (st.pivots.getD t 0) c * v0 c), hz,
        zero_mul, zero_add] at hsplit0
      rw [sum_Ico_bot j n hj (fun c => st.matrix (st.pivots.getD t 0) c * v1 c), hz,
        zero_mul, zero_add]
      rw [← hsplit0]
      apply Finset.sum_congr rfl
      intro c hc
      have hc' := Finset.mem_Ico.mp hc
      rw [hv1a c (by omega), if_neg (by omega : c ≠ j)]
    have hv1sys := (hinv.hsys 0 hbb v1).mpr hcur1
    have hdiff : ∀ i2, i2 < n →
        ∑ c in Finset.range n, A i2 c * (v0 c + v1 c) = 0 := by
      intro i2 hi2
      have : ∑ c in Finset.range n, A i2 c * (v0 c + v1 c) =
          (∑ c in Finset.range n, A i2 c * v0 c) +
          (∑ c in Finset.range n, A i2 c * v1 c) := by
        rw [← Finset.sum_add_distrib]
        exact Finset.sum_congr rfl (fun c _ => mul_add _ _ _)
      rw [this, hv0 i2 hi2, hv1sys i2 hi2, GF.add_self]
    have hjz := hAinj (fun c => v0 c + v1 c) hdiff j hj
    change v0 j + v1 j = 0 at hjz
    rw [hv1a j le_rfl, if_pos rfl, ← add_assoc, GF.add_self, zero_add] at hjz
    exact GF.zero_ne_one' hjz.symm
  · -- pivot found at remaining index r
    obtain ⟨hjr, hrn, hE0⟩ := pivotSearch_some st.matrix st.pivots j n r hps
    set i := st.pivots.getD r 0 with hi_def
    have hi_lt : i < n := hinv.hpiv_lt r hrn
    set e := st.matrix i j with he_def
    have he : e ≠ 0 := hE0
    set PV := (st.pivots.set r (st.pivots.getD j 0)).set j i with hPV_def
    set rpos := recovery.getD i 0 with hrpos_def
    set blocks1p := st.blocks.set rpos
      { (st.blocks.getD rpos default) with Index := ers.getD j 0 } with hblocks1p_def
    set mat1 := if e ≠ 1 then
        scaleRowFrom st.matrix i (j + 1) n (gf256_inv e)
      else st.matrix with hmat1_def
    set blocks2 := if e ≠ 1 then
        blocks1p.set rpos
          { (blocks1p.getD rpos default) with
            Block := gf256_mul_mem ((blocks1p.getD rpos default).Block) (gf256_inv e) }
      else blocks1p with hblocks2_def
    set F := (List.range' (j + 1) (n - (j + 1))).foldl
      (fun (acc : (Nat → Nat → GF) × List cm256_block) kk =>
        let otheri := PV.getD kk 0
        let otherMatrixElement := acc.1 otheri j
        let opos := recovery.getD otheri 0
        (muladdRowFrom acc.1 otheri i (j + 1) n otherMatrixElement,
         acc.2.set opos
           { (acc.2.getD opos default) with
             Block := gf256_muladd_mem ((acc.2.getD opos default).Block)
               otherMatrixElement ((acc.2.getD rpos default).Block) }))
      (mat1, blocks2) with hF_def
    have hgs : gaussStep recovery ers n st j =
        { matrix := F.1, pivots := PV, blocks := F.2 } := by
      unfold gaussStep
      rw [hps]
    rw [hgs]
    -- pivot permutation bookkeeping
    have hnp : n ≤ st.pivots.length := hinv.hplen
    have hPVlen : PV.length = st.pivots.length := by
      rw [hPV_def, List.length_set, List.length_set]
    have hjlen : j < st.pivots.length := by omega
    have hrlen : r < st.pivots.length := by omega
    set swapf : Nat → Nat := fun t => if t = j then r else if t = r then j else t
      with hswapf_def
    have hperm : ∀ t, t < n → PV.getD t 0 = st.pivots.getD (swapf t) 0 := by
      intro t ht
      by_cases htj : t = j
      · subst htj
        rw [hPV_def, set_getD_self _ _ _ _ (by rw [List.length_set]; omega)]
        show i = st.pivots.getD (if t = t then r else if t = r then t else t) 0
        rw [if_pos rfl]
      · rw [hPV_def, set_getD_ne _ _ _ _ _ (fun h => htj h.symm)]
        by_cases htr : t = r
        · subst htr
          rw [set_getD_self _ _ _ _ (by omega)]
          show st.pivots.getD j 0 = st.pivots.getD (if t = j then t else if t = t then j else t) 0
          rw [if_neg htj, if_pos rfl]
        · rw [set_getD_ne _ _ _ _ _ (fun h => htr h.symm)]
          show st.pivots.getD t 0 = st.pivots.getD (if t = j then r else if t = r then j else t) 0
          rw [if_neg htj, if_neg htr]
    have hswf_lt : ∀ t, t < n → swapf t < n := by
      intro t ht
      rw [hswapf_def]
      show (if t = j then r else if t = r then j else t) < n
      split_ifs <;> omega
    have hswf_inj : ∀ t1, t1 < n → ∀ t2, t2 < n → swapf t1 = swapf t2 → t1 = t2 := by
      intro t1 h1 t2 h2 h
      rw [hswapf_def] at h
      change (if t1 = j then r else if t1 = r then j else t1) =
        (if t2 = j then r else if t2 = r then j else t2) at h
      split_ifs at h <;> omega
    have hPV_lt : ∀ t, t < n → PV.getD t 0 < n := by
      intro t ht
      rw [hperm t ht]
      exact hinv.hpiv_lt _ (hswf_lt t ht)
    have hPV_inj : ∀ t1, t1 < n → ∀ t2, t2 < n → PV.getD t1 0 = PV.getD t2 0 → t1 = t2 := by
      intro t1 h1 t2 h2 h
      rw [hperm t1 h1, hperm t2 h2] at h
      exact hswf_inj t1 h1 t2 h2
        (hinv.hpiv_inj _ (hswf_lt t1 h1) _ (hswf_lt t2 h2) h)
    have hPV_j : PV.getD j 0 = i := by
      rw [hperm j hj]
      show st.pivots.getD (if j = j then r else if j = r then j else j) 0 = i
      rw [if_pos rfl]
    have hPV_proc : ∀ t, t < j → PV.getD t 0 = st.pivots.getD t 0 := by
      intro t ht
      rw [hperm t (by omega)]
      show st.pivots.getD (if t = j then r else if t = r then j else t) 0 = _
      rw [if_neg (by omega : t ≠ j), if_neg (by omega : t ≠ r)]
    -- the scaled pivot row and block
    have hmat1_other : ∀ rr, rr ≠ i → ∀ c, mat1 rr c = st.matrix rr c := by
      intro rr hrr c
      rw [hmat1_def]
      by_cases h1 : e ≠ 1
      · rw [if_pos h1, scaleRowFrom]
        simp only [if_neg (fun h : rr = i ∧ j + 1 ≤ c ∧ c < n => hrr h.1)]
      · rw [if_neg h1]
    have hinv_one : gf256_inv e = e⁻¹ := rfl
    have hmat1_i_tail : ∀ c, j + 1 ≤ c → c < n → mat1 i c = e⁻¹ * st.matrix i c := by
      intro c h1 h2
      rw [hmat1_def]
      by_cases h : e ≠ 1
      · rw [if_pos h, scaleRowFrom, if_pos ⟨rfl, h1, h2⟩, hinv_one]
      · rw [if_neg h]
        push_neg at h
        rw [h, inv_one, one_mul]
    have hmat1_i_j : mat1 i j = e := by
      rw [hmat1_def]
      by_cases h : e ≠ 1
      · rw [if_pos h, scaleRowFrom, if_neg (fun hc : i = i ∧ j + 1 ≤ j ∧ j < n => by omega)]
      · rw [if_neg h]
    -- blocks1p and blocks2 bookkeeping
    have hrposlt : rpos < st.blocks.length := by
      rw [hinv.hlen]
      exact hrec_lt i hi_lt
    have hb1p_other : ∀ p, p ≠ rpos → blocks1p.getD p default = st.blocks.getD p default := by
      intro p hp
      rw [hblocks1p_def, set_getD_ne _ _ _ _ _ (Ne.symm hp)]
    have hb1p_rpos : blocks1p.getD rpos default =
        { (st.blocks.getD rpos default) with Index := ers.getD j 0 } := by
      rw [hblocks1p_def, set_getD_self _ _ _ _ hrposlt]
    have hb1p_len : blocks1p.length = st.blocks.length := by
      rw [hblocks1p_def, List.length_set]
    have hb2_other : ∀ p, p ≠ rpos → blocks2.getD p default = st.blocks.getD p default := by
      intro p hp
      rw [hblocks2_def]
      by_cases h : e ≠ 1
      · rw [if_pos h, set_getD_ne _ _ _ _ _ (Ne.symm hp)]
        exact hb1p_other p hp
      · rw [if_neg h]
        exact hb1p_other p hp
    have hb2_len : blocks2.length = st.blocks.length := by
      rw [hblocks2_def]
      by_cases h : e ≠ 1
      · rw [if_pos h, List.length_set, hb1p_len]
      · rw [if_neg h, hb1p_len]
    have hb2_rpos : blocks2.getD rpos default =
        { (st.blocks.getD rpos default) with
          Index := ers.getD j 0
          Block := if e ≠ 1 then
            gf256_mul_mem ((st.blocks.getD rpos default).Block) (gf256_inv e)
          else (st.blocks.getD rpos default).Block } := by
      rw [hblocks2_def]
      by_cases h : e ≠ 1
      · rw [if_pos h, set_getD_self _ _ _ _ (by rw [hb1p_len]; exact hrposlt), hb1p_rpos,
          if_pos h]
      · rw [if_neg h, hb1p_rpos, if_neg h]
    have hb2_rpos_idx : (blocks2.getD rpos default).Index = ers.getD j 0 := by
      rw [hb2_rpos]
    have hoblen : ((st.blocks.getD rpos default).Block).length = bb := hinv.hblen i hi_lt
    have hb2_rpos_blk_len : ((blocks2.getD rpos default).Block).length = bb := by
      rw [hb2_rpos]
      show (if e ≠ 1 then _ else _ : List GF).length = bb
      by_cases h : e ≠ 1
      · rw [if_pos h]
        show (gf256_mul_mem _ _).length = bb
        rw [length_gf256_mul_mem, hoblen]
      · rw [if_neg h]
        exact hoblen
    have hb2_rpos_byte : ∀ pos, pos < bb → ((blocks2.getD rpos default).Block).getD pos 0 =
        e⁻¹ * rowByte recovery st.blocks i pos := by
      intro pos hpos
      rw [hb2_rpos]
      show (if e ≠ 1 then _ else _ : List GF).getD pos 0 = _
      rw [rowByte, ← hrpos_def]
      by_cases h : e ≠ 1
      · rw [if_pos h]
        show (gf256_mul_mem _ _).getD pos 0 = _
        rw [getD_gf256_mul_mem _ _ pos (by rw [hoblen]; exact hpos), hinv_one]
      · rw [if_neg h]
        push_neg at h
        rw [h, inv_one, one_mul]
    -- the elimination fold
    set ks := List.range' (j + 1) (n - (j + 1)) with hks_def
    have hks_mem : ∀ kk, kk ∈ ks ↔ (j + 1 ≤ kk ∧ kk < n) := by
      intro kk
      rw [hks_def, List.mem_range'_1]
      omega
    have hne_i : ∀ kk ∈ ks, PV.getD kk 0 ≠ i := by
      intro kk h heq
      have hm := (hks_mem kk).mp h
      have : kk = j := hPV_inj kk (by omega) j (by omega) (by rw [heq, hPV_j])
      omega
    have hrow_inj : ∀ kk1 ∈ ks, ∀ kk2 ∈ ks,
        PV.getD kk1 0 = PV.getD kk2 0 → kk1 = kk2 := by
      intro kk1 h1 kk2 h2 h
      have m1 := (hks_mem kk1).mp h1
      have m2 := (hks_mem kk2).mp h2
      exact hPV_inj kk1 (by omega) kk2 (by omega) h
    have hpos_ne : ∀ kk ∈ ks, recovery.getD (PV.getD kk 0) 0 ≠ rpos := by
      intro kk h heq
      have hm := (hks_mem kk).mp h
      exact hne_i kk h (hrec_inj _ (hPV_lt kk (by omega)) i hi_lt heq)
    have hpos_inj : ∀ kk1 ∈ ks, ∀ kk2 ∈ ks,
        recovery.getD (PV.getD kk1 0) 0 = recovery.getD (PV.getD kk2 0) 0 → kk1 = kk2 := by
      intro kk1 h1 kk2 h2 h
      have m1 := (hks_mem kk1).mp h1
      have m2 := (hks_mem kk2).mp h2
      exact hrow_inj kk1 h1 kk2 h2
        (hrec_inj _ (hPV_lt kk1 (by omega)) _ (hPV_lt kk2 (by omega)) h)
    have hpos_lt : ∀ kk ∈ ks, recovery.getD (PV.getD kk 0) 0 < blocks2.length := by
      intro kk h
      have hm := (hks_mem kk).mp h
      rw [hb2_len, hinv.hlen]
      exact hrec_lt _ (hPV_lt kk (by omega))
    obtain ⟨m1, m2, b1, b2, b3⟩ := elimFold_spec recovery PV i rpos j n ks mat1 blocks2
      (by rw [hks_def]; exact List.nodup_range' _ _)
      hne_i hrow_inj hpos_ne hpos_inj hpos_lt
    -- characterise the final matrix rows
    have hrow_proc : ∀ t, t < j → ∀ c, F.1 (PV.getD t 0) c =
        st.matrix (st.pivots.getD t 0) c := by
      intro t ht c
      rw [hPV_proc t ht]
      have hne : st.pivots.getD t 0 ≠ i := fun h =>
        absurd (hinv.hpiv_inj t (by omega) r hrn h) (by omega)
      have hnel : ∀ kk ∈ ks, PV.getD kk 0 ≠ st.pivots.getD t 0 := by
        intro kk hk heq
        have hm := (hks_mem kk).mp hk
        rw [hperm kk (by omega)] at heq
        have := hinv.hpiv_inj _ (hswf_lt kk (by omega)) t (by omega) heq
        have hs : swapf kk = (if kk = j then r else if kk = r then j else kk) := rfl
        rw [hs] at this
        split_ifs at this <;> omega
      rw [m1 _ hnel c, hmat1_other _ hne c]
    have hrow_pvt : ∀ c, j + 1 ≤ c → c < n → F.1 i c = e⁻¹ * st.matrix i c := by
      intro c h1 h2
      have hnel : ∀ kk ∈ ks, PV.getD kk 0 ≠ i := hne_i
      rw [m1 i hnel c, hmat1_i_tail c h1 h2]
    have hrow_elim : ∀ t, j + 1 ≤ t → t < n → ∀ c, j + 1 ≤ c → c < n →
        F.1 (PV.getD t 0) c = st.matrix (PV.getD t 0) c +
          st.matrix (PV.getD t 0) j * (e⁻¹ * st.matrix i c) := by
      intro t h1 h2 c hc1 hc2
      have hmem : t ∈ ks := (hks_mem t).mpr ⟨h1, h2⟩
      have hne : PV.getD t 0 ≠ i := hne_i t hmem
      rw [m2 t hmem c, if_pos ⟨hc1, hc2⟩, hmat1_other _ hne c, hmat1_other _ hne j,
        hmat1_i_tail c hc1 hc2]
    -- characterise the final blocks
    have hf_untouched : ∀ p, (∀ i2, i2 < n → recovery.getD i2 0 ≠ p) →
        F.2.getD p default = st.blocks.getD p default := by
      intro p hp
      rw [b2 p (fun kk hk => hp _ (hPV_lt kk (by
          have := (hks_mem kk).mp hk; omega))), hb2_other p (Ne.symm ?_)]
      exact (hp i hi_lt)
    have hf_rpos : F.2.getD rpos default = blocks2.getD rpos default :=
      b2 rpos hpos_ne
    have hf_proc_pos : ∀ t, t < j →
        F.2.getD (recovery.getD (st.pivots.getD t 0) 0) default =
        st.blocks.getD (recovery.getD (st.pivots.getD t 0) 0) default := by
      intro t ht
      have htn : t < n := by omega
      have hne : st.pivots.getD t 0 ≠ i := fun h =>
        absurd (hinv.hpiv_inj t htn r hrn h) (by omega)
      rw [b2 _ ?hne2, hb2_other _ ?hne3]
      case hne2 =>
        intro kk hk heq
        have hm := (hks_mem kk).mp hk
        have := hrec_inj _ (hPV_lt kk (by omega)) _ (hinv.hpiv_lt t htn) heq
        rw [hperm kk (by omega)] at this
        have h2 := hinv.hpiv_inj _ (hswf_lt kk (by omega)) t htn this
        have hs : swapf kk = (if kk = j then r else if kk = r then j else kk) := rfl
        rw [hs] at h2
        split_ifs at h2 <;> omega
      case hne3 =>
        intro heq
        exact hne (hrec_inj _ (hinv.hpiv_lt t htn) i hi_lt heq)
    have hf_elim_pos : ∀ t, t ∈ ks →
        F.2.getD (recovery.getD (PV.getD t 0) 0) default =
        { blocks2.getD (recovery.getD (PV.getD t 0) 0) default with
          Block := gf256_muladd_mem
            ((blocks2.getD (recovery.getD (PV.getD t 0) 0) default).Block)
            (mat1 (PV.getD t 0) j) ((blocks2.getD rpos default).Block) } := b3
    -- assemble the new invariant
    refine
      { hj := by omega
        hplen := by rw [hPVlen]; exact hinv.hplen
        hlen := by rw [b1, hb2_len]; exact hinv.hlen
        hpiv_lt := hPV_lt
        hpiv_inj := hPV_inj
        hframe := ?_
        hblen := ?_
        hidx := ?_
        hsys := ?_ }
    · intro p hp
      rw [hf_untouched p hp]
      exact hinv.hframe p hp
    · -- block lengths at the recovery positions
      intro i2 hi2
      by_cases hii : i2 = i
      · subst hii
        rw [← hrpos_def, hf_rpos]
        exact hb2_rpos_blk_len
      · by_cases hex : ∃ kk ∈ ks, PV.getD kk 0 = i2
        · obtain ⟨kk, hk, hkv⟩ := hex
          rw [← hkv, hf_elim_pos kk hk]
          show (gf256_muladd_mem _ _ _).length = bb
          rw [length_gf256_muladd_mem, hb2_rpos_blk_len,
            hb2_other _ (hpos_ne kk hk), hkv]
          rw [hinv.hblen i2 hi2, Nat.min_self]
        · have hnel : ∀ kk ∈ ks, recovery.getD (PV.getD kk 0) 0 ≠ recovery.getD i2 0 := by
            intro kk hk heq
            have hm := (hks_mem kk).mp hk
            exact hex ⟨kk, hk, hrec_inj _ (hPV_lt kk (by omega)) i2 hi2 heq⟩
          rw [b2 _ hnel, hb2_other _ (fun heq => hii (hrec_inj i2 hi2 i hi_lt heq))]
          exact hinv.hblen i2 hi2
    · -- output index assignment
      intro t ht
      by_cases htj : t < j
      · rw [hPV_proc t htj, hf_proc_pos t htj]
        exact hinv.hidx t htj
      · have : t = j := by omega
        subst this
        rw [hPV_j, ← hrpos_def, hf_rpos]
        exact hb2_rpos_idx
    · -- solution-set preservation
      intro pos hpos v
      rw [hinv.hsys pos hpos v]
      set Bi := rowByte recovery st.blocks i pos with hBi_def
      set Si := ∑ c in Finset.Ico (j + 1) n, (e⁻¹ * st.matrix i c) * v c with hSi_def
      have hB_proc : ∀ t, t < j → rowByte recovery F.2 (PV.getD t 0) pos =
          rowByte recovery st.blocks (st.pivots.getD t 0) pos := by
        intro t ht
        rw [hPV_proc t ht, rowByte, rowByte, hf_proc_pos t ht]
      have hB_pivot : rowByte recovery F.2 i pos = e⁻¹ * Bi := by
        rw [rowByte, ← hrpos_def, hf_rpos]
        exact hb2_rpos_byte pos hpos
      have hB_elim : ∀ t, t ∈ ks → rowByte recovery F.2 (PV.getD t 0) pos =
          rowByte recovery st.blocks (PV.getD t 0) pos +
          st.matrix (PV.getD t 0) j * (e⁻¹ * Bi) := by
        intro t ht
        have hm := (hks_mem t).mp ht
        rw [rowByte, hf_elim_pos t ht]
        show (gf256_muladd_mem _ _ _).getD pos 0 = _
        rw [getD_gf256_muladd_mem _ _ _ pos
          (by rw [hb2_other _ (hpos_ne t ht)]
              rw [hinv.hblen _ (hPV_lt t (by omega))]; exact hpos)
          (by rw [hb2_rpos_blk_len]; exact hpos)]
        rw [hb2_other _ (hpos_ne t ht), hb2_rpos_byte pos hpos,
          hmat1_other _ (hne_i t ht) j, rowByte]
        rfl
      have hEiff : (∑ c in Finset.Ico j n, st.matrix i c * v c = Bi) ↔
          (v j + Si = e⁻¹ * Bi) := by
        rw [sum_Ico_bot j n hj (fun c => st.matrix i c * v c), hSi_def, sum_factor]
        exact gf_scale_iff e (v j) _ Bi he
      have helim_iff : (v j + Si = e⁻¹ * Bi) → ∀ q,
          ((∑ c in Finset.Ico j n, st.matrix q c * v c =
            rowByte recovery st.blocks q pos) ↔
           (∑ c in Finset.Ico (j + 1) n,
              (st.matrix q c + st.matrix q j * (e⁻¹ * st.matrix i c)) * v c =
            rowByte recovery st.blocks q pos + st.matrix q j * (e⁻¹ * Bi))) := by
        intro hE2 q
        rw [sum_Ico_bot j n hj (fun c => st.matrix q c * v c), sum_add_split]
        have hfac : ∑ c in Finset.Ico (j + 1) n,
            (st.matrix q j * (e⁻¹ * st.matrix i c)) * v c = st.matrix q j * Si := by
          rw [hSi_def, Finset.mul_sum]
          exact Finset.sum_congr rfl (fun c _ => mul_assoc _ _ _)
        rw [hfac]
        exact gf_row_iff (st.matrix q j) _ _ Si (v j) (e⁻¹ * Bi) hE2
      constructor
      · -- forward: old current system implies new current system
        intro hcur
        have hE2 : v j + Si = e⁻¹ * Bi := hEiff.mp (hcur.1 r hjr hrn)
        constructor
        · intro t ht1 ht2
          have hmem : t ∈ ks := (hks_mem t).mpr ⟨ht1, ht2⟩
          have hsum : ∑ c in Finset.Ico (j + 1) n, F.1 (PV.getD t 0) c * v c =
              ∑ c in Finset.Ico (j + 1) n,
                (st.matrix (PV.getD t 0) c +
                  st.matrix (PV.getD t 0) j * (e⁻¹ * st.matrix i c)) * v c := by
            apply Finset.sum_congr rfl
            intro c hc
            have hc' := Finset.mem_Ico.mp hc
            rw [hrow_elim t ht1 ht2 c hc'.1 hc'.2]
          rw [hsum, hB_elim t hmem]
          have hqrow := hcur.1 (swapf t) (by
              have hs : swapf t = (if t = j then r else if t = r then j else t) := rfl
              rw [hs]; split_ifs <;> omega)
            (hswf_lt t ht2)
          rw [← hperm t ht2] at hqrow
          exact (helim_iff hE2 (PV.getD t 0)).mp hqrow
        · intro t ht
          by_cases htj : t < j
          · have hsum : ∑ c in Finset.Ico (t + 1) n, F.1 (PV.getD t 0) c * v c =
                ∑ c in Finset.Ico (t + 1) n, st.matrix (st.pivots.getD t 0) c * v c :=
              Finset.sum_congr rfl (fun c _ => by rw [hrow_proc t htj c])
            rw [hsum, hB_proc t htj]
            exact hcur.2 t htj
          · have : t = j := by omega
            subst this
            rw [hPV_j]
            have hsum : ∑ c in Finset.Ico (t + 1) n, F.1 i c * v c = Si := by
              rw [hSi_def]
              apply Finset.sum_congr rfl
              intro c hc
              have hc' := Finset.mem_Ico.mp hc
              rw [hrow_pvt c hc'.1 hc'.2]
            rw [hsum, hB_pivot]
            exact hE2
      · -- backward: new current system implies old current system
        intro hnew
        have hE2 : v j + Si = e⁻¹ * Bi := by
          have h0 := hnew.2 j (Nat.lt_succ_self j)
          rw [hPV_j] at h0
          have hsum : ∑ c in Finset.Ico (j + 1) n, F.1 i c * v c = Si := by
            rw [hSi_def]
            apply Finset.sum_congr rfl
            intro c hc
            have hc' := Finset.mem_Ico.mp hc
            rw [hrow_pvt c hc'.1 hc'.2]
          rw [hsum, hB_pivot] at h0
          exact h0
        constructor
        · intro t ht1 ht2
          by_cases htr : t = r
          · subst htr
            exact hEiff.mpr hE2
          · have hkey : ∃ t2, (j + 1 ≤ t2 ∧ t2 < n) ∧ PV.getD t2 0 = st.pivots.getD t 0 := by
              by_cases htj : t = j
              · subst htj
                refine ⟨r, ⟨by omega, hrn⟩, ?_⟩
                rw [hperm r hrn]
                have hs : swapf r = (if r = t then r else if r = r then t else r) := rfl
                rw [hs, if_neg (fun h => htr h.symm), if_pos rfl]
              · refine ⟨t, ⟨by omega, ht2⟩, ?_⟩
                rw [hperm t ht2]
                have hs : swapf t = (if t = j then r else if t = r then j else t) := rfl
                rw [hs, if_neg htj, if_neg htr]
            obtain ⟨t2, ⟨h1, h2⟩, hpvt2⟩ := hkey
            have hmem : t2 ∈ ks := (hks_mem t2).mpr ⟨h1, h2⟩
            have hrel := hnew.1 t2 h1 h2
            have hsum : ∑ c in Finset.Ico (j + 1) n, F.1 (PV.getD t2 0) c * v c =
                ∑ c in Finset.Ico (j + 1) n,
                  (st.matrix (PV.getD t2 0) c +
                    st.matrix (PV.getD t2 0) j * (e⁻¹ * st.matrix i c)) * v c := by
              apply Finset.sum_congr rfl
              intro c hc
              have hc' := Finset.mem_Ico.mp hc
              rw [hrow_elim t2 h1 h2 c hc'.1 hc'.2]
            rw [hsum, hB_elim t2 hmem] at hrel
            have := (helim_iff hE2 (PV.getD t2 0)).mpr hrel
            rw [hpvt2] at this
            exact this
        · intro t htj
          have h0 := hnew.2 t (by omega)
          have hsum : ∑ c in Finset.Ico (t + 1) n, F.1 (PV.getD t 0) c * v c =
              ∑ c in Finset.Ico (t + 1) n, st.matrix (st.pivots.getD t 0) c * v c :=
            Finset.sum_congr rfl (fun c _ => by rw [hrow_proc t htj c])
          rw [hsum, hB_proc t htj] at h0
          exact h0

theorem getD_range (k t : Nat) (h : t < k) : (List.range k).getD t 0 = t := by
  rw [List.getD_eq_getElem _ _ (by simpa using h), List.getElem_range]

theorem list_range'_map_sum (len : Nat) : ∀ (a : Nat) (f : Nat → GF),
    ((List.range' a len).map f).sum = ∑ c in Finset.Ico a (a + len), f c := by
  induction len with
  | zero =>
    intro a f
    simp
  | succ len ih =>
    intro a f
    rw [List.range'_succ, List.map_cons, List.sum_cons, ih (a + 1) f,
      Finset.sum_eq_sum_Ico_succ_bot (by omega : a < a + (len + 1)) f]
    have h : a + 1 + len = a + (len + 1) := by omega
    rw [h]

/-- The invariant holds before the first elimination column. -/
theorem gauss_init (recovery ers : List Nat) (n k bb : Nat) (A : Nat → Nat → GF)
    (blocks1 : List cm256_block) (hnk : n ≤ k)
    (hblen : ∀ i, i < n → ((blocks1.getD (recovery.getD i 0) default).Block).length = bb) :
    GaussInv recovery ers n bb A (fun i pos => rowByte recovery blocks1 i pos) blocks1 0
      { matrix := A, pivots := List.range k, blocks := blocks1 } := by
  refine
    { hj := Nat.zero_le n
      hplen := by rw [List.length_range]; exact hnk
      hlen := rfl
      hpiv_lt := ?_
      hpiv_inj := ?_
      hframe := fun p _ => rfl
      hblen := hblen
      hidx := fun t ht => absurd ht (Nat.not_lt_zero t)
      hsys := ?_ }
  · intro t ht
    show (List.range k).getD t 0 < n
    rw [getD_range k t (by omega)]
    exact ht
  · intro t1 h1 t2 h2 h
    show t1 = t2
    rw [show ((List.range k).getD t1 0 : Nat) = t1 from getD_range k t1 (by omega),
      show ((List.range k).getD t2 0 : Nat) = t2 from getD_range k t2 (by omega)] at h
    exact h
  · intro pos hpos v
    constructor
    · intro hv
      refine ⟨?_, fun t ht => absurd ht (Nat.not_lt_zero t)⟩
      intro t _ ht2
      show ∑ c in Finset.Ico 0 n, A ((List.range k).getD t 0) c * v c =
        rowByte recovery blocks1 ((List.range k).getD t 0) pos
      rw [getD_range k t (by omega), ← Finset.range_eq_Ico]
      exact hv t ht2
    · intro hv t ht
      have h2 := hv.1 t (Nat.zero_le t) ht
      rw [show ((List.range k).getD t 0 : Nat) = t from getD_range k t (by omega),
        ← Finset.range_eq_Ico] at h2
      exact h2

/-- The invariant after the whole forward pass (cm256.cpp:356-410). -/
theorem gauss_fold (recovery ers : List Nat) (n bb : Nat) (A R : Nat → Nat → GF)
    (blocks1 : List cm256_block) (st0 : ElimState)
    (hrec_lt : ∀ t, t < n → recovery.getD t 0 < blocks1.length)
    (hrec_inj : ∀ t1, t1 < n → ∀ t2, t2 < n →
      recovery.getD t1 0 = recovery.getD t2 0 → t1 = t2)
    (hbb : 0 < bb)
    (hsolv : ∃ v : Nat → GF, origSys A R n 0 v)
    (hAinj : ∀ v : Nat → GF,
      (∀ i2, i2 < n → ∑ c in Finset.range n, A i2 c * v c = 0) → ∀ t, t < n → v t = 0)
    (h0 : GaussInv recovery ers n bb A R blocks1 0 st0) :
    GaussInv recovery ers n bb A R blocks1 n
      ((List.range n).foldl (gaussStep recovery ers n) st0) := by
  suffices h : ∀ m, m ≤ n → GaussInv recovery ers n bb A R blocks1 m
      ((List.range m).foldl (gaussStep recovery ers n) st0) from h n le_rfl
  intro m
  induction m with
  | zero =>
    intro _
    exact h0
  | succ m ih =>
    intro hm
    rw [List.range_succ, List.foldl_append, List.foldl_cons, List.foldl_nil]
    exact gaussStep_inv recovery ers n bb A R blocks1 m _ hrec_lt hrec_inj hbb hsolv hAinj
      (by omega) (ih (by omega))

/-- The body of the outer back-substitution loop (cm256.cpp:414-432),
named so the fold can be reasoned about one iteration at a time. -/
def backSubStep (recovery : List Nat) (mat : Nat → Nat → GF) (pivots : List Nat)
    (n : Nat) (bl2 : List cm256_block) (j : Nat) : List cm256_block :=
  let jIndex := pivots.getD j 0
  let bpos := recovery.getD jIndex 0
  (List.range' (j + 1) (n - 1 - j)).reverse.foldl
    (fun bl3 k =>
      let kIndex := pivots.getD k 0
      let matrixElement := mat jIndex k
      bl3.set bpos
        { (bl3.getD bpos default) with
          Block := gf256_muladd_mem ((bl3.getD bpos default).Block)
            matrixElement ((bl3.getD (recovery.getD kIndex 0) default).Block) })
    bl2

theorem backSubstitute_eq (recovery : List Nat) (mat : Nat → Nat → GF)
    (pivots : List Nat) (n : Nat) (blocks : List cm256_block) :
    backSubstitute recovery mat pivots n blocks =
      (List.range (n - 1)).reverse.foldl (backSubStep recovery mat pivots n) blocks := rfl

/-- Closed form of the inner back-substitution fold (cm256.cpp:422-429):
accumulate `matrixElement * finalBlock[k]` into the block at `bpos`. -/
theorem backSub_inner (recovery : List Nat) (mat : Nat → Nat → GF) (pivots : List Nat)
    (bpos jIdx bb : Nat) :
    ∀ (ks : List Nat) (bl : List cm256_block),
      (∀ k2 ∈ ks, recovery.getD (pivots.getD k2 0) 0 ≠ bpos) →
      bpos < bl.length →
      ((bl.getD bpos default).Block).length = bb →
      (∀ k2 ∈ ks, ((bl.getD (recovery.getD (pivots.getD k2 0) 0) default).Block).length = bb) →
      (let res := ks.foldl
        (fun bl3 k =>
          let kIndex := pivots.getD k 0
          let matrixElement := mat jIdx k
          bl3.set bpos
            { (bl3.getD bpos default) with
              Block := gf256_muladd_mem ((bl3.getD bpos default).Block)
                matrixElement ((bl3.getD (recovery.getD kIndex 0) default).Block) })
        bl
      res.length = bl.length ∧
      (∀ p, p ≠ bpos → res.getD p default = bl.getD p default) ∧
      (res.getD bpos default).Index = (bl.getD bpos default).Index ∧
      ((res.getD bpos default).Block).length = bb ∧
      (∀ pos, pos < bb → ((res.getD bpos default).Block).getD pos 0 =
        ((bl.getD bpos default).Block).getD pos 0 +
        (ks.map (fun k => mat jIdx k *
          ((bl.getD (recovery.getD (pivots.getD k 0) 0) default).Block).getD pos 0)).sum)) := by
  intro ks
  induction ks with
  | nil =>
    intro bl _ _ hblen _
    exact ⟨rfl, fun p _ => rfl, rfl, hblen, fun pos _ => by
      simp only [List.foldl_nil, List.map_nil, List.sum_nil, add_zero]⟩
  | cons k0 ks ih =>
    intro bl hne hlt hblen hslen
    simp only [List.foldl_cons]
    set src0 := recovery.getD (pivots.getD k0 0) 0 with hsrc0
    have hne0 : src0 ≠ bpos := hne k0 (List.mem_cons_self _ _)
    set bl1 := bl.set bpos
      { (bl.getD bpos default) with
        Block := gf256_muladd_mem ((bl.getD bpos default).Block)
          (mat jIdx k0) ((bl.getD src0 default).Block) } with hbl1
    have hbl1_other : ∀ p, p ≠ bpos → bl1.getD p default = bl.getD p default := by
      intro p hp
      rw [hbl1, set_getD_ne _ _ _ _ _ (Ne.symm hp)]
    have hbl1_bpos : bl1.getD bpos default =
        { (bl.getD bpos default) with
          Block := gf256_muladd_mem ((bl.getD bpos default).Block)
            (mat jIdx k0) ((bl.getD src0 default).Block) } := by
      rw [hbl1, set_getD_self _ _ _ _ hlt]
    have hlen1 : bl1.length = bl.length := by rw [hbl1, List.length_set]
    have hblen1 : ((bl1.getD bpos default).Block).length = bb := by
      rw [hbl1_bpos]
      show (gf256_muladd_mem _ _ _).length = bb
      rw [length_gf256_muladd_mem, hblen, hslen k0 (List.mem_cons_self _ _), Nat.min_self]
    obtain ⟨a1, a2, a3, a4, a5⟩ := ih bl1
      (fun k2 h => hne k2 (List.mem_cons_of_mem _ h))
      (by omega)
      hblen1
      (fun k2 h => by
        rw [hbl1_other _ (hne k2 (List.mem_cons_of_mem _ h))]
        exact hslen k2 (List.mem_cons_of_mem _ h))
    refine ⟨by rw [a1, hlen1], ?_, ?_, a4, ?_⟩
    · intro p hp
      rw [a2 p hp, hbl1_other p hp]
    · rw [a3, hbl1_bpos]
    · intro pos hpos
      rw [a5 pos hpos]
      have hb1 : ((bl1.getD bpos default).Block).getD pos 0 =
          ((bl.getD bpos default).Block).getD pos 0 +
          mat jIdx k0 * ((bl.getD src0 default).Block).getD pos 0 := by
        rw [hbl1_bpos]
        exact getD_gf256_muladd_mem _ _ _ _ (by rw [hblen]; exact hpos)
          (by rw [hslen k0 (List.mem_cons_self _ _)]; exact hpos)
      have hmap : (ks.map (fun k => mat jIdx k *
            ((bl1.getD (recovery.getD (pivots.getD k 0) 0) default).Block).getD pos 0)).sum =
          (ks.map (fun k => mat jIdx k *
            ((bl.getD (recovery.getD (pivots.getD k 0) 0) default).Block).getD pos 0)).sum := by
        apply congrArg List.sum
        apply List.map_congr_left
        intro k2 h
        rw [hbl1_other _ (hne k2 (List.mem_cons_of_mem _ h))]
      rw [hmap, hb1, List.map_cons, List.sum_cons, add_assoc]

/-- Back-substitution (cm256.cpp:414-432) turns the unit upper-triangular
relations into the solution values: after it, the block of pivot `t`
holds exactly `z t` at every byte position. -/
theorem backSub_spec (recovery : List Nat) (mat : Nat → Nat → GF) (pivots : List Nat)
    (n bb : Nat) (z : Nat → Nat → GF) (stb : List cm256_block)
    (hpiv_lt : ∀ t, t < n → pivots.getD t 0 < n)
    (hpiv_inj : ∀ t1, t1 < n → ∀ t2, t2 < n →
      pivots.getD t1 0 = pivots.getD t2 0 → t1 = t2)
    (hrec_inj : ∀ t1, t1 < n → ∀ t2, t2 < n →
      recovery.getD t1 0 = recovery.getD t2 0 → t1 = t2)
    (hrec_lt : ∀ t, t < n → recovery.getD t 0 < stb.length)
    (hblen : ∀ t, t < n → ((stb.getD (recovery.getD t 0) default).Block).length = bb)
    (hrel : ∀ t, t < n → ∀ pos, pos < bb →
      z t pos + ∑ c in Finset.Ico (t + 1) n, mat (pivots.getD t 0) c * z c pos =
        rowByte recovery stb (pivots.getD t 0) pos) :
    (let res := backSubstitute recovery mat pivots n stb
     res.length = stb.length ∧
     (∀ p, (∀ i2, i2 < n → recovery.getD i2 0 ≠ p) →
       res.getD p default = stb.getD p default) ∧
     (∀ p, (res.getD p default).Index = (stb.getD p default).Index) ∧
     (∀ t, t < n → ((res.getD (recovery.getD t 0) default).Block).length = bb) ∧
     (∀ t, t < n → ∀ pos, pos < bb →
       ((res.getD (recovery.getD (pivots.getD t 0) 0) default).Block).getD pos 0 =
         z t pos)) := by
  have key : ∀ J, J ≤ n - 1 → ∀ bl,
      bl.length = stb.length →
      (∀ p, (∀ i2, i2 < n → recovery.getD i2 0 ≠ p) →
        bl.getD p default = stb.getD p default) →
      (∀ p, (bl.getD p default).Index = (stb.getD p default).Index) →
      (∀ t, t < n → ((bl.getD (recovery.getD t 0) default).Block).length = bb) →
      (∀ t, J ≤ t → t < n → ∀ pos, pos < bb →
        ((bl.getD (recovery.getD (pivots.getD t 0) 0) default).Block).getD pos 0 =
          z t pos) →
      (∀ t, t < J → bl.getD (recovery.getD (pivots.getD t 0) 0) default =
        stb.getD (recovery.getD (pivots.getD t 0) 0) default) →
      (let res := (List.range J).reverse.foldl (backSubStep recovery mat pivots n) bl
      res.length = stb.length ∧
      (∀ p, (∀ i2, i2 < n → recovery.getD i2 0 ≠ p) →
        res.getD p default = stb.getD p default) ∧
      (∀ p, (res.getD p default).Index = (stb.getD p default).Index) ∧
      (∀ t, t < n → ((res.getD (recovery.getD t 0) default).Block).length = bb) ∧
      (∀ t, t < n → ∀ pos, pos < bb →
        ((res.getD (recovery.getD (pivots.getD t 0) 0) default).Block).getD pos 0 =
          z t pos)) := by
    intro J
    induction J with
    | zero =>
      intro _ bl c1 c2 c3 c4 c5 _
      exact ⟨c1, c2, c3, c4, fun t ht pos hpos => c5 t (Nat.zero_le t) ht pos hpos⟩
    | succ J ih =>
      intro hJ bl c1 c2 c3 c4 c5 c6
      have hJn : J < n := by omega
      rw [List.range_succ, List.reverse_append, List.reverse_singleton]
      simp only [List.singleton_append, List.foldl_cons]
      set jIdx := pivots.getD J 0 with hjIdx
      have hjIdx_lt : jIdx < n := hpiv_lt J hJn
      set bpos := recovery.getD jIdx 0 with hbpos
      have hbpos_lt : bpos < bl.length := by
        rw [c1]
        exact hrec_lt jIdx hjIdx_lt
      set ks := (List.range' (J + 1) (n - 1 - J)).reverse with hks
      have hks_mem : ∀ k2, k2 ∈ ks ↔ (J + 1 ≤ k2 ∧ k2 < n) := by
        intro k2
        rw [hks, List.mem_reverse, List.mem_range'_1]
        omega
      have hpos_ne : ∀ k2 ∈ ks, recovery.getD (pivots.getD k2 0) 0 ≠ bpos := by
        intro k2 h heq
        have hm := (hks_mem k2).mp h
        have h1 := hrec_inj _ (hpiv_lt k2 (by omega)) jIdx hjIdx_lt heq
        have h2 := hpiv_inj k2 (by omega) J hJn h1
        omega
      obtain ⟨a1, a2, a3, a4, a5⟩ := backSub_inner recovery mat pivots bpos jIdx bb ks bl
        hpos_ne hbpos_lt
        (by rw [hbpos]; exact c4 jIdx hjIdx_lt)
        (fun k2 h => c4 _ (hpiv_lt k2 (by
          have hm := (hks_mem k2).mp h
          omega)))
      set bl1 := ks.foldl
        (fun bl3 k =>
          let kIndex := pivots.getD k 0
          let matrixElement := mat jIdx k
          bl3.set bpos
            { (bl3.getD bpos default) with
              Block := gf256_muladd_mem ((bl3.getD bpos default).Block)
                matrixElement ((bl3.getD (recovery.getD kIndex 0) default).Block) })
        bl with hbl1
      have hstep : backSubStep recovery mat pivots n bl J = bl1 := rfl
      rw [hstep]
      -- the byte at the pivot-J block becomes z J
      have hbposJ : ∀ pos, pos < bb → ((bl1.getD bpos default).Block).getD pos 0 = z J pos := by
        intro pos hpos
        rw [a5 pos hpos]
        have hsum : (ks.map (fun k => mat jIdx k *
            ((bl.getD (recovery.getD (pivots.getD k 0) 0) default).Block).getD pos 0)).sum =
            ∑ c in Finset.Ico (J + 1) n, mat jIdx c * z c pos := by
          rw [hks, List.map_reverse, List.sum_reverse,
            list_range'_map_sum (n - 1 - J) (J + 1)]
          have he : J + 1 + (n - 1 - J) = n := by omega
          rw [he]
          apply Finset.sum_congr rfl
          intro c hc
          have hc' := Finset.mem_Ico.mp hc
          rw [c5 c (by omega) (by omega) pos hpos]
        have hc6 : bl.getD bpos default = stb.getD bpos default :=
          c6 J (Nat.lt_succ_self J)
        rw [hsum, hc6,
          show ((stb.getD bpos default).Block).getD pos 0 =
            z J pos + ∑ c in Finset.Ico (J + 1) n, mat jIdx c * z c pos from
            (hrel J hJn pos hpos).symm]
        exact GF.add_add_cancel _ _
      -- apply the induction hypothesis to the new state
      refine ih (by omega) bl1 (by rw [a1, c1]) ?_ ?_ ?_ ?_ ?_
      · intro p hp
        have hpb : p ≠ bpos := fun h => hp jIdx hjIdx_lt (hbpos.symm.trans h.symm)
        rw [a2 p hpb]
        exact c2 p hp
      · intro p
        by_cases hp : p = bpos
        · subst hp
          rw [a3]
          exact c3 bpos
        · rw [a2 p hp]
          exact c3 p
      · intro t ht
        by_cases hp : recovery.getD t 0 = bpos
        · rw [hp]
          exact a4
        · rw [a2 _ hp]
          exact c4 t ht
      · intro t ht1 ht2 pos hpos
        by_cases htJ : t = J
        · subst htJ
          rw [← hjIdx, ← hbpos]
          exact hbposJ pos hpos
        · have hp : recovery.getD (pivots.getD t 0) 0 ≠ bpos := by
            intro heq
            have h1 := hrec_inj _ (hpiv_lt t ht2) jIdx hjIdx_lt heq
            exact htJ (hpiv_inj t ht2 J hJn h1)
          rw [a2 _ hp]
          exact c5 t (by omega) ht2 pos hpos
      · intro t ht
        have hp : recovery.getD (pivots.getD t 0) 0 ≠ bpos := by
          intro heq
          have h1 := hrec_inj _ (hpiv_lt t (by omega)) jIdx hjIdx_lt heq
          have := hpiv_inj t (by omega) J hJn h1
          omega
        rw [a2 _ hp]
        exact c6 t (by omega)
  -- instantiate at the full range
  have hbase : ∀ t, n - 1 ≤ t → t < n → ∀ pos, pos < bb →
      ((stb.getD (recovery.getD (pivots.getD t 0) 0) default).Block).getD pos 0 =
        z t pos := by
    intro t h1 h2 pos hpos
    have hr := hrel t h2 pos hpos
    rw [Finset.Ico_eq_empty (by omega), Finset.sum_empty, add_zero] at hr
    exact hr.symm
  obtain ⟨a1, a2, a3, a4, a5⟩ := key (n - 1) le_rfl stb rfl (fun p _ => rfl) (fun p => rfl)
    hblen hbase (fun t ht => rfl)
  rw [backSubstitute_eq]
  exact ⟨a1, a2, a3, a4, a5⟩

/-! ### Small facts about positions, labels and list access -/

theorem byteOfNat_inj {a b : Nat} (ha : a < 256) (hb : b < 256)
    (h : byteOfNat a = byteOfNat b) : a = b := by
  have := congrArg GF.val h
  rwa [byteOfNat_val a ha, byteOfNat_val b hb] at this

theorem getD_mem {l : List Nat} {i : Nat} (h : i < l.length) : l.getD i 0 ∈ l := by
  rw [List.getD_eq_getElem l 0 h]
  exact List.getElem_mem h

theorem mem_iff_getD {l : List Nat} {p : Nat} :
    p ∈ l ↔ ∃ i, i < l.length ∧ l.getD i 0 = p := by
  constructor
  · intro h
    obtain ⟨i, hi, he⟩ := List.mem_iff_getElem.mp h
    exact ⟨i, hi, by rw [List.getD_eq_getElem l 0 hi]; exact he⟩
  · rintro ⟨i, hi, rfl⟩
    exact getD_mem hi

theorem nodup_getD_inj {l : List Nat} (hnd : l.Nodup) {i1 i2 : Nat}
    (h1 : i1 < l.length) (h2 : i2 < l.length) (h : l.getD i1 0 = l.getD i2 0) : i1 = i2 := by
  rw [List.getD_eq_getElem l 0 h1, List.getD_eq_getElem l 0 h2] at h
  exact (List.Nodup.getElem_inj_iff hnd).mp h

theorem getD_take_lt {l : List Nat} {n i : Nat} (h : i < n) :
    (l.take n).getD i 0 = l.getD i 0 := by
  by_cases hl : i < l.length
  · rw [List.getD_eq_getElem l 0 hl,
      List.getD_eq_getElem (l.take n) 0 (by rw [List.length_take]; omega),
      List.getElem_take]
  · rw [List.getD_eq_default l 0 (by omega),
      List.getD_eq_default (l.take n) 0 (by rw [List.length_take]; omega)]

theorem recoveryPositions_mem (k : Nat) (blocks : List cm256_block) (p : Nat)
    (h : p ∈ recoveryPositions k blocks) :
    p < k ∧ k ≤ (blocks.getD p default).Index := by
  obtain ⟨h1, h2⟩ := List.mem_filter.mp h
  refine ⟨List.mem_range.mp h1, ?_⟩
  rcases Nat.lt_or_ge ((blocks.getD p default).Index) k with h3 | h3
  · rw [decide_eq_true h3] at h2
    exact absurd h2 (by decide)
  · exact h3

theorem originalPositions_mem (k : Nat) (blocks : List cm256_block) (p : Nat)
    (h : p ∈ originalPositions k blocks) :
    p < k ∧ (blocks.getD p default).Index < k := by
  obtain ⟨h1, h2⟩ := List.mem_filter.mp h
  exact ⟨List.mem_range.mp h1, of_decide_eq_true h2⟩

theorem originalPositions_disj (k : Nat) (blocks : List cm256_block) (p : Nat)
    (h : p ∈ originalPositions k blocks) : p ∉ recoveryPositions k blocks := by
  intro h2
  have ha := (originalPositions_mem k blocks p h).2
  have hb := (recoveryPositions_mem k blocks p h2).2
  omega

theorem recoveryPositions_nodup (k : Nat) (blocks : List cm256_block) :
    (recoveryPositions k blocks).Nodup :=
  (List.nodup_range k).filter _

/-! ### Full characterisation of `Decoder::Decode` (cm256.cpp:303)

Under a valid decoder input with at least one recovery block, given any
per-position solution `z` of the linear system relating the erased
originals to the Step-A-reduced recovery bytes, `Decoder::Decode` leaves
non-recovery blocks untouched and rewrites the recovery blocks (permuted
by the final pivot order `σ`) with the erased indices and the solution
bytes. -/

theorem Decode_spec (params : cm256_encoder_params) (blocks : List cm256_block)
    (k bb : Nat) (ers : List Nat) (z : Nat → Nat → GF)
    (hkN : params.OriginalCount.toNat = k)
    (hd : Decoder.Initialize params blocks =
      { Params := params
        Original := originalPositions k blocks
        Recovery := recoveryPositions k blocks
        ErasuresIndices := ers })
    (hn1 : 1 ≤ (recoveryPositions k blocks).length)
    (hblocks_len : blocks.length = k)
    (hbuf : ∀ p, p < k → ((blocks.getD p default).Block).length = bb)
    (hbb1 : 1 ≤ bb)
    (hk255 : k < 256)
    (hers : ∀ t, t < (recoveryPositions k blocks).length →
      ers.getD t 0 = (missingRows k blocks).getD t 0)
    (hmiss_lt : ∀ t, t < (recoveryPositions k blocks).length →
      (missingRows k blocks).getD t 0 < k)
    (hmiss_inj : ∀ t1, t1 < (recoveryPositions k blocks).length →
      ∀ t2, t2 < (recoveryPositions k blocks).length → t1 ≠ t2 →
      (missingRows k blocks).getD t1 0 ≠ (missingRows k blocks).getD t2 0)
    (hlab_lt : ∀ i, i < (recoveryPositions k blocks).length →
      (blocks.getD ((recoveryPositions k blocks).getD i 0) default).Index < 256)
    (hlab_inj : ∀ i1, i1 < (recoveryPositions k blocks).length →
      ∀ i2, i2 < (recoveryPositions k blocks).length → i1 ≠ i2 →
      (blocks.getD ((recoveryPositions k blocks).getD i1 0) default).Index ≠
      (blocks.getD ((recoveryPositions k blocks).getD i2 0) default).Index)
    (hsolv : ∀ pos, pos < bb → ∀ i, i < (recoveryPositions k blocks).length →
      ∑ t in Finset.range (recoveryPositions k blocks).length,
        GetMatrixElement
          (byteOfNat ((blocks.getD ((recoveryPositions k blocks).getD i 0) default).Index))
          (byteOfNat k) (byteOfNat ((missingRows k blocks).getD t 0)) * z t pos =
      ((blocks.getD ((recoveryPositions k blocks).getD i 0) default).Block).getD pos 0 +
      ((originalPositions k blocks).map (fun p =>
        GetMatrixElement
          (byteOfNat ((blocks.getD ((recoveryPositions k blocks).getD i 0) default).Index))
          (byteOfNat k) (byteOfNat ((blocks.getD p default).Index)) *
        ((blocks.getD p default).Block).getD pos 0)).sum) :
    (let res := Decoder.Decode (Decoder.Initialize params blocks) blocks
     res.length = k ∧
     (∀ p, (∀ i, i < (recoveryPositions k blocks).length →
         (recoveryPositions k blocks).getD i 0 ≠ p) →
       res.getD p default = blocks.getD p default) ∧
     (∃ σ : Nat → Nat,
       (∀ t, t < (recoveryPositions k blocks).length →
         σ t < (recoveryPositions k blocks).length) ∧
       (∀ t1, t1 < (recoveryPositions k blocks).length →
         ∀ t2, t2 < (recoveryPositions k blocks).length → σ t1 = σ t2 → t1 = t2) ∧
       (∀ t, t < (recoveryPositions k blocks).length →
         (res.getD ((recoveryPositions k blocks).getD (σ t) 0) default).Index =
           (missingRows k blocks).getD t 0 ∧
         ((res.getD ((recoveryPositions k blocks).getD (σ t) 0) default).Block).length = bb ∧
         (∀ pos, pos < bb →
           ((res.getD ((recoveryPositions k blocks).getD (σ t) 0) default).Block).getD pos 0 =
             z t pos)))) := by
  classical
  set reco := recoveryPositions k blocks with hreco
  set origs := originalPositions k blocks with horigs
  set nn := reco.length with hnn
  set x0 := byteOfNat params.OriginalCount.toNat with hx0def
  have hx0k : x0 = byteOfNat k := by rw [hx0def, hkN]
  -- position facts
  have hreco_nodup : reco.Nodup := recoveryPositions_nodup k blocks
  have hreco_lt : ∀ i, i < nn → reco.getD i 0 < k := by
    intro i hi
    exact (recoveryPositions_mem k blocks _ (getD_mem hi)).1
  have hreco_lab : ∀ i, i < nn → k ≤ (blocks.getD (reco.getD i 0) default).Index := by
    intro i hi
    exact (recoveryPositions_mem k blocks _ (getD_mem hi)).2
  have hreco_inj : ∀ i1, i1 < nn → ∀ i2, i2 < nn →
      reco.getD i1 0 = reco.getD i2 0 → i1 = i2 := by
    intro i1 h1 i2 h2 h
    exact nodup_getD_inj hreco_nodup h1 h2 h
  have hnk : nn ≤ k := by
    have := originalPositions_add_recoveryPositions k blocks
    rw [← horigs, ← hreco] at this
    omega
  -- Step A
  obtain ⟨sa1, sa2, sa3⟩ := stepA_outer_spec x0 reco bb hreco_nodup origs blocks
    (fun ρ h => by rw [hblocks_len]; exact (recoveryPositions_mem k blocks ρ h).1)
    (fun o h => by rw [hblocks_len]; exact (originalPositions_mem k blocks o h).1)
    (fun o h => originalPositions_disj k blocks o h)
    (fun o h => hbuf o (originalPositions_mem k blocks o h).1)
    (fun ρ h => hbuf ρ (recoveryPositions_mem k blocks ρ h).1)
  set blocks1 := origs.foldl
    (fun bl opos =>
      let inBlock := (bl.getD opos default).Block
      let inRow := (bl.getD opos default).Index
      reco.foldl
        (fun bl2 rpos =>
          let b := bl2.getD rpos default
          let matrixElement := GetMatrixElement (byteOfNat b.Index) x0 (byteOfNat inRow)
          bl2.set rpos { b with Block := gf256_muladd_mem b.Block matrixElement inBlock })
        bl)
    blocks with hblocks1
  have hb1len : blocks1.length = k := by rw [sa1, hblocks_len]
  have hlab1 : ∀ i, i < nn → (blocks1.getD (reco.getD i 0) default).Index =
      (blocks.getD (reco.getD i 0) default).Index := by
    intro i hi
    exact ((sa3 _ (getD_mem hi)).1).1
  have hblen1 : ∀ i, i < nn → ((blocks1.getD (reco.getD i 0) default).Block).length = bb := by
    intro i hi
    exact ((sa3 _ (getD_mem hi)).1).2
  -- the filled matrix and right-hand side
  set A := fun i j => GetMatrixElement
    (byteOfNat ((blocks1.getD (reco.getD i 0) default).Index)) x0
    (byteOfNat (ers.getD j 0)) with hA
  set R := fun i pos => rowByte reco blocks1 i pos with hR
  have hAval : ∀ i, i < nn → ∀ c, c < nn → A i c = GetMatrixElement
      (byteOfNat ((blocks.getD (reco.getD i 0) default).Index))
      (byteOfNat k) (byteOfNat ((missingRows k blocks).getD c 0)) := by
    intro i hi c hc
    rw [hA]
    show GetMatrixElement _ x0 _ = _
    rw [hlab1 i hi, hers c hc, hx0k]
  -- initial invariant
  have h0 := gauss_init reco ers nn params.OriginalCount.toNat bb A blocks1
    (by rw [hkN]; exact hnk) hblen1
  -- Cauchy nullity of A
  have hAinj : ∀ v : Nat → GF,
      (∀ i2, i2 < nn → ∑ c in Finset.range nn, A i2 c * v c = 0) →
      ∀ t, t < nn → v t = 0 := by
    intro v hv
    apply cauchy_vanish nn
      (fun i => byteOfNat ((blocks1.getD (reco.getD i 0) default).Index))
      (fun c => byteOfNat (ers.getD c 0)) x0
      ?hXY ?hXd ?hYd ?hY0 v hv
    case hXY =>
      intro i hi j hj
      show byteOfNat ((blocks1.getD (reco.getD i 0) default).Index) +
        byteOfNat (ers.getD j 0) ≠ 0
      rw [hlab1 i hi, hers j hj]
      have h1 := hlab_lt i hi
      have h2 := hmiss_lt j hj
      have h3 := hreco_lab i hi
      exact byteOfNat_add_ne_zero _ _ h1 (by omega) (by omega)
    case hXd =>
      intro i1 h1 i2 h2 h
      have h' : byteOfNat ((blocks1.getD (reco.getD i1 0) default).Index) =
        byteOfNat ((blocks1.getD (reco.getD i2 0) default).Index) := h
      rw [hlab1 i1 h1, hlab1 i2 h2] at h'
      by_contra hne
      exact hlab_inj i1 h1 i2 h2 hne (byteOfNat_inj (hlab_lt i1 h1) (hlab_lt i2 h2) h')
    case hYd =>
      intro j1 h1 j2 h2 h
      have h' : byteOfNat (ers.getD j1 0) = byteOfNat (ers.getD j2 0) := h
      rw [hers j1 h1, hers j2 h2] at h'
      by_contra hne
      have ha := hmiss_lt j1 h1
      have hb := hmiss_lt j2 h2
      exact hmiss_inj j1 h1 j2 h2 hne (byteOfNat_inj (by omega) (by omega) h')
    case hY0 =>
      intro j hj
      show byteOfNat (ers.getD j 0) + x0 ≠ 0
      rw [hers j hj, hx0k]
      have := hmiss_lt j hj
      exact byteOfNat_add_ne_zero _ _ (by omega) (by omega) (by omega)
  -- the solution hypothesis, phrased against the Step-A state
  have hsolve : ∀ pos, pos < bb → origSys A R nn pos (fun t => z t pos) := by
    intro pos hpos i hi
    have hL : ∑ c in Finset.range nn, A i c * z c pos =
        ∑ t in Finset.range nn, GetMatrixElement
          (byteOfNat ((blocks.getD (reco.getD i 0) default).Index))
          (byteOfNat k) (byteOfNat ((missingRows k blocks).getD t 0)) * z t pos := by
      apply Finset.sum_congr rfl
      intro c hc
      rw [hAval i hi c (Finset.mem_range.mp hc)]
    have hRB : R i pos = ((blocks.getD (reco.getD i 0) default).Block).getD pos 0 +
        (origs.map (fun o => GetMatrixElement
          (byteOfNat ((blocks.getD (reco.getD i 0) default).Index)) (byteOfNat k)
          (byteOfNat ((blocks.getD o default).Index)) *
          ((blocks.getD o default).Block).getD pos 0)).sum := by
      show rowByte reco blocks1 i pos = _
      rw [rowByte]
      have hbyte := ((sa3 _ (getD_mem hi)).2) pos hpos
      rw [hbyte, hx0k]
    rw [hL, hRB]
    exact hsolv pos hpos i hi
  have hsolv0 : ∃ v : Nat → GF, origSys A R nn 0 v :=
    ⟨fun t => z t 0, hsolve 0 (by omega)⟩
  -- run the forward elimination
  set stF := (List.range nn).foldl (gaussStep reco ers nn)
    { matrix := A, pivots := List.range params.OriginalCount.toNat, blocks := blocks1 }
    with hstF
  have HF : GaussInv reco ers nn bb A R blocks1 nn stF :=
    gauss_fold reco ers nn bb A R blocks1 _
      (fun t ht => by rw [hb1len]; exact hreco_lt t ht)
      hreco_inj (by omega) hsolv0 hAinj h0
  -- triangular relations for the actual solution
  have hrelz : ∀ t, t < nn → ∀ pos, pos < bb →
      z t pos + ∑ c in Finset.Ico (t + 1) nn, stF.matrix (stF.pivots.getD t 0) c * z c pos =
        rowByte reco stF.blocks (stF.pivots.getD t 0) pos := by
    intro t ht pos hpos
    have hcur := (HF.hsys pos hpos (fun c => z c pos)).mp (hsolve pos hpos)
    exact hcur.2 t ht
  -- back-substitution
  obtain ⟨b1, b2, b3, b4, b5⟩ := backSub_spec reco stF.matrix stF.pivots nn bb z stF.blocks
    HF.hpiv_lt HF.hpiv_inj hreco_inj
    (fun t ht => by rw [HF.hlen, hb1len]; exact hreco_lt t ht)
    HF.hblen hrelz
  -- identify the decoder's result
  have hres : Decoder.Decode (Decoder.Initialize params blocks) blocks =
      backSubstitute reco stF.matrix stF.pivots nn stF.blocks := by
    rw [hd]
    rfl
  rw [hres]
  refine ⟨by rw [b1, HF.hlen, hb1len], ?_, ?_⟩
  · -- frame: blocks at non-recovery positions are untouched
    intro p hp
    rw [b2 p hp, HF.hframe p hp]
    apply sa2
    rw [mem_iff_getD]
    rintro ⟨i, hi, he⟩
    exact hp i hi he
  · -- the recovery blocks, permuted by the final pivots
    refine ⟨fun t => stF.pivots.getD t 0, HF.hpiv_lt, HF.hpiv_inj, ?_⟩
    intro t ht
    refine ⟨?_, b4 _ (HF.hpiv_lt t ht), fun pos hpos => b5 t ht pos hpos⟩
    have hidx := HF.hidx t ht
    have hb3 := b3 (reco.getD (stF.pivots.getD t 0) 0)
    rw [hb3, hidx]
    exact hers t ht

/-! ### Facts about the missing rows and the survivor labels -/

theorem missingRows_mem (k : Nat) (blocks : List cm256_block) (r : Nat)
    (h : r ∈ missingRows k blocks) :
    r < k ∧ r ∉ blocks.map cm256_block.Index := by
  obtain ⟨h1, h2⟩ := List.mem_filter.mp h
  refine ⟨List.mem_range.mp h1, ?_⟩
  intro hc
  rw [decide_eq_true hc] at h2
  exact absurd h2 (by decide)

theorem missingRows_nodup (k : Nat) (blocks : List cm256_block) :
    (missingRows k blocks).Nodup :=
  (List.nodup_range k).filter _

theorem blocks_getD_index_mem (blocks : List cm256_block) (p : Nat)
    (h : p < blocks.length) :
    (blocks.getD p default).Index ∈ blocks.map cm256_block.Index := by
  rw [List.getD_eq_getElem blocks default h]
  exact List.mem_map_of_mem _ (List.getElem_mem h)

theorem list_eq_of_getD (bb : Nat) (l1 l2 : List GF) (h1 : l1.length = bb)
    (h2 : l2.length = bb) (h : ∀ pos, pos < bb → l1.getD pos 0 = l2.getD pos 0) :
    l1 = l2 := by
  apply List.ext_getElem (by omega)
  intro i hi1 hi2
  have hv := h i (by omega)
  rwa [List.getD_eq_getElem l1 0 hi1, List.getD_eq_getElem l2 0 hi2] at hv

theorem list_map_sum_eq_range_sum (l : List Nat) (f : Nat → GF) :
    (l.map f).sum = ∑ t in Finset.range l.length, f (l.getD t 0) := by
  induction l with
  | nil => simp
  | cons a l ih =>
    rw [List.map_cons, List.sum_cons, ih, List.length_cons, Finset.sum_range_succ']
    have h1 : ∀ i ∈ Finset.range l.length, f (l.getD i 0) = f ((a :: l).getD (i + 1) 0) := by
      intro i _
      rfl
    rw [Finset.sum_congr rfl h1]
    show f a + _ = _ + f ((a :: l).getD 0 0)
    rw [add_comm]
    rfl

/-- Splitting the full row sum into the missing rows and the present
rows (the XOR cancellation behind Step A of the decode). -/
theorem sum_split_missing (k : Nat) (blocks : List cm256_block) (f : Nat → GF) :
    ∑ j in Finset.range k, f j =
      ((missingRows k blocks).map f).sum +
      (((List.range k).filter
        (fun r => decide (r ∈ blocks.map cm256_block.Index))).map f).sum := by
  have hperm := List.filter_append_perm
    (fun r => decide (r ∈ blocks.map cm256_block.Index)) (List.range k)
  have hmap := (hperm.map f).sum_eq
  rw [← list_range_map_sum, ← hmap, List.map_append, List.sum_append]
  rw [show ((List.range k).filter
      (fun r => !decide (r ∈ blocks.map cm256_block.Index))) = missingRows k blocks from rfl]
  rw [add_comm]

theorem survivors_nodup (k : Nat) (blocks : List cm256_block)
    (hlen : blocks.length = k)
    (hdist : ∀ p2, p2 < k → ∀ p1, p1 < p2 →
      (blocks.getD p1 default).Index ≠ (blocks.getD p2 default).Index) :
    ((originalPositions k blocks).map (fun p => (blocks.getD p default).Index)).Nodup := by
  apply List.Nodup.map_on
  · intro p1 h1 p2 h2 he
    by_contra hne
    have ha := (originalPositions_mem k blocks p1 h1).1
    have hb := (originalPositions_mem k blocks p2 h2).1
    rcases Nat.lt_or_ge p1 p2 with h | h
    · exact hdist p2 hb p1 h he
    · have hlt : p2 < p1 := by omega
      exact hdist p1 ha p2 hlt he.symm
  · exact (List.nodup_range k).filter _

/-- The present original rows are exactly the labels of the blocks at
the original positions. -/
theorem present_eq_survivors (k : Nat) (blocks : List cm256_block)
    (hlen : blocks.length = k)
    (hdist : ∀ p2, p2 < k → ∀ p1, p1 < p2 →
      (blocks.getD p1 default).Index ≠ (blocks.getD p2 default).Index)
    (f : Nat → GF) :
    (((List.range k).filter
      (fun r => decide (r ∈ blocks.map cm256_block.Index))).map f).sum =
    ((originalPositions k blocks).map
      (fun p => f ((blocks.getD p default).Index))).sum := by
  classical
  have hnd1 : ((List.range k).filter
      (fun r => decide (r ∈ blocks.map cm256_block.Index))).Nodup :=
    (List.nodup_range k).filter _
  have hnd2 := survivors_nodup k blocks hlen hdist
  have hmm : ((originalPositions k blocks).map
      (fun p => f ((blocks.getD p default).Index))).sum =
      (((originalPositions k blocks).map
        (fun p => (blocks.getD p default).Index)).map f).sum := by
    rw [List.map_map]
    rfl
  rw [hmm]
  have hsame : ∀ x, x ∈ ((List.range k).filter
      (fun r => decide (r ∈ blocks.map cm256_block.Index))) ↔
      x ∈ ((originalPositions k blocks).map (fun p => (blocks.getD p default).Index)) := by
    intro x
    constructor
    · intro h
      obtain ⟨h1, h2⟩ := List.mem_filter.mp h
      have hxk : x < k := List.mem_range.mp h1
      have hxm : x ∈ blocks.map cm256_block.Index := of_decide_eq_true h2
      obtain ⟨b, hb, hbe⟩ := List.mem_map.mp hxm
      obtain ⟨p, hp, hpe⟩ := List.mem_iff_getElem.mp hb
      refine List.mem_map.mpr ⟨p, ?_, ?_⟩
      · apply List.mem_filter.mpr
        refine ⟨List.mem_range.mpr (by omega), ?_⟩
        apply decide_eq_true
        rw [List.getD_eq_getElem blocks default hp, hpe, hbe]
        exact hxk
      · rw [List.getD_eq_getElem blocks default hp, hpe, hbe]
    · intro h
      obtain ⟨p, hp, hpe⟩ := List.mem_map.mp h
      obtain ⟨hpk, hplt⟩ := originalPositions_mem k blocks p hp
      apply List.mem_filter.mpr
      refine ⟨List.mem_range.mpr (by rw [← hpe]; exact hplt), ?_⟩
      apply decide_eq_true
      rw [← hpe]
      exact blocks_getD_index_mem blocks p (by omega)
  -- two Nodup lists with the same members have permutation-equal maps
  have hperm : ((List.range k).filter
      (fun r => decide (r ∈ blocks.map cm256_block.Index))).Perm
      ((originalPositions k blocks).map (fun p => (blocks.getD p default).Index)) :=
    List.perm_of_nodup_nodup_toFinset_eq hnd1 hnd2 (by
      ext x
      simp only [List.mem_toFinset]
      exact hsame x)
  exact (hperm.map f).sum_eq

/-- `GF` embeds into `Fin 256`, so it is a finite type; the function
space `Fin n → GF` is then finite, which turns injectivity of the
decoding matrix into surjectivity. -/
theorem GF.toFin_injective :
    Function.Injective (fun a : GF => (⟨a.val, a.isLt⟩ : Fin 256)) :=
  fun a b h => GF.ext_val (congrArg Fin.val h)

instance : Finite GF := Finite.of_injective _ GF.toFin_injective

/-! ### Claim C3: decode success frame and relabeling -/

/-- C3.  For every valid input of `k` distinctly labeled blocks,
`cm256_decode` returns 0, keeps the array length, returns every block
that entered with an original index (< k) bit-exact unchanged (buffer
and index), and rewrites the index of every block that entered with a
recovery index (>= k) to a previously erased original index: one in
`[0, k)` that did not occur among the input indices. -/
theorem cm256_decode_frame_relabel (params : cm256_encoder_params) (k m bb : Nat)
    (blocks : List cm256_block)
    (hk : params.OriginalCount = (k : Int)) (hm : params.RecoveryCount = (m : Int))
    (hbb : params.BlockBytes = (bb : Int))
    (hk1 : 1 ≤ k) (hm1 : 1 ≤ m) (hkm : k + m ≤ 256) (hbb1 : 1 ≤ bb)
    (hlen : blocks.length = k)
    (hidx : ∀ p, p < k → (blocks.getD p default).Index < k + m)
    (hdist : ∀ p2, p2 < k → ∀ p1, p1 < p2 →
      (blocks.getD p1 default).Index ≠ (blocks.getD p2 default).Index)
    (hbuf : ∀ p, p < k → ((blocks.getD p default).Block).length = bb) :
    (cm256_decode params blocks).1 = 0 ∧
    (cm256_decode params blocks).2.length = k ∧
    (∀ p, p < k → (blocks.getD p default).Index < k →
      (cm256_decode params blocks).2.getD p default = blocks.getD p default) ∧
    (∀ p, p < k → k ≤ (blocks.getD p default).Index →
      ((cm256_decode params blocks).2.getD p default).Index < k ∧
      ((cm256_decode params blocks).2.getD p default).Index ∉
        blocks.map cm256_block.Index) := by
  classical
  have hknat : params.OriginalCount.toNat = k := by rw [hk]; exact Int.toNat_natCast k
  have hmnat : params.RecoveryCount.toNat = m := by rw [hm]; exact Int.toNat_natCast m
  have hdist' : ∀ p1 p2, p1 < p2 → p2 < k →
      (blocks.getD p1 default).Index ≠ (blocks.getD p2 default).Index :=
    fun p1 p2 h1 h2 => hdist p2 h2 p1 h1
  by_cases hkq : k = 1
  · -- single-original fast return (cm256.cpp:452)
    subst hkq
    have hcall : cm256_decode params blocks =
        (0, blocks.set 0 { (blocks.getD 0 default) with Index := 0 }) := by
      unfold cm256_decode
      rw [if_neg (by omega), if_neg (by omega), if_pos (by omega : params.OriginalCount = 1)]
    rw [hcall]
    refine ⟨rfl, by rw [List.length_set, hlen], ?_, ?_⟩
    · intro p hp hpi
      have hp0 : p = 0 := by omega
      subst hp0
      have hb0 : (blocks.getD 0 default).Index = 0 := by omega
      have heq : { (blocks.getD 0 default) with Index := 0 } = blocks.getD 0 default := by
        cases hh : blocks.getD 0 default with
        | mk B I =>
          rw [hh] at hb0
          have hI : I = 0 := hb0
          rw [hI]
      rw [heq, set_getD_eq_self blocks 0 default (by omega)]
    · intro p hp hpi
      have hp0 : p = 0 := by omega
      subst hp0
      rw [set_getD_self blocks 0 _ default (by omega)]
      refine ⟨Nat.zero_lt_one, ?_⟩
      intro hc
      have hc0 : (0 : Nat) ∈ blocks.map cm256_block.Index := hc
      obtain ⟨b, hb, hbe⟩ := List.mem_map.mp hc0
      obtain ⟨q, hq, hqe⟩ := List.mem_iff_getElem.mp hb
      have hq0 : q = 0 := by omega
      subst hq0
      rw [← List.getD_eq_getElem blocks default hq] at hqe
      rw [← hqe] at hbe
      omega
  · -- k >= 2
    have hk2 : 2 ≤ k := by omega
    by_cases hno : recoveryPositions k blocks = []
    · -- all original rows present: no-op return (cm256.cpp:460)
      have hall : ∀ p, p < k → (blocks.getD p default).Index < k := by
        intro p hp
        by_contra hge
        have hmem : p ∈ recoveryPositions k blocks := by
          apply List.mem_filter.mpr
          refine ⟨List.mem_range.mpr hp, ?_⟩
          rw [decide_eq_false hge]
          rfl
        rw [hno] at hmem
        exact absurd hmem (List.not_mem_nil p)
      have hcall : cm256_decode params blocks = (0, blocks) := by
        unfold cm256_decode
        rw [if_neg (by omega), if_neg (by omega),
          if_neg (by omega : ¬ params.OriginalCount = 1)]
        have hrec : (Decoder.Initialize params blocks).Recovery = [] := by
          rw [Initialize_eq]
          show recoveryPositions params.OriginalCount.toNat blocks = []
          rw [hknat]
          exact hno
        simp [hrec]
      rw [hcall]
      exact ⟨rfl, hlen, fun p _ _ => rfl, fun p hp hge => absurd (hall p hp) (by omega)⟩
    · have hn1 : 1 ≤ (recoveryPositions k blocks).length :=
        List.length_pos.mpr hno
      by_cases hmq : m = 1
      · -- the m = 1 fast path through DecodeM1 (cm256.cpp:469)
        subst hmq
        set rpos := (recoveryPositions k blocks).getD 0 0 with hrpos
        have hrmem : rpos ∈ recoveryPositions k blocks := getD_mem (by omega)
        have hrk : rpos < k := (recoveryPositions_mem k blocks rpos hrmem).1
        have hrIdx : ¬ (blocks.getD rpos default).Index < k := by
          have := (recoveryPositions_mem k blocks rpos hrmem).2
          omega
        have hothers : ∀ p, p < k → p ≠ rpos → (blocks.getD p default).Index < k := by
          intro p hp hne
          by_contra hge
          have h1 : (blocks.getD p default).Index = k := by
            have := hidx p hp
            omega
          have h2 : (blocks.getD rpos default).Index = k := by
            have := hidx rpos hrk
            omega
          rcases Nat.lt_or_ge p rpos with h | h
          · exact hdist rpos hrk p h (by rw [h1, h2])
          · exact hdist p hp rpos (by omega) (by rw [h1, h2])
        have hrecS : recoveryPositions k blocks = [rpos] :=
          recoveryPositions_single k rpos blocks hrk hrIdx hothers
        have hdRec : (Decoder.Initialize params blocks).Recovery = [rpos] := by
          rw [Initialize_eq]
          show recoveryPositions params.OriginalCount.toNat blocks = _
          rw [hknat]
          exact hrecS
        have hdErTake : (Decoder.Initialize params blocks).ErasuresIndices.take 1 =
            missingRows k blocks := by
          rw [Initialize_eq]
          show (erasureScan (recoveryPositions params.OriginalCount.toNat blocks).length 256 0 0
            (presenceArr params.OriginalCount.toNat blocks)).take 1 = _
          rw [hknat, hrecS]
          have h := Initialize_ErasuresIndices_take k blocks (by omega) hlen hdist'
          rw [hrecS] at h
          exact h
        have hmis1 : (missingRows k blocks).length = 1 := by
          rw [missingRows_length k blocks hlen hdist', hrecS]
          rfl
        have hidx0 : (Decoder.Initialize params blocks).ErasuresIndices.getD 0 0 =
            (missingRows k blocks).getD 0 0 := by
          have h0 : (missingRows k blocks).getD 0 0 =
              ((Decoder.Initialize params blocks).ErasuresIndices.take 1).getD 0 0 := by
            rw [hdErTake]
          rw [h0]
          cases hl : (Decoder.Initialize params blocks).ErasuresIndices with
          | nil => rfl
          | cons a l => rfl
        have hrpos0 : (Decoder.Initialize params blocks).Recovery.getD 0 0 = rpos := by
          rw [hdRec]
          rfl
        have hcall : cm256_decode params blocks =
            (0, Decoder.DecodeM1 (Decoder.Initialize params blocks) blocks) := by
          unfold cm256_decode
          rw [if_neg (by omega), if_neg (by omega),
            if_neg (by omega : ¬ params.OriginalCount = 1)]
          rw [if_neg (by rw [hdRec]; simp), if_pos (by omega : params.RecoveryCount = 1)]
        have e : Decoder.DecodeM1 (Decoder.Initialize params blocks) blocks =
            blocks.set ((Decoder.Initialize params blocks).Recovery.getD 0 0)
              { Block := m1Flush ((Decoder.Initialize params blocks).Original.foldl
                  (m1Step blocks)
                  ((blocks.getD ((Decoder.Initialize params blocks).Recovery.getD 0 0)
                    default).Block, none)),
                Index := (Decoder.Initialize params blocks).ErasuresIndices.getD 0 0 } := rfl
        rw [hcall]
        rw [hrpos0] at e
        refine ⟨rfl, ?_, ?_, ?_⟩
        · show (Decoder.DecodeM1 (Decoder.Initialize params blocks) blocks).length = k
          rw [e, List.length_set, hlen]
        · intro p hp hpi
          have hpne : p ≠ rpos := by
            intro hc
            rw [hc] at hpi
            exact hrIdx hpi
          show (Decoder.DecodeM1 (Decoder.Initialize params blocks) blocks).getD p default = _
          rw [e, set_getD_ne blocks rpos p _ default (fun hh => hpne hh.symm)]
        · intro p hp hge
          have hpe : p = rpos := by
            by_contra hne
            exact absurd (hothers p hp hne) (by omega)
          subst hpe
          show ((Decoder.DecodeM1 (Decoder.Initialize params blocks) blocks).getD rpos
            default).Index < k ∧ _
          rw [e, set_getD_self blocks rpos _ default (by omega), hidx0]
          have hmem : (missingRows k blocks).getD 0 0 ∈ missingRows k blocks :=
            getD_mem (by omega)
          exact missingRows_mem k blocks _ hmem
      · -- the general path through Decoder::Decode (cm256.cpp:477)
        have hm2 : 2 ≤ m := by omega
        set reco := recoveryPositions k blocks with hreco
        set nn := reco.length with hnn
        have hd0 := Initialize_eq params blocks
        rw [hknat] at hd0
        set ers := erasureScan (recoveryPositions k blocks).length 256 0 0
          (presenceArr k blocks) with hersdef
        have htake := Initialize_ErasuresIndices_take k blocks (by omega) hlen hdist'
        have hmlen : (missingRows k blocks).length = nn :=
          missingRows_length k blocks hlen hdist'
        have hers : ∀ t, t < nn → ers.getD t 0 = (missingRows k blocks).getD t 0 := by
          intro t ht
          rw [← htake, getD_take_lt ht]
        have hmiss_lt : ∀ t, t < nn → (missingRows k blocks).getD t 0 < k := by
          intro t ht
          exact (missingRows_mem k blocks _ (getD_mem (by omega))).1
        have hmiss_inj : ∀ t1, t1 < nn → ∀ t2, t2 < nn → t1 ≠ t2 →
            (missingRows k blocks).getD t1 0 ≠ (missingRows k blocks).getD t2 0 := by
          intro t1 h1 t2 h2 hne hc
          exact hne (nodup_getD_inj (missingRows_nodup k blocks) (by omega) (by omega) hc)
        have hreco_lt : ∀ i, i < nn → reco.getD i 0 < k := by
          intro i hi
          exact (recoveryPositions_mem k blocks _ (getD_mem hi)).1
        have hreco_inj : ∀ i1, i1 < nn → ∀ i2, i2 < nn →
            reco.getD i1 0 = reco.getD i2 0 → i1 = i2 := by
          intro i1 h1 i2 h2 h
          exact nodup_getD_inj (recoveryPositions_nodup k blocks) h1 h2 h
        have hlab_lt : ∀ i, i < nn → (blocks.getD (reco.getD i 0) default).Index < 256 := by
          intro i hi
          have := hidx _ (hreco_lt i hi)
          omega
        have hlab_inj : ∀ i1, i1 < nn → ∀ i2, i2 < nn → i1 ≠ i2 →
            (blocks.getD (reco.getD i1 0) default).Index ≠
            (blocks.getD (reco.getD i2 0) default).Index := by
          intro i1 h1 i2 h2 hne
          have hpne : reco.getD i1 0 ≠ reco.getD i2 0 :=
            fun h => hne (hreco_inj i1 h1 i2 h2 h)
          rcases Nat.lt_or_ge (reco.getD i1 0) (reco.getD i2 0) with h | h
          · exact hdist _ (hreco_lt i2 h2) _ h
          · intro hc
            exact hdist _ (hreco_lt i1 h1) _ (by omega) hc.symm
        -- construct a solution of the linear system by surjectivity
        set M : Nat → Nat → GF := fun i t => GetMatrixElement
          (byteOfNat ((blocks.getD (reco.getD i 0) default).Index))
          (byteOfNat k) (byteOfNat ((missingRows k blocks).getD t 0)) with hM
        have hMinj : ∀ v : Nat → GF,
            (∀ i, i < nn → ∑ t in Finset.range nn, M i t * v t = 0) →
            ∀ t, t < nn → v t = 0 := by
          intro v hv
          apply cauchy_vanish nn
            (fun i => byteOfNat ((blocks.getD (reco.getD i 0) default).Index))
            (fun t => byteOfNat ((missingRows k blocks).getD t 0))
            (byteOfNat k) ?hXY ?hXd ?hYd ?hY0 v hv
          case hXY =>
            intro i hi j hj
            show byteOfNat ((blocks.getD (reco.getD i 0) default).Index) +
              byteOfNat ((missingRows k blocks).getD j 0) ≠ 0
            have h1 := hlab_lt i hi
            have h2 := hmiss_lt j hj
            have h3 := (recoveryPositions_mem k blocks _ (getD_mem hi)).2
            have hne2 : (blocks.getD (reco.getD i 0) default).Index ≠
                (missingRows k blocks).getD j 0 := by
              intro hc
              rw [hc] at h3
              omega
            exact byteOfNat_add_ne_zero
              ((blocks.getD (reco.getD i 0) default).Index)
              ((missingRows k blocks).getD j 0) h1 (by omega) hne2
          case hXd =>
            intro i1 h1 i2 h2 h
            by_contra hne
            exact hlab_inj i1 h1 i2 h2 hne
              (byteOfNat_inj (hlab_lt i1 h1) (hlab_lt i2 h2) h)
          case hYd =>
            intro j1 h1 j2 h2 h
            by_contra hne
            have ha := hmiss_lt j1 h1
            have hb := hmiss_lt j2 h2
            exact hmiss_inj j1 h1 j2 h2 hne (byteOfNat_inj (by omega) (by omega) h)
          case hY0 =>
            intro j hj
            show byteOfNat ((missingRows k blocks).getD j 0) + byteOfNat k ≠ 0
            have := hmiss_lt j hj
            exact byteOfNat_add_ne_zero ((missingRows k blocks).getD j 0) k
              (by omega) (by omega) (by omega)
        have hφinj : Function.Injective
            (fun (u : Fin nn → GF) (i : Fin nn) =>
              ∑ t : Fin nn, M i.val t.val * u t) := by
          intro u1 u2 he
          funext t
          set w : Nat → GF := fun s => if h : s < nn then u1 ⟨s, h⟩ + u2 ⟨s, h⟩ else 0
            with hw
          have hweq : ∀ i, i < nn → ∑ s in Finset.range nn, M i s * w s = 0 := by
            intro i hi
            have hsplit : ∑ s in Finset.range nn, M i s * w s =
                (∑ s in Finset.range nn,
                  M i s * (if h : s < nn then u1 ⟨s, h⟩ else 0)) +
                (∑ s in Finset.range nn,
                  M i s * (if h : s < nn then u2 ⟨s, h⟩ else 0)) := by
              rw [← Finset.sum_add_distrib]
              apply Finset.sum_congr rfl
              intro s hs
              have hsn := Finset.mem_range.mp hs
              rw [hw]
              show M i s * (if h : s < nn then u1 ⟨s, h⟩ + u2 ⟨s, h⟩ else 0) = _
              rw [dif_pos hsn, dif_pos hsn, dif_pos hsn, mul_add]
            have hc1 : ∑ s in Finset.range nn,
                M i s * (if h : s < nn then u1 ⟨s, h⟩ else 0) =
                ∑ t : Fin nn, M i t.val * u1 t := by
              rw [← Fin.sum_univ_eq_sum_range
                (fun s => M i s * (if h : s < nn then u1 ⟨s, h⟩ else 0)) nn]
              apply Finset.sum_congr rfl
              intro t _
              rw [dif_pos t.isLt]
            have hc2 : ∑ s in Finset.range nn,
                M i s * (if h : s < nn then u2 ⟨s, h⟩ else 0) =
                ∑ t : Fin nn, M i t.val * u2 t := by
              rw [← Fin.sum_univ_eq_sum_range
                (fun s => M i s * (if h : s < nn then u2 ⟨s, h⟩ else 0)) nn]
              apply Finset.sum_congr rfl
              intro t _
              rw [dif_pos t.isLt]
            have hee := congrFun he ⟨i, hi⟩
            have hee2 : (∑ t : Fin nn, M i t.val * u1 t) =
                (∑ t : Fin nn, M i t.val * u2 t) := hee
            rw [hsplit, hc1, hc2, hee2, GF.add_self]
          have := hMinj w hweq t.val t.isLt
          rw [hw] at this
          have h2 : u1 t + u2 t = 0 := by
            have h3 : (if h : t.val < nn then u1 ⟨t.val, h⟩ + u2 ⟨t.val, h⟩ else 0) = 0 :=
              this
            rwa [dif_pos t.isLt] at h3
          exact (GF.add_eq_zero_iff _ _).mp h2
        have hφsurj := Finite.injective_iff_surjective.mp hφinj
        have hex : ∀ pos, ∃ u : Fin nn → GF,
            (fun (u : Fin nn → GF) (i : Fin nn) =>
              ∑ t : Fin nn, M i.val t.val * u t) u =
            (fun i : Fin nn =>
              ((blocks.getD (reco.getD i.val 0) default).Block).getD pos 0 +
              ((originalPositions k blocks).map (fun p => GetMatrixElement
                (byteOfNat ((blocks.getD (reco.getD i.val 0) default).Index))
                (byteOfNat k) (byteOfNat ((blocks.getD p default).Index)) *
                ((blocks.getD p default).Block).getD pos 0)).sum) := by
          intro pos
          exact hφsurj _
        choose U hU using hex
        set z : Nat → Nat → GF := fun t pos =>
          if h : t < nn then U pos ⟨t, h⟩ else 0 with hz
        have hsolv : ∀ pos, pos < bb → ∀ i, i < nn →
            ∑ t in Finset.range nn, M i t * z t pos =
            ((blocks.getD (reco.getD i 0) default).Block).getD pos 0 +
            ((originalPositions k blocks).map (fun p => GetMatrixElement
              (byteOfNat ((blocks.getD (reco.getD i 0) default).Index))
              (byteOfNat k) (byteOfNat ((blocks.getD p default).Index)) *
              ((blocks.getD p default).Block).getD pos 0)).sum := by
          intro pos _ i hi
          have hc : ∑ t in Finset.range nn, M i t * z t pos =
              ∑ t : Fin nn, M i t.val * U pos t := by
            rw [← Fin.sum_univ_eq_sum_range (fun t => M i t * z t pos) nn]
            apply Finset.sum_congr rfl
            intro t _
            rw [hz]
            show M i t.val * (if h : t.val < nn then U pos ⟨t.val, h⟩ else 0) = _
            rw [dif_pos t.isLt]
          rw [hc]
          exact congrFun (hU pos) ⟨i, hi⟩
        -- run the verified decoder
        have hd : Decoder.Initialize params blocks =
            { Params := params
              Original := originalPositions k blocks
              Recovery := recoveryPositions k blocks
              ErasuresIndices := ers } := hd0
        obtain ⟨d1, d2, σ, hσlt, hσinj, hσval⟩ := Decode_spec params blocks k bb ers z
          hknat hd hn1 hlen hbuf hbb1 (by omega) hers hmiss_lt hmiss_inj hlab_lt hlab_inj
          hsolv
        have hcall : cm256_decode params blocks =
            (0, Decoder.Decode (Decoder.Initialize params blocks) blocks) := by
          unfold cm256_decode
          rw [if_neg (by omega), if_neg (by omega),
            if_neg (by omega : ¬ params.OriginalCount = 1)]
          rw [if_neg (by
              rw [hd]
              show ¬ (recoveryPositions k blocks).length = 0
              have hn1x : 1 ≤ (recoveryPositions k blocks).length := hn1
              omega),
            if_neg (by omega : ¬ params.RecoveryCount = 1)]
        rw [hcall]
        refine ⟨rfl, d1, ?_, ?_⟩
        · intro p hp hpi
          apply d2
          intro i hi hc
          have hmem : p ∈ reco := by
            rw [← hc]
            exact getD_mem hi
          have := (recoveryPositions_mem k blocks p hmem).2
          omega
        · intro p hp hge
          have hmem : p ∈ reco := by
            apply List.mem_filter.mpr
            refine ⟨List.mem_range.mpr hp, ?_⟩
            rw [decide_eq_false (by omega : ¬ (blocks.getD p default).Index < k)]
            rfl
          obtain ⟨q, hq, hqe⟩ := mem_iff_getD.mp hmem
          obtain ⟨t, ht, hte⟩ := inj_on_range_surj nn σ hσlt hσinj q hq
          obtain ⟨hv1, _, _⟩ := hσval t ht
          rw [hte, hqe] at hv1
          rw [hv1]
          have hmm : (missingRows k blocks).getD t 0 ∈ missingRows k blocks :=
            getD_mem (by omega)
          exact missingRows_mem k blocks _ hmm

theorem cm256_decode_frame_relabel_witness :
    (cm256_decode ⟨2, 2, 1⟩ [⟨[byteOfNat 3], 0⟩, ⟨[byteOfNat 5], 2⟩]).1 = 0 ∧
    (cm256_decode ⟨2, 2, 1⟩ [⟨[byteOfNat 3], 0⟩, ⟨[byteOfNat 5], 2⟩]).2.length = 2 ∧
    (∀ p, p < 2 →
      (([⟨[byteOfNat 3], 0⟩, ⟨[byteOfNat 5], 2⟩].getD p
          (default : cm256_block)).Index < 2) →
      (cm256_decode ⟨2, 2, 1⟩ [⟨[byteOfNat 3], 0⟩, ⟨[byteOfNat 5], 2⟩]).2.getD p default =
        [⟨[byteOfNat 3], 0⟩, ⟨[byteOfNat 5], 2⟩].getD p default) ∧
    (∀ p, p < 2 →
      2 ≤ ([⟨[byteOfNat 3], 0⟩, ⟨[byteOfNat 5], 2⟩].getD p
          (default : cm256_block)).Index →
      ((cm256_decode ⟨2, 2, 1⟩ [⟨[byteOfNat 3], 0⟩, ⟨[byteOfNat 5], 2⟩]).2.getD p
          default).Index < 2 ∧
      ((cm256_decode ⟨2, 2, 1⟩ [⟨[byteOfNat 3], 0⟩, ⟨[byteOfNat 5], 2⟩]).2.getD p
          default).Index ∉
        [⟨[byteOfNat 3], 0⟩, ⟨[byteOfNat 5], 2⟩].map cm256_block.Index) :=
  cm256_decode_frame_relabel ⟨2, 2, 1⟩ 2 2 1 [⟨[byteOfNat 3], 0⟩, ⟨[byteOfNat 5], 2⟩]
    rfl rfl rfl (by omega) (by omega) (by omega) (by omega) rfl
    (by decide) (by decide) (by decide)

/-- The encoder's output rows in uniform matrix form: for `k ≥ 2` every
recovery row `r < m` (the unrolled XOR row 0 included, since its matrix
coefficients are all 1) carries
`Σ_j GetMatrixElement(k+r, k, j) * original_j`, byte-wise. -/
theorem encode_rows_spec (params : cm256_encoder_params) (k m bb : Nat)
    (originals : List (List GF))
    (hk : params.OriginalCount = (k : Int)) (hm : params.RecoveryCount = (m : Int))
    (hbb : params.BlockBytes = (bb : Int))
    (hk2 : 2 ≤ k) (hm1 : 1 ≤ m) (hkm : k + m ≤ 256) (hbb1 : 1 ≤ bb)
    (holen : originals.length = k)
    (hoblen : ∀ j, j < k → (originals.getD j []).length = bb) :
    ∃ recs, cm256_encode params (some originals) false = .ok recs ∧
      recs.length = m ∧
      (∀ r, r < m → (recs.getD r []).length = bb) ∧
      (∀ r, r < m → ∀ pos, pos < bb →
        (recs.getD r []).getD pos 0 =
          ∑ j in Finset.range k,
            GetMatrixElement (byteOfNat (k + r)) (byteOfNat k) (byteOfNat j) *
              (originals.getD j []).getD pos 0) := by
  have hknat : params.OriginalCount.toNat = k := by rw [hk]; exact Int.toNat_natCast k
  have hmnat : params.RecoveryCount.toNat = m := by rw [hm]; exact Int.toNat_natCast m
  have hk255 : k < 256 := by omega
  have hok : cm256_encode params (some originals) false =
      .ok (encodeRow0 k originals ::
        (List.range' 1 (m - 1)).map
          (fun i => encodeRow k (byteOfNat ((byteOfNat k).val + i)) (byteOfNat k) originals)) := by
    unfold cm256_encode
    rw [if_neg (by omega), if_neg (by omega), if_neg (by simp)]
    simp only [hknat, hmnat, Option.getD_some]
    rw [if_neg (by omega : ¬ k = 1)]
  refine ⟨_, hok, ?_, ?_, ?_⟩
  · simp [List.length_range']
    omega
  · intro r hr
    match r with
    | 0 => exact (encodeRow0_spec k bb originals hk2 hoblen).1
    | Nat.succ r' =>
      have hr' : r' < m - 1 := by omega
      have hlt : r' < ((List.range' 1 (m - 1)).map
          (fun i => encodeRow k (byteOfNat ((byteOfNat k).val + i)) (byteOfNat k) originals)).length := by
        simp [List.length_range']
        omega
      rw [List.getD_cons_succ, List.getD_eq_getElem _ _ hlt, List.getElem_map]
      exact (encodeRow_spec k bb _ _ originals hk2 hoblen).1
  · intro r hr pos hpos
    match r with
    | 0 =>
      rw [List.getD_cons_zero, (encodeRow0_spec k bb originals hk2 hoblen).2 pos hpos]
      refine Finset.sum_congr rfl (fun j hj => ?_)
      have hjk : j < k := Finset.mem_range.mp hj
      have h1 : GetMatrixElement (byteOfNat (k + 0)) (byteOfNat k) (byteOfNat j) = 1 := by
        rw [Nat.add_zero]
        exact GetMatrixElement_diag (byteOfNat k) (byteOfNat j)
          (byteOfNat_add_ne_zero j k (by omega) (by omega) (by omega))
      rw [h1, one_mul]
    | Nat.succ r' =>
      have hr' : r' < m - 1 := by omega
      have hlt : r' < ((List.range' 1 (m - 1)).map
          (fun i => encodeRow k (byteOfNat ((byteOfNat k).val + i)) (byteOfNat k) originals)).length := by
        simp [List.length_range']
        omega
      rw [List.getD_cons_succ, List.getD_eq_getElem _ _ hlt, List.getElem_map]
      have hltr : r' < (List.range' 1 (m - 1)).length := by
        simpa [List.length_range'] using hr'
      have hidx : (List.range' 1 (m - 1))[r'] = 1 + r' := by
        rw [List.getElem_range' _ _]
        omega
      rw [hidx, byteOfNat_val k (by omega), show k + (1 + r') = k + (r' + 1) by omega]
      exact (encodeRow_spec k bb (byteOfNat (k + (r' + 1))) (byteOfNat k) originals hk2
        hoblen).2 pos hpos

/-! ### Claim C1: the encode-decode round trip -/

/-- C1.  For every valid `(k, m, blockBytes)` and original data, after
`cm256_encode` produces the recovery blocks, any valid mix of surviving
originals (carrying their original contents) and recovery blocks
(labeled `k + r` and carrying the encoder's row `r`) decodes with return
value 0 into blocks whose contents equal the original blocks in row
order: every output block carries an index `< k`, its buffer equals the
original block of that row, and the output indices are pairwise
distinct, so all `k` rows are recovered. -/
theorem cm256_encode_decode_roundtrip (params : cm256_encoder_params) (k m bb : Nat)
    (originals recs : List (List GF)) (blocks : List cm256_block)
    (hk : params.OriginalCount = (k : Int)) (hm : params.RecoveryCount = (m : Int))
    (hbb : params.BlockBytes = (bb : Int))
    (hk1 : 1 ≤ k) (hm1 : 1 ≤ m) (hkm : k + m ≤ 256) (hbb1 : 1 ≤ bb)
    (holen : originals.length = k)
    (hoblen : ∀ j, j < k → (originals.getD j []).length = bb)
    (henc : cm256_encode params (some originals) false = .ok recs)
    (hblen : blocks.length = k)
    (hidx : ∀ p, p < k → (blocks.getD p default).Index < k + m)
    (hdist : ∀ p2, p2 < k → ∀ p1, p1 < p2 →
      (blocks.getD p1 default).Index ≠ (blocks.getD p2 default).Index)
    (hconto : ∀ p, p < k → (blocks.getD p default).Index < k →
      (blocks.getD p default).Block = originals.getD ((blocks.getD p default).Index) [])
    (hcontr : ∀ p, p < k → k ≤ (blocks.getD p default).Index →
      (blocks.getD p default).Block =
        recs.getD ((blocks.getD p default).Index - k) []) :
    (cm256_decode params blocks).1 = 0 ∧
    (cm256_decode params blocks).2.length = k ∧
    (∀ p, p < k →
      ((cm256_decode params blocks).2.getD p default).Index < k ∧
      ((cm256_decode params blocks).2.getD p default).Block =
        originals.getD (((cm256_decode params blocks).2.getD p default).Index) []) ∧
    (∀ p2, p2 < k → ∀ p1, p1 < p2 →
      ((cm256_decode params blocks).2.getD p1 default).Index ≠
      ((cm256_decode params blocks).2.getD p2 default).Index) := by
  classical
  have hknat : params.OriginalCount.toNat = k := by rw [hk]; exact Int.toNat_natCast k
  have hmnat : params.RecoveryCount.toNat = m := by rw [hm]; exact Int.toNat_natCast m
  have hdist' : ∀ p1 p2, p1 < p2 → p2 < k →
      (blocks.getD p1 default).Index ≠ (blocks.getD p2 default).Index :=
    fun p1 p2 h1 h2 => hdist p2 h2 p1 h1
  by_cases hkq : k = 1
  · -- k = 1: the single block (original or recovery copy) holds originals[0]
    subst hkq
    have hrep : cm256_encode params (some originals) false =
        .ok (List.replicate m (originals.getD 0 [])) := by
      unfold cm256_encode
      rw [if_neg (by omega), if_neg (by omega), if_neg (by simp)]
      have h1 : params.OriginalCount.toNat = 1 := hknat
      simp [h1, hmnat]
    have hrecs : recs = List.replicate m (originals.getD 0 []) :=
      (Except.ok.inj (henc.symm.trans hrep))
    have hcall : cm256_decode params blocks =
        (0, blocks.set 0 { (blocks.getD 0 default) with Index := 0 }) := by
      unfold cm256_decode
      rw [if_neg (by omega), if_neg (by omega), if_pos (by omega : params.OriginalCount = 1)]
    have hb0 : (blocks.getD 0 default).Block = originals.getD 0 [] := by
      by_cases hlt : (blocks.getD 0 default).Index < 1
      · have h0 : (blocks.getD 0 default).Index = 0 := by omega
        have := hconto 0 (by omega) hlt
        rwa [h0] at this
      · have hge : 1 ≤ (blocks.getD 0 default).Index := by omega
        have hib := hidx 0 (by omega)
        rw [hcontr 0 (by omega) hge, hrecs]
        rw [List.getD_eq_getElem _ _ (by rw [List.length_replicate]; omega),
          List.getElem_replicate]
    rw [hcall]
    refine ⟨rfl, by rw [List.length_set, hblen], ?_, ?_⟩
    · intro p hp
      have hp0 : p = 0 := by omega
      subst hp0
      rw [set_getD_self blocks 0 _ default (by omega)]
      exact ⟨Nat.zero_lt_one, hb0⟩
    · intro p2 hp2 p1 hp1
      omega
  · -- k >= 2
    have hk2 : 2 ≤ k := by omega
    obtain ⟨recs0, hok, hrlen, hrblen, hrbyte⟩ := encode_rows_spec params k m bb originals
      hk hm hbb hk2 hm1 hkm hbb1 holen hoblen
    have hrecs0 : recs0 = recs := Except.ok.inj (hok.symm.trans henc)
    subst hrecs0
    have hbuf : ∀ p, p < k → ((blocks.getD p default).Block).length = bb := by
      intro p hp
      by_cases hlt : (blocks.getD p default).Index < k
      · rw [hconto p hp hlt]
        exact hoblen _ hlt
      · have hge : k ≤ (blocks.getD p default).Index := by omega
        rw [hcontr p hp hge]
        have := hidx p hp
        exact hrblen _ (by omega)
    by_cases hno : recoveryPositions k blocks = []
    · -- no erasures: decode is the identity
      have hall : ∀ p, p < k → (blocks.getD p default).Index < k := by
        intro p hp
        by_contra hge
        have hmem : p ∈ recoveryPositions k blocks := by
          apply List.mem_filter.mpr
          refine ⟨List.mem_range.mpr hp, ?_⟩
          rw [decide_eq_false hge]
          rfl
        rw [hno] at hmem
        exact absurd hmem (List.not_mem_nil p)
      have hcall : cm256_decode params blocks = (0, blocks) := by
        unfold cm256_decode
        rw [if_neg (by omega), if_neg (by omega),
          if_neg (by omega : ¬ params.OriginalCount = 1)]
        have hrec : (Decoder.Initialize params blocks).Recovery = [] := by
          rw [Initialize_eq]
          show recoveryPositions params.OriginalCount.toNat blocks = []
          rw [hknat]
          exact hno
        simp [hrec]
      rw [hcall]
      exact ⟨rfl, hblen, fun p hp => ⟨hall p hp, hconto p hp (hall p hp)⟩,
        fun p2 hp2 p1 hp1 => hdist p2 hp2 p1 hp1⟩
    · have hn1 : 1 ≤ (recoveryPositions k blocks).length := List.length_pos.mpr hno
      by_cases hmq : m = 1
      · -- m = 1: parity reconstruction through DecodeM1
        subst hmq
        set rpos := (recoveryPositions k blocks).getD 0 0 with hrpos
        have hrmem : rpos ∈ recoveryPositions k blocks := getD_mem (by omega)
        have hrk : rpos < k := (recoveryPositions_mem k blocks rpos hrmem).1
        have hrIdx : ¬ (blocks.getD rpos default).Index < k := by
          have := (recoveryPositions_mem k blocks rpos hrmem).2
          omega
        have hothers : ∀ p, p < k → p ≠ rpos → (blocks.getD p default).Index < k := by
          intro p hp hne
          by_contra hge
          have h1 : (blocks.getD p default).Index = k := by
            have := hidx p hp
            omega
          have h2 : (blocks.getD rpos default).Index = k := by
            have := hidx rpos hrk
            omega
          rcases Nat.lt_or_ge p rpos with h | h
          · exact hdist rpos hrk p h (by rw [h1, h2])
          · exact hdist p hp rpos (by omega) (by rw [h1, h2])
        have hrecS : recoveryPositions k blocks = [rpos] :=
          recoveryPositions_single k rpos blocks hrk hrIdx hothers
        have hdRec : (Decoder.Initialize params blocks).Recovery = [rpos] := by
          rw [Initialize_eq]
          show recoveryPositions params.OriginalCount.toNat blocks = _
          rw [hknat]
          exact hrecS
        have hdOrig : (Decoder.Initialize params blocks).Original =
            originalPositions k blocks := by
          rw [Initialize_eq]
          show originalPositions params.OriginalCount.toNat blocks = _
          rw [hknat]
        have hdErTake : (Decoder.Initialize params blocks).ErasuresIndices.take 1 =
            missingRows k blocks := by
          rw [Initialize_eq]
          show (erasureScan (recoveryPositions params.OriginalCount.toNat blocks).length 256 0 0
            (presenceArr params.OriginalCount.toNat blocks)).take 1 = _
          rw [hknat, hrecS]
          have h := Initialize_ErasuresIndices_take k blocks (by omega) hblen hdist'
          rw [hrecS] at h
          exact h
        have hmis1 : (missingRows k blocks).length = 1 := by
          rw [missingRows_length k blocks hblen hdist', hrecS]
          rfl
        set mi := (missingRows k blocks).getD 0 0 with hmi
        have hmimem : mi ∈ missingRows k blocks := getD_mem (by omega)
        obtain ⟨hmik, hminot⟩ := missingRows_mem k blocks mi hmimem
        have hmiss_list : missingRows k blocks = [mi] := by
          cases hml : missingRows k blocks with
          | nil =>
            rw [hml] at hmis1
            exact absurd hmis1 (by simp)
          | cons a l =>
            rw [hml] at hmis1
            have hl0 : l = [] := by
              rw [List.length_cons] at hmis1
              exact List.length_eq_zero.mp (by omega)
            subst hl0
            rw [hmi, hml]
            rfl
        have hidx0 : (Decoder.Initialize params blocks).ErasuresIndices.getD 0 0 = mi := by
          have h0 : mi = ((Decoder.Initialize params blocks).ErasuresIndices.take 1).getD 0 0 := by
            rw [hdErTake]
          rw [h0]
          cases hl : (Decoder.Initialize params blocks).ErasuresIndices with
          | nil => rfl
          | cons a l => rfl
        have hrpos0 : (Decoder.Initialize params blocks).Recovery.getD 0 0 = rpos := by
          rw [hdRec]
          rfl
        have hcall : cm256_decode params blocks =
            (0, Decoder.DecodeM1 (Decoder.Initialize params blocks) blocks) := by
          unfold cm256_decode
          rw [if_neg (by omega), if_neg (by omega),
            if_neg (by omega : ¬ params.OriginalCount = 1)]
          rw [if_neg (by rw [hdRec]; simp), if_pos (by omega : params.RecoveryCount = 1)]
        have e : Decoder.DecodeM1 (Decoder.Initialize params blocks) blocks =
            blocks.set ((Decoder.Initialize params blocks).Recovery.getD 0 0)
              { Block := m1Flush ((Decoder.Initialize params blocks).Original.foldl
                  (m1Step blocks)
                  ((blocks.getD ((Decoder.Initialize params blocks).Recovery.getD 0 0)
                    default).Block, none)),
                Index := (Decoder.Initialize params blocks).ErasuresIndices.getD 0 0 } := rfl
        rw [hrpos0, hdOrig] at e
        have hallo : ∀ p ∈ originalPositions k blocks,
            (blocks.getD p default).Block.length = bb := by
          intro p hp
          exact hbuf p (originalPositions_mem k blocks p hp).1
        obtain ⟨houtlen, houtval⟩ := decodeM1_fold_spec blocks bb
          (originalPositions k blocks) hallo
          ((blocks.getD rpos default).Block) none (hbuf rpos hrk) (fun s hs => by cases hs)
        have hsum : ∀ pos,
            ((List.range k).map (fun p => (blocks.getD p default).Block.getD pos 0)).sum =
            (blocks.getD rpos default).Block.getD pos 0 +
              ((originalPositions k blocks).map
                (fun p => (blocks.getD p default).Block.getD pos 0)).sum := by
          intro pos
          have hperm := List.filter_append_perm
            (fun ii => decide ((blocks.getD ii default).Index < k)) (List.range k)
          have hmap := (hperm.map (fun p => (blocks.getD p default).Block.getD pos 0)).sum_eq
          rw [← hmap, List.map_append, List.sum_append]
          have hR : ((List.range k).filter
              (fun x => !decide ((blocks.getD x default).Index < k))) = [rpos] := hrecS
          rw [hR, List.map_cons, List.map_nil, List.sum_cons, List.sum_nil, add_zero, add_comm]
          rfl
        -- the reconstructed byte is the missing original's byte
        have halg : ∀ pos, pos < bb →
            ∑ p in Finset.range k, (blocks.getD p default).Block.getD pos 0 =
              (originals.getD mi []).getD pos 0 := by
          intro pos hpos
          have hIdxr : (blocks.getD rpos default).Index = k := by
            have := hidx rpos hrk
            omega
          have hrecbyte : (blocks.getD rpos default).Block.getD pos 0 =
              ∑ j in Finset.range k, (originals.getD j []).getD pos 0 := by
            rw [hcontr rpos hrk (by omega), hIdxr, Nat.sub_self,
              hrbyte 0 (by omega) pos hpos]
            refine Finset.sum_congr rfl (fun j hj => ?_)
            have hjk : j < k := Finset.mem_range.mp hj
            have h1 : GetMatrixElement (byteOfNat (k + 0)) (byteOfNat k) (byteOfNat j) = 1 := by
              rw [Nat.add_zero]
              exact GetMatrixElement_diag (byteOfNat k) (byteOfNat j)
                (byteOfNat_add_ne_zero j k (by omega) (by omega) (by omega))
            rw [h1, one_mul]
          have hsurv : ((originalPositions k blocks).map
              (fun p => (blocks.getD p default).Block.getD pos 0)).sum =
              ((originalPositions k blocks).map
                (fun p => (originals.getD ((blocks.getD p default).Index) []).getD pos 0)).sum := by
            apply congrArg List.sum
            apply List.map_congr_left
            intro p hp
            obtain ⟨hpk, hplt⟩ := originalPositions_mem k blocks p hp
            rw [hconto p hpk hplt]
          have hsplit := sum_split_missing k blocks
            (fun j => (originals.getD j []).getD pos 0)
          have hpres := present_eq_survivors k blocks hblen hdist
            (fun j => (originals.getD j []).getD pos 0)
          rw [← list_range_map_sum, hsum pos, hrecbyte, hsurv]
          rw [hsplit, hpres, hmiss_list]
          show ((originals.getD mi []).getD pos 0 + 0) + _ + _ = _
          rw [add_zero]
          exact GF.add_add_cancel _ _
        rw [hcall]
        have houtblock : ∀ pos, pos < bb →
            (m1Flush ((originalPositions k blocks).foldl (m1Step blocks)
              ((blocks.getD rpos default).Block, none))).getD pos 0 =
            (originals.getD mi []).getD pos 0 := by
          intro pos hpos
          rw [houtval pos hpos, ← halg pos hpos, ← list_range_map_sum, hsum pos]
          rfl
        refine ⟨rfl, ?_, ?_, ?_⟩
        · show (Decoder.DecodeM1 (Decoder.Initialize params blocks) blocks).length = k
          rw [e, List.length_set, hblen]
        · intro p hp
          by_cases hpe : p = rpos
          · subst hpe
            show ((Decoder.DecodeM1 (Decoder.Initialize params blocks) blocks).getD rpos
              default).Index < k ∧ _
            rw [e, set_getD_self blocks rpos _ default (by omega), hidx0]
            refine ⟨hmik, ?_⟩
            apply list_eq_of_getD bb _ _ houtlen (hoblen mi hmik)
            exact houtblock
          · show ((Decoder.DecodeM1 (Decoder.Initialize params blocks) blocks).getD p
              default).Index < k ∧ _
            rw [e, set_getD_ne blocks rpos p _ default (fun hh => hpe hh.symm)]
            have hplt := hothers p hp hpe
            exact ⟨hplt, hconto p hp hplt⟩
        · intro p2 hp2 p1 hp1
          have hgetD : ∀ p, p < k → p ≠ rpos →
              (Decoder.DecodeM1 (Decoder.Initialize params blocks) blocks).getD p default =
              blocks.getD p default := by
            intro p hp hpe
            rw [e, set_getD_ne blocks rpos p _ default (fun hh => hpe hh.symm)]
          have hgetR : ((Decoder.DecodeM1 (Decoder.Initialize params blocks)
              blocks).getD rpos default).Index = mi := by
            rw [e, set_getD_self blocks rpos _ default (by omega), hidx0]
          show ((Decoder.DecodeM1 (Decoder.Initialize params blocks) blocks).getD p1
            default).Index ≠ _
          by_cases h1e : p1 = rpos
          · subst h1e
            have h2e : p2 ≠ rpos := by omega
            rw [hgetR, hgetD p2 hp2 h2e]
            intro hc
            exact hminot (hc ▸ blocks_getD_index_mem blocks p2 (by omega))
          · by_cases h2e : p2 = rpos
            · subst h2e
              rw [hgetR, hgetD p1 (by omega) h1e]
              intro hc
              exact hminot (hc ▸ blocks_getD_index_mem blocks p1 (by omega))
            · rw [hgetD p1 (by omega) h1e, hgetD p2 hp2 h2e]
              exact hdist p2 hp2 p1 hp1
      · -- m >= 2: the general Gaussian-elimination path
        have hm2 : 2 ≤ m := by omega
        set reco := recoveryPositions k blocks with hreco
        set nn := reco.length with hnn
        have hd0 := Initialize_eq params blocks
        rw [hknat] at hd0
        set ers := erasureScan (recoveryPositions k blocks).length 256 0 0
          (presenceArr k blocks) with hersdef
        have htake := Initialize_ErasuresIndices_take k blocks (by omega) hblen hdist'
        have hmlen : (missingRows k blocks).length = nn :=
          missingRows_length k blocks hblen hdist'
        have hers : ∀ t, t < nn → ers.getD t 0 = (missingRows k blocks).getD t 0 := by
          intro t ht
          rw [← htake, getD_take_lt ht]
        have hmiss_lt : ∀ t, t < nn → (missingRows k blocks).getD t 0 < k := by
          intro t ht
          exact (missingRows_mem k blocks _ (getD_mem (by omega))).1
        have hmiss_inj : ∀ t1, t1 < nn → ∀ t2, t2 < nn → t1 ≠ t2 →
            (missingRows k blocks).getD t1 0 ≠ (missingRows k blocks).getD t2 0 := by
          intro t1 h1 t2 h2 hne hc
          exact hne (nodup_getD_inj (missingRows_nodup k blocks) (by omega) (by omega) hc)
        have hreco_lt : ∀ i, i < nn → reco.getD i 0 < k := by
          intro i hi
          exact (recoveryPositions_mem k blocks _ (getD_mem hi)).1
        have hreco_lab : ∀ i, i < nn → k ≤ (blocks.getD (reco.getD i 0) default).Index := by
          intro i hi
          exact (recoveryPositions_mem k blocks _ (getD_mem hi)).2
        have hreco_inj : ∀ i1, i1 < nn → ∀ i2, i2 < nn →
            reco.getD i1 0 = reco.getD i2 0 → i1 = i2 := by
          intro i1 h1 i2 h2 h
          exact nodup_getD_inj (recoveryPositions_nodup k blocks) h1 h2 h
        have hlab_lt : ∀ i, i < nn → (blocks.getD (reco.getD i 0) default).Index < 256 := by
          intro i hi
          have := hidx _ (hreco_lt i hi)
          omega
        have hlab_inj : ∀ i1, i1 < nn → ∀ i2, i2 < nn → i1 ≠ i2 →
            (blocks.getD (reco.getD i1 0) default).Index ≠
            (blocks.getD (reco.getD i2 0) default).Index := by
          intro i1 h1 i2 h2 hne
          have hpne : reco.getD i1 0 ≠ reco.getD i2 0 :=
            fun h => hne (hreco_inj i1 h1 i2 h2 h)
          rcases Nat.lt_or_ge (reco.getD i1 0) (reco.getD i2 0) with h | h
          · exact hdist _ (hreco_lt i2 h2) _ h
          · intro hc
            exact hdist _ (hreco_lt i1 h1) _ (by omega) hc.symm
        -- the erased originals are the explicit solution of the system
        set z : Nat → Nat → GF := fun t pos =>
          (originals.getD ((missingRows k blocks).getD t 0) []).getD pos 0 with hz
        have hsolv : ∀ pos, pos < bb → ∀ i, i < nn →
            ∑ t in Finset.range nn,
              GetMatrixElement (byteOfNat ((blocks.getD (reco.getD i 0) default).Index))
                (byteOfNat k) (byteOfNat ((missingRows k blocks).getD t 0)) * z t pos =
            ((blocks.getD (reco.getD i 0) default).Block).getD pos 0 +
            ((originalPositions k blocks).map (fun p =>
              GetMatrixElement (byteOfNat ((blocks.getD (reco.getD i 0) default).Index))
                (byteOfNat k) (byteOfNat ((blocks.getD p default).Index)) *
              ((blocks.getD p default).Block).getD pos 0)).sum := by
          intro pos hpos i hi
          set lab := (blocks.getD (reco.getD i 0) default).Index with hlab
          set f : Nat → GF := fun j =>
            GetMatrixElement (byteOfNat lab) (byteOfNat k) (byteOfNat j) *
              (originals.getD j []).getD pos 0 with hf
          have hlabk : k ≤ lab := hreco_lab i hi
          have hlabm : lab < k + m := hidx _ (hreco_lt i hi)
          -- the recovery byte is the full matrix combination
          have hrb : ((blocks.getD (reco.getD i 0) default).Block).getD pos 0 =
              ∑ j in Finset.range k, f j := by
            rw [hcontr _ (hreco_lt i hi) hlabk, hrbyte (lab - k) (by omega) pos hpos,
              show k + (lab - k) = lab from by omega]
          -- the survivor terms carry the original contents
          have hsurv : ((originalPositions k blocks).map (fun p =>
              GetMatrixElement (byteOfNat lab) (byteOfNat k)
                (byteOfNat ((blocks.getD p default).Index)) *
              ((blocks.getD p default).Block).getD pos 0)).sum =
              ((originalPositions k blocks).map
                (fun p => f ((blocks.getD p default).Index))).sum := by
            apply congrArg List.sum
            apply List.map_congr_left
            intro p hp
            obtain ⟨hpk, hplt⟩ := originalPositions_mem k blocks p hp
            rw [hf]
            show GetMatrixElement _ _ _ * ((blocks.getD p default).Block).getD pos 0 = _
            rw [hconto p hpk hplt]
          -- the left-hand side is the sum over the missing rows
          have hlhs : ∑ t in Finset.range nn,
              GetMatrixElement (byteOfNat lab) (byteOfNat k)
                (byteOfNat ((missingRows k blocks).getD t 0)) * z t pos =
              ((missingRows k blocks).map f).sum := by
            rw [list_map_sum_eq_range_sum, hmlen]
          rw [hlhs, hrb, hsurv]
          have hsplit := sum_split_missing k blocks f
          have hpres := present_eq_survivors k blocks hblen hdist f
          rw [hsplit, hpres, add_assoc, GF.add_self, add_zero]
        -- run the verified decoder
        have hd : Decoder.Initialize params blocks =
            { Params := params
              Original := originalPositions k blocks
              Recovery := recoveryPositions k blocks
              ErasuresIndices := ers } := hd0
        obtain ⟨d1, d2, σ, hσlt, hσinj, hσval⟩ := Decode_spec params blocks k bb ers z
          hknat hd hn1 hblen hbuf hbb1 (by omega) hers hmiss_lt hmiss_inj hlab_lt hlab_inj
          hsolv
        have hcall : cm256_decode params blocks =
            (0, Decoder.Decode (Decoder.Initialize params blocks) blocks) := by
          unfold cm256_decode
          rw [if_neg (by omega), if_neg (by omega),
            if_neg (by omega : ¬ params.OriginalCount = 1)]
          rw [if_neg (by
              rw [hd]
              show ¬ (recoveryPositions k blocks).length = 0
              have hn1x : 1 ≤ (recoveryPositions k blocks).length := hn1
              omega),
            if_neg (by omega : ¬ params.RecoveryCount = 1)]
        rw [hcall]
        set out := Decoder.Decode (Decoder.Initialize params blocks) blocks with hout
        -- classify each position
        have houtO : ∀ p, p < k → (blocks.getD p default).Index < k →
            out.getD p default = blocks.getD p default := by
          intro p hp hplt
          apply d2
          intro i hi hc
          have hmem : p ∈ reco := by
            rw [← hc]
            exact getD_mem hi
          have := (recoveryPositions_mem k blocks p hmem).2
          omega
        have houtR : ∀ p, p < k → k ≤ (blocks.getD p default).Index →
            ∃ t, t < nn ∧ reco.getD (σ t) 0 = p ∧
              (out.getD p default).Index = (missingRows k blocks).getD t 0 ∧
              (out.getD p default).Block =
                originals.getD ((missingRows k blocks).getD t 0) [] := by
          intro p hp hge
          have hmem : p ∈ reco := by
            apply List.mem_filter.mpr
            refine ⟨List.mem_range.mpr hp, ?_⟩
            rw [decide_eq_false (by omega : ¬ (blocks.getD p default).Index < k)]
            rfl
          obtain ⟨q, hq, hqe⟩ := mem_iff_getD.mp hmem
          obtain ⟨t, ht, hte⟩ := inj_on_range_surj nn σ hσlt hσinj q hq
          obtain ⟨hv1, hv2, hv3⟩ := hσval t ht
          rw [hte, hqe] at hv1 hv2 hv3
          refine ⟨t, ht, by rw [hte]; exact hqe, hv1, ?_⟩
          apply list_eq_of_getD bb _ _ hv2 (hoblen _ (hmiss_lt t ht))
          intro pos hpos
          rw [hv3 pos hpos]
        refine ⟨rfl, d1, ?_, ?_⟩
        · intro p hp
          by_cases hplt : (blocks.getD p default).Index < k
          · rw [houtO p hp hplt]
            exact ⟨hplt, hconto p hp hplt⟩
          · obtain ⟨t, ht, _, he1, he2⟩ := houtR p hp (by omega)
            rw [he1, he2]
            exact ⟨hmiss_lt t ht, rfl⟩
        · intro p2 hp2 p1 hp1
          by_cases h1lt : (blocks.getD p1 default).Index < k
          · by_cases h2lt : (blocks.getD p2 default).Index < k
            · rw [houtO p1 (by omega) h1lt, houtO p2 hp2 h2lt]
              exact hdist p2 hp2 p1 hp1
            · obtain ⟨t, ht, _, he1, _⟩ := houtR p2 hp2 (by omega)
              rw [houtO p1 (by omega) h1lt, he1]
              intro hc
              have hmm2 : (missingRows k blocks).getD t 0 ∈ missingRows k blocks :=
                getD_mem (by omega)
              have hnot := (missingRows_mem k blocks _ hmm2).2
              exact hnot (hc ▸ blocks_getD_index_mem blocks p1 (by omega))
          · obtain ⟨t1, ht1, hq1, he1, _⟩ := houtR p1 (by omega) (by omega)
            by_cases h2lt : (blocks.getD p2 default).Index < k
            · rw [houtO p2 hp2 h2lt, he1]
              intro hc
              have hmm2 : (missingRows k blocks).getD t1 0 ∈ missingRows k blocks :=
                getD_mem (by omega)
              have hnot := (missingRows_mem k blocks _ hmm2).2
              exact hnot (hc.symm ▸ blocks_getD_index_mem blocks p2 (by omega))
            · obtain ⟨t2, ht2, hq2, he2, _⟩ := houtR p2 hp2 (by omega)
              rw [he1, he2]
              apply hmiss_inj t1 ht1 t2 ht2
              intro hc
              subst hc
              exact absurd (hq1.symm.trans hq2) (by omega)


/-- Concrete instance of the round trip: `k = 2`, `m = 1`, one byte per
block, originals `[3]` and `[5]`, recovery block `[6]`; the survivors
are the recovery block (label 2) and original 1, and the decode restores
both originals. -/
theorem cm256_encode_decode_roundtrip_witness :
    (cm256_decode ⟨2, 1, 1⟩
      [{ Block := [byteOfNat 6], Index := 2 }, { Block := [byteOfNat 5], Index := 1 }]).1 = 0 ∧
    (cm256_decode ⟨2, 1, 1⟩
      [{ Block := [byteOfNat 6], Index := 2 }, { Block := [byteOfNat 5], Index := 1 }]).2.length = 2 ∧
    (∀ p, p < 2 →
      (((cm256_decode ⟨2, 1, 1⟩
        [{ Block := [byteOfNat 6], Index := 2 },
         { Block := [byteOfNat 5], Index := 1 }]).2.getD p default).Index < 2 ∧
      (((cm256_decode ⟨2, 1, 1⟩
        [{ Block := [byteOfNat 6], Index := 2 },
         { Block := [byteOfNat 5], Index := 1 }]).2.getD p default)).Block =
        [[byteOfNat 3], [byteOfNat 5]].getD
          (((cm256_decode ⟨2, 1, 1⟩
            [{ Block := [byteOfNat 6], Index := 2 },
             { Block := [byteOfNat 5], Index := 1 }]).2.getD p default).Index) [])) ∧
    (∀ p2, p2 < 2 → ∀ p1, p1 < p2 →
      ((cm256_decode ⟨2, 1, 1⟩
        [{ Block := [byteOfNat 6], Index := 2 },
         { Block := [byteOfNat 5], Index := 1 }]).2.getD p1 default).Index ≠
      ((cm256_decode ⟨2, 1, 1⟩
        [{ Block := [byteOfNat 6], Index := 2 },
         { Block := [byteOfNat 5], Index := 1 }]).2.getD p2 default).Index) := by
  apply cm256_encode_decode_roundtrip ⟨2, 1, 1⟩ 2 1 1
    [[byteOfNat 3], [byteOfNat 5]] [[byteOfNat 6]]
    [{ Block := [byteOfNat 6], Index := 2 }, { Block := [byteOfNat 5], Index := 1 }]
    rfl rfl rfl (by omega) (by omega) (by omega) (by omega) rfl
    (by decide) rfl rfl (by decide) (by decide) (by decide) (by decide)
